import Mathlib

/-!
# Line breaking and justification of `TextBlock`

Shallow embedding of `TextBlock::layout` from
`lib/Epub/RubbishHtmlParser/blocks/TextBlock.h`.

* `int` values are integers reduced to 32 bits by `wrapInt` after every
  arithmetic operation of the solver; `size_t` values are naturals reduced
  by `wrapSize` (the ESP32 is a 32-bit target). The `int` sums and
  differences of the positioning loop (sums of at most `n` 16-bit widths)
  are taken exactly.
* The two stack arrays `dp` and `ans` are total maps; what they hold before
  the solver writes them (the arrays are not initialised) is an argument of
  the model, `garbage`.
* A `float` value is the rational it denotes, and every `float` operation is
  the exact operation followed by `f32`, the rounding to the nearest binary32
  value, ties to even. Infinities are not modelled: the largest `float` is
  just below `2^128`, and the values of `layout`, sums of at most `2^31` terms
  below `2^33`, stay far below it. The conversion of a `float` to the
  `uint16_t` field `Word::xpos` is `toUint16`.
* A block is held as the list of measured word widths, the map from word
  index to stored `xpos`, and the vector `line_breaks`.
-/

/-- The renderer as far as `layout` reads it: `get_page_width()` and
`get_space_width()`. -/
structure Renderer where
  page_width : Int
  space_width : Int

/-- The class `TextBlock` after its words have been measured: `widths` lists
`words[k]->width` in order, `xpos k` is the `uint16_t` field `words[k]->xpos`
(a value below `65536`), `line_breaks` is the vector of the same name. -/
structure TextBlock where
  widths : List Nat
  xpos : Nat → Nat
  line_breaks : List Nat

namespace TextBlock

/-! ## Machine arithmetic -/

/-- The constant `INT_MAX` of `<limits.h>` for a 32-bit `int`. -/
def INT_MAX : Int := 2147483647

/-- Value of an `int` expression: the mathematical result reduced to the
two's complement range `[-2^31, 2^31)`. -/
def wrapInt (x : Int) : Int := (x + 2147483648) % 4294967296 - 2147483648

/-- Value of a `size_t` expression: the mathematical result modulo `2^32`. -/
def wrapSize (x : Nat) : Nat := x % 4294967296

/-- Nearest integer, a tie going to the even one. -/
def roundEven (t : ℚ) : Int :=
  if t - ⌊t⌋ < 1 / 2 then ⌊t⌋
  else if 1 / 2 < t - ⌊t⌋ then ⌊t⌋ + 1
  else if ⌊t⌋ % 2 = 0 then ⌊t⌋ else ⌊t⌋ + 1

/-- Exponent `e` of the binary32 values next to `x`: `2^e <= |x| < 2^(e+1)`,
and `-126` below the normal range. -/
def f32Exponent (x : ℚ) : Int := max (Int.log 2 |x|) (-126)

/-- Rounding to `float`: the nearest multiple of `2^(e - 23)`, the spacing of
the binary32 values with 24 significant bits around `x`, ties to even. -/
def f32 (x : ℚ) : ℚ :=
  (roundEven (x / 2 ^ (f32Exponent x - 23)) : ℚ) * 2 ^ (f32Exponent x - 23)

/-- Truncation of a rational towards zero (conversion of a `float` to an
integer type). -/
def truncQ (x : ℚ) : Int := if 0 ≤ x then ⌊x⌋ else ⌈x⌉

/-- Conversion of a `float` to the `uint16_t` field `xpos`: the truncation,
when it lies in `[0, 65536)`. C++ leaves the conversion of any other value
undefined; the model keeps the low 16 bits of the truncation there, and the
statements below use no more of that case than that the field holds a value
below `65536`. -/
def toUint16 (x : ℚ) : Nat := (truncQ x % 65536).toNat

/-! ## Data model -/

/-- The local arrays `int dp[n]` and `size_t ans[n]`. -/
structure Tables where
  dp : Nat → Int
  ans : Nat → Nat

/-- A block that has never been laid out: every `xpos` is `0` and
`line_breaks` is empty. -/
def fresh (ws : List Nat) : TextBlock := ⟨ws, fun _ => 0, []⟩

/-! ## The solver (lines 68-114) -/

/-- The loop `for (int j = i; j < n; j++)` of line 91. The list argument holds
`words[j], words[j+1], ...`; `currlen` is the value of the variable before the
word `j` is added. -/
def innerLoop (pw sw : Int) (n i : Nat) : List Nat → Nat → Int → Tables → Tables
  | [], _, _, t => t
  | w :: rest, j, currlen, t =>
    let currlen := wrapInt (currlen + wrapInt ((w : Int) + sw))
    if currlen > pw then t
    else
      let cost : Int :=
        if j = n - 1 then 0
        else wrapInt (wrapInt (wrapInt (pw - currlen) * wrapInt (pw - currlen)) + t.dp (j + 1))
      if cost < t.dp i then
        innerLoop pw sw n i rest (j + 1) currlen
          ⟨Function.update t.dp i cost, Function.update t.ans i j⟩
      else innerLoop pw sw n i rest (j + 1) currlen t

/-- One pass of the body of the loop of line 82 for the start word `i`:
`currlen = -1`, `dp[i] = INT_MAX`, then the inner loop from `j = i`. -/
def row (ws : List Nat) (pw sw : Int) (i : Nat) (t : Tables) : Tables :=
  innerLoop pw sw ws.length i (ws.drop i) i (-1) ⟨Function.update t.dp i INT_MAX, t.ans⟩

/-- The loop `for (int i = n - 2; i >= 0; i--)`: `outerLoop ws pw sw k t` runs
the passes for `i = k - 1, k - 2, ..., 0`. -/
def outerLoop (ws : List Nat) (pw sw : Int) : Nat → Tables → Tables
  | 0, t => t
  | i + 1, t => outerLoop ws pw sw i (row ws pw sw i t)

/-- Lines 68-114: the tables after the dynamic programme. For `n = 0` the two
initial stores go to index `-1`, outside both arrays, and no pass runs: the
tables are left as they were. -/
def solve (ws : List Nat) (pw sw : Int) (garbage : Tables) : Tables :=
  let n := ws.length
  if n = 0 then garbage
  else
    outerLoop ws pw sw (n - 1)
      ⟨Function.update garbage.dp (n - 1) 0, Function.update garbage.ans (n - 1) (n - 1)⟩

/-! ## Reconstruction of the breaks (lines 116-143) -/

/-- The loop `while (i < n)` of line 117, run for at most `fuel` iterations,
starting from the index `i` with the vector `lb`. -/
def followLinks (ans : Nat → Nat) (n : Nat) : Nat → Nat → List Nat → List Nat
  | 0, _, lb => lb
  | fuel + 1, i, lb =>
    if i < n then
      let i := wrapSize (ans i + 1)
      if i > n then lb
      else
        let lb := lb ++ [i]
        if lb.length > 1000 then lb
        else followLinks ans n fuel i lb
    else lb

/-! ## Positioning of the words (lines 145-169) -/

/-- Sum of the widths of the words `start, ..., stop - 1`
(`total_word_width` of line 148). -/
def total_word_width (ws : List Nat) (start stop : Nat) : Nat :=
  ((ws.drop start).take (stop - start)).sum

/-- The statement `xpos += words[word_index]->width + actual_spacing` of line
166: the width is converted to `float`, the sum is a `float` addition, and so
is the addition to `xpos`. -/
def nextXpos (spacing : ℚ) (x : ℚ) (w : Nat) : ℚ := f32 (x + f32 (f32 (w : ℚ) + spacing))

/-- The loop of line 163: the list holds the widths of the words `k, k+1, ...`
of the line, `x` is the value of the `float xpos`. -/
def placeWords (spacing : ℚ) : List Nat → Nat → ℚ → (Nat → ℚ) → (Nat → ℚ)
  | [], _, _, xp => xp
  | w :: rest, k, x, xp =>
    placeWords spacing rest (k + 1) (nextXpos spacing x w) (Function.update xp k x)

/-- The value of the `float actual_spacing` for the line number `i` of `total`
lines that holds the words `start, ..., stop - 1`: the conversion of
`space_width` (line 153), or the `float` quotient of line 159, whose operands
are the conversions of the two `int` values. -/
def actual_spacing (ws : List Nat) (pw sw : Int) (total i start stop : Nat) : ℚ :=
  if i ≠ total - 1 ∧ (stop : Int) - (start : Int) > 2 then
    f32 (f32 ((pw - (total_word_width ws start stop : Int) : Int) : ℚ) /
      f32 (((stop : Int) - (start : Int) - 1 : Int) : ℚ))
  else f32 (sw : ℚ)

/-- The loop of line 146 over the entries of `line_breaks` that are still to
be visited; `i` is the loop counter, `start` the variable `start_word`, `total`
is `line_breaks.size()`. -/
def positionLines (ws : List Nat) (pw sw : Int) (total : Nat) :
    List Nat → Nat → Nat → (Nat → ℚ) → (Nat → ℚ)
  | [], _, _, xp => xp
  | b :: rest, i, start, xp =>
    positionLines ws pw sw total rest (i + 1) b
      (placeWords (actual_spacing ws pw sw total i start b)
        ((ws.drop start).take (b - start)) start 0 xp)

/-! ## `TextBlock::layout` -/

/-- The vector `line_breaks` after `layout`. -/
def layoutBreaks (r : Renderer) (garbage : Tables) (b : TextBlock) : List Nat :=
  followLinks (solve b.widths r.page_width r.space_width garbage).ans b.widths.length
    1001 0 b.line_breaks

/-- The `float` value of `xpos` in the last assignment `words[k]->xpos = xpos`
that `layout` makes for the word `k`, before its conversion to `uint16_t` (the
stored value where `layout` assigns none). -/
def layoutOffsets (r : Renderer) (garbage : Tables) (b : TextBlock) : Nat → ℚ :=
  let lb := layoutBreaks r garbage b
  positionLines b.widths r.page_width r.space_width lb.length lb 0 0 (fun k => (b.xpos k : ℚ))

/-- The block after `layout(renderer, epub)`, the words having been measured. -/
def layout (r : Renderer) (garbage : Tables) (b : TextBlock) : TextBlock :=
  ⟨b.widths, fun k => toUint16 (layoutOffsets r garbage b k), layoutBreaks r garbage b⟩

/-! ## Vocabulary of the statements -/

/-- The value `currlen` reaches for the candidate line of the words
`start, ..., stop - 1`, computed without overflow. -/
def lineLen (ws : List Nat) (sw : Int) (start stop : Nat) : Int :=
  (total_word_width ws start stop : Int) + ((stop - start : Nat) : Int) * sw - 1

/-- The lines `[0, b0), [b0, b1), ...` delimited by a break sequence, as pairs
`(start, stop)`. -/
def linesOf (bs : List Nat) : List (Nat × Nat) := (0 :: bs).zip bs

/-- The cost the solver gives the candidate line that ends with the word `j`
and has the accumulated length `len`, computed without overflow. -/
def candCost (n : Nat) (pw : Int) (dp : Nat → Int) (len : Int) (j : Nat) : Int :=
  if j = n - 1 then 0 else (pw - len) * (pw - len) + dp (j + 1)

/-- The bound `(n - 1 - k) * (pw + 1)^2` on the cost of the lines from the
word `k` on. -/
def costBound (n : Nat) (pw : Int) (k : Nat) : Int :=
  ((n - 1 - k : Nat) : Int) * ((pw + 1) * (pw + 1))

/-- The inputs on which the solver reads no uninitialised entry and no `int`
overflows: every word alone passes the width test of line 97, the space width
is not negative, the page width is positive, and the largest possible total
cost `(n - 1) * (pw + 1)^2` stays below `INT_MAX`. -/
structure ValidInput (ws : List Nat) (pw sw : Int) : Prop where
  fits : ∀ w ∈ ws, (w : Int) + sw - 1 ≤ pw
  space_nonneg : 0 ≤ sw
  page_pos : 0 < pw
  cost_small : costBound ws.length pw 0 < INT_MAX

/-- `Chain ans n i bs`: the list `bs` holds successive values of the index `i`
in the loop of line 117, each one the chosen end of the line that starts at the
previous one, plus one. -/
def Chain (ans : Nat → Nat) (n : Nat) : Nat → List Nat → Prop
  | _, [] => True
  | i, b :: rest => i < n ∧ b = ans i + 1 ∧ Chain ans n b rest

/-- What the tables hold for the start word `i` once its pass has run. -/
structure Good (ws : List Nat) (pw sw : Int) (t : Tables) (i : Nat) : Prop where
  le_ans : i ≤ t.ans i
  ans_lt : t.ans i < ws.length
  admitted : lineLen ws sw i (t.ans i + 1) ≤ pw
  dp_nonneg : 0 ≤ t.dp i
  dp_le : t.dp i ≤ costBound ws.length pw i
  dp_eq : t.dp i = candCost ws.length pw t.dp (lineLen ws sw i (t.ans i + 1)) (t.ans i)
  dp_min : ∀ j, i ≤ j → j < ws.length → lineLen ws sw i (j + 1) ≤ pw →
    t.dp i ≤ candCost ws.length pw t.dp (lineLen ws sw i (j + 1)) j
  dp_first : ∀ j, i ≤ j → j < t.ans i →
    t.dp i < candCost ws.length pw t.dp (lineLen ws sw i (j + 1)) j

/-- What the inner loop, entered at `j` with the tables `t`, has done to the
tables when it leaves them as `t'`. -/
structure InnerPost (ws : List Nat) (pw sw : Int) (i j : Nat) (t t' : Tables) : Prop where
  frame : ∀ k, k ≠ i → t'.dp k = t.dp k ∧ t'.ans k = t.ans k
  chosen : (t'.dp i = t.dp i ∧ t'.ans i = t.ans i) ∨
    ∃ j', j ≤ j' ∧ j' < ws.length ∧ lineLen ws sw i (j' + 1) ≤ pw ∧ t'.ans i = j' ∧
      t'.dp i = candCost ws.length pw t.dp (lineLen ws sw i (j' + 1)) j' ∧
      t'.dp i < t.dp i ∧
      ∀ j'', j ≤ j'' → j'' < j' →
        t'.dp i < candCost ws.length pw t.dp (lineLen ws sw i (j'' + 1)) j''
  least : ∀ j', j ≤ j' → j' < ws.length → lineLen ws sw i (j' + 1) ≤ pw →
    t'.dp i ≤ candCost ws.length pw t.dp (lineLen ws sw i (j' + 1)) j'
  le_old : t'.dp i ≤ t.dp i

/-- The value of the `float xpos` of the loop of line 163 once it has passed
the words of the list, from the value `x`. -/
def advance (spacing : ℚ) (l : List Nat) (x : ℚ) : ℚ := l.foldl (nextXpos spacing) x

/-- First word of the line number `k`, as `render` reads it (line 173):
`line_break_index == 0 ? 0 : line_breaks[line_break_index - 1]`. -/
def lineStart (lb : List Nat) (k : Nat) : Nat := if k = 0 then 0 else lb.getD (k - 1) 0

/-- End (exclusive) of the line number `k`, as `render` reads it (line 174):
`line_breaks[line_break_index]`. -/
def lineEnd (lb : List Nat) (k : Nat) : Nat := lb.getD k 0

/-- Total cost of the lines `[s, b0), [b0, b1), ...`: a line that ends before
the last word costs the square of the page width minus `currlen`, the line
that ends at the word count costs `0`. -/
def partitionCost (ws : List Nat) (pw sw : Int) : Nat → List Nat → Int
  | _, [] => 0
  | s, b :: rest =>
    (if b = ws.length then 0 else (pw - lineLen ws sw s b) * (pw - lineLen ws sw s b)) +
      partitionCost ws pw sw b rest

/-- A partition of the words into consecutive non-empty lines that each pass
the width test of line 97, given by its breaks. -/
structure IsPartition (ws : List Nat) (pw sw : Int) (bs : List Nat) : Prop where
  increasing : (0 :: bs).Pairwise (· < ·)
  ends : bs.getLast? = some ws.length
  fits : ∀ p ∈ linesOf bs, lineLen ws sw p.1 p.2 ≤ pw

/-- Tables whose uninitialised entries all read `0`. -/
def zeroTables : Tables := ⟨fun _ => 0, fun _ => 0⟩

/-! ## Instrumented loops and reference versions -/

/-- What a run of the loop of line 117 has done: the vector it leaves, the number
of times its body ran, and whether it took the branch of line 120 (the one that
logs that it has fallen off the end of the words). -/
structure LinkRun where
  breaks : List Nat
  iterations : Nat
  fellOff : Bool
  deriving DecidableEq

/-- The loop `while (i < n)` of line 117 once more, with the count of the
iterations of its body and the flag of the branch of line 120; `none` when
`fuel` iterations did not bring the loop to a stop. -/
def followLinksRun (ans : Nat → Nat) (n : Nat) : Nat → Nat → List Nat → Option LinkRun
  | 0, i, lb => if i < n then none else some ⟨lb, 0, false⟩
  | fuel + 1, i, lb =>
    if i < n then
      let i := wrapSize (ans i + 1)
      if i > n then some ⟨lb, 1, true⟩
      else
        let lb := lb ++ [i]
        if lb.length > 1000 then some ⟨lb, 1, false⟩
        else (followLinksRun ans n fuel i lb).map
          (fun run => ⟨run.breaks, run.iterations + 1, run.fellOff⟩)
    else some ⟨lb, 0, false⟩

/-- Index of the two stores of lines 78-79, `dp[n - 1]` and `ans[n - 1]`, where
`n` is the `int` word count. -/
def baseIndex (n : Nat) : Int := (n : Int) - 1

/-- The indices the solver stores to in `dp`, in order: `n - 1` (line 78), then
`i = n - 2, ..., 0` (line 85). -/
def storedIndices (n : Nat) : List Int :=
  baseIndex n :: ((List.range (n - 1)).reverse.map (fun (i : Nat) => (i : Int)))

/-- An index inside the arrays `dp[n]` and `ans[n]`. -/
def InTable (n : Nat) (k : Int) : Prop := 0 ≤ k ∧ k < (n : Int)

/-- The candidates the loop of line 91 admits from the word `j` on, each with
the cost the loop computes for it; the loop stops at the first word that makes
`currlen` exceed the page width. -/
def admittedCosts (pw sw : Int) (n : Nat) (dp : Nat → Int) :
    List Nat → Nat → Int → List (Nat × Int)
  | [], _, _ => []
  | w :: rest, j, currlen =>
    let currlen := wrapInt (currlen + wrapInt ((w : Int) + sw))
    if currlen > pw then []
    else
      let cost : Int :=
        if j = n - 1 then 0
        else wrapInt (wrapInt (wrapInt (pw - currlen) * wrapInt (pw - currlen)) + dp (j + 1))
      (j, cost) :: admittedCosts pw sw n dp rest (j + 1) currlen

/-- Reference for the early exit, the exhaustive dynamic programme: every `j`
from `i` to `n - 1` is examined, a candidate whose length exceeds the page
width is skipped and the search goes on with the next `j`. Lengths and costs
are the exact integers; the entry `dp[i]` starts at `INT_MAX` and a candidate
replaces the best so far when its cost is strictly smaller, as in the code. -/
def innerLoopAll (pw sw : Int) (n i : Nat) : List Nat → Nat → Int → Tables → Tables
  | [], _, _, t => t
  | w :: rest, j, currlen, t =>
    let currlen := currlen + ((w : Int) + sw)
    if currlen > pw then innerLoopAll pw sw n i rest (j + 1) currlen t
    else
      let cost : Int :=
        if j = n - 1 then 0
        else (pw - currlen) * (pw - currlen) + t.dp (j + 1)
      if cost < t.dp i then
        innerLoopAll pw sw n i rest (j + 1) currlen
          ⟨Function.update t.dp i cost, Function.update t.ans i j⟩
      else innerLoopAll pw sw n i rest (j + 1) currlen t

/-- One pass of the exhaustive dynamic programme for the start word `i`. -/
def rowAll (ws : List Nat) (pw sw : Int) (i : Nat) (t : Tables) : Tables :=
  innerLoopAll pw sw ws.length i (ws.drop i) i (-1) ⟨Function.update t.dp i INT_MAX, t.ans⟩

/-- The passes of the exhaustive dynamic programme for `i = k - 1, ..., 0`. -/
def outerLoopAll (ws : List Nat) (pw sw : Int) : Nat → Tables → Tables
  | 0, t => t
  | i + 1, t => outerLoopAll ws pw sw i (rowAll ws pw sw i t)

/-- The tables of the exhaustive dynamic programme. -/
def solveAll (ws : List Nat) (pw sw : Int) (garbage : Tables) : Tables :=
  let n := ws.length
  if n = 0 then garbage
  else
    outerLoopAll ws pw sw (n - 1)
      ⟨Function.update garbage.dp (n - 1) 0, Function.update garbage.ans (n - 1) (n - 1)⟩

/-- The loop of line 91 computed over unbounded integers: as `innerLoop`, with
no reduction to 32 bits. -/
def innerLoopZ (pw sw : Int) (n i : Nat) : List Nat → Nat → Int → Tables → Tables
  | [], _, _, t => t
  | w :: rest, j, currlen, t =>
    let currlen := currlen + ((w : Int) + sw)
    if currlen > pw then t
    else
      let cost : Int :=
        if j = n - 1 then 0
        else (pw - currlen) * (pw - currlen) + t.dp (j + 1)
      if cost < t.dp i then
        innerLoopZ pw sw n i rest (j + 1) currlen
          ⟨Function.update t.dp i cost, Function.update t.ans i j⟩
      else innerLoopZ pw sw n i rest (j + 1) currlen t

/-- One pass of the dynamic programme over unbounded integers. -/
def rowZ (ws : List Nat) (pw sw : Int) (i : Nat) (t : Tables) : Tables :=
  innerLoopZ pw sw ws.length i (ws.drop i) i (-1) ⟨Function.update t.dp i INT_MAX, t.ans⟩

/-- The passes of the dynamic programme over unbounded integers. -/
def outerLoopZ (ws : List Nat) (pw sw : Int) : Nat → Tables → Tables
  | 0, t => t
  | i + 1, t => outerLoopZ ws pw sw i (rowZ ws pw sw i t)

/-- The tables of the dynamic programme computed over unbounded integers. -/
def solveZ (ws : List Nat) (pw sw : Int) (garbage : Tables) : Tables :=
  let n := ws.length
  if n = 0 then garbage
  else
    outerLoopZ ws pw sw (n - 1)
      ⟨Function.update garbage.dp (n - 1) 0, Function.update garbage.ans (n - 1) (n - 1)⟩

/-! ## `Word::render` and `TextBlock::render` (lines 31-34 and 171-179) -/

/-- The class `Word`: its text, its style and the two fields `layout` sets. -/
structure Word where
  text : List Char
  bold : Bool
  italic : Bool
  xpos : Nat
  width : Nat

/-- One call `renderer->draw_text(x, y, text, bold, italic)`. -/
structure DrawCall where
  x : Nat
  y : Int
  text : List Char
  bold : Bool
  italic : Bool
  deriving DecidableEq

/-- Body of `Word::render`: the one call of `draw_text` it makes. -/
def Word.render (w : Word) (y : Int) : DrawCall := ⟨w.xpos, y, w.text, w.bold, w.italic⟩

/-- The loop `for (int i = start; i < end; i++)` of line 175 from the index
`i`, with the calls made so far; `none` when it indexes `words` out of
range. -/
def renderFrom (words : List Word) (y_pos : Int) (stop : Nat) (i : Nat)
    (out : List DrawCall) : Option (List DrawCall) :=
  if i < stop then
    match words[i]? with
    | none => none
    | some w => renderFrom words y_pos stop (i + 1) (out ++ [w.render y_pos])
  else some out
termination_by stop - i

/-- The calls of `draw_text` that `TextBlock::render(renderer, line_break_index,
y_pos)` makes on a block with the given words and `line_breaks`, in order;
`none` when it indexes `line_breaks` or `words` out of range. -/
def render (words : List Word) (line_breaks : List Nat) (line_break_index : Nat)
    (y_pos : Int) : Option (List DrawCall) :=
  match (if line_break_index = 0 then some 0 else line_breaks[line_break_index - 1]?),
      line_breaks[line_break_index]? with
  | some start, some stop => renderFrom words y_pos stop start []
  | _, _ => none

/-! ## Arithmetic lemmas -/

theorem wrapInt_eq_self {x : Int} (h1 : -2147483648 ≤ x) (h2 : x < 2147483648) :
    wrapInt x = x := by
  unfold wrapInt; omega

theorem wrapSize_eq_self {x : Nat} (h : x < 4294967296) : wrapSize x = x := by
  unfold wrapSize; omega

theorem total_word_width_self (ws : List Nat) (s : Nat) : total_word_width ws s s = 0 := by
  simp [total_word_width]

theorem total_word_width_succ (ws : List Nat) {s j : Nat} (hs : s ≤ j) (hj : j < ws.length) :
    total_word_width ws s (j + 1) = total_word_width ws s j + ws[j] := by
  unfold total_word_width
  have e : j + 1 - s = (j - s) + 1 := by omega
  have hlen : j - s < (ws.drop s).length := by simp; omega
  rw [e, List.sum_take_succ _ _ hlen]
  congr 1
  simp only [List.getElem_drop]
  congr 1
  omega

theorem lineLen_self (ws : List Nat) (sw : Int) (s : Nat) : lineLen ws sw s s = -1 := by
  simp [lineLen, total_word_width_self]

theorem lineLen_succ (ws : List Nat) (sw : Int) {s j : Nat} (hs : s ≤ j) (hj : j < ws.length) :
    lineLen ws sw s (j + 1) = lineLen ws sw s j + ((ws[j] : Nat) : Int) + sw := by
  unfold lineLen
  rw [total_word_width_succ ws hs hj]
  have e : j + 1 - s = (j - s) + 1 := by omega
  rw [e]
  push_cast
  ring

theorem lineLen_mono (ws : List Nat) {sw : Int} (hsw : 0 ≤ sw) (s : Nat) {a b : Nat}
    (hsa : s ≤ a) (hab : a ≤ b) (hb : b ≤ ws.length) :
    lineLen ws sw s a ≤ lineLen ws sw s b := by
  induction b, hab using Nat.le_induction with
  | base => exact le_refl _
  | succ k hk ih =>
    have hk' : k < ws.length := by omega
    rw [lineLen_succ ws sw (le_trans hsa hk) hk']
    have := ih (by omega)
    have hw : (0 : Int) ≤ ((ws[k] : Nat) : Int) := Int.natCast_nonneg _
    omega

theorem lineLen_ge (ws : List Nat) {sw : Int} (hsw : 0 ≤ sw) {s b : Nat}
    (hsb : s ≤ b) (hb : b ≤ ws.length) : -1 ≤ lineLen ws sw s b := by
  have := lineLen_mono ws hsw s (le_refl s) hsb hb
  rw [lineLen_self] at this
  exact this

/-! ## The solver on valid input -/

theorem candCost_congr (n : Nat) (pw : Int) {dp dp' : Nat → Int} (len : Int) {i j : Nat}
    (hij : i ≤ j) (h : ∀ k, i < k → dp k = dp' k) :
    candCost n pw dp len j = candCost n pw dp' len j := by
  unfold candCost
  rw [h (j + 1) (by omega)]

theorem costBound_succ {n k : Nat} (pw : Int) (hk : k + 1 < n) :
    costBound n pw k = (pw + 1) * (pw + 1) + costBound n pw (k + 1) := by
  unfold costBound
  have e : n - 1 - k = (n - 1 - (k + 1)) + 1 := by omega
  rw [e]
  push_cast
  ring

theorem costBound_nonneg (n : Nat) (pw : Int) (k : Nat) : 0 ≤ costBound n pw k := by
  unfold costBound
  exact mul_nonneg (Int.natCast_nonneg _) (mul_self_nonneg _)

theorem costBound_anti (n : Nat) (pw : Int) {a b : Nat} (hab : a ≤ b) :
    costBound n pw b ≤ costBound n pw a := by
  unfold costBound
  apply mul_le_mul_of_nonneg_right _ (mul_self_nonneg _)
  exact_mod_cast (by omega : n - 1 - b ≤ n - 1 - a)

/-- On valid input with at least two words the page width is small against
the `int` range. -/
theorem ValidInput.pw_range {ws : List Nat} {pw sw : Int} (h : ValidInput ws pw sw)
    (hn : 2 ≤ ws.length) : -1 ≤ pw ∧ pw ≤ 46340 ∧ (pw + 1) * (pw + 1) < INT_MAX := by
  have hpos := h.page_pos
  have hc := h.cost_small
  have hb := costBound_succ (n := ws.length) (k := 0) pw (by omega)
  have hnn := costBound_nonneg ws.length pw 1
  have hsq : (pw + 1) * (pw + 1) < INT_MAX := by
    simp only [Nat.zero_add] at hb
    omega
  obtain ⟨w, hw⟩ := List.exists_mem_of_length_pos (by omega : 0 < ws.length)
  have hf := h.fits w hw
  have hs := h.space_nonneg
  have hw0 : (0 : Int) ≤ (w : Int) := Int.natCast_nonneg _
  have h1 : -1 ≤ pw := by omega
  refine ⟨h1, ?_, hsq⟩
  unfold INT_MAX at hsq
  by_contra hcon
  push_neg at hcon
  nlinarith

theorem cost_wrap_free {pw c d : Int} (hpw1 : -1 ≤ pw) (hpw2 : pw ≤ 46340)
    (hc1 : -1 ≤ c) (hc2 : c ≤ pw) (hd0 : 0 ≤ d) (hd : (pw + 1) * (pw + 1) + d < INT_MAX) :
    wrapInt (wrapInt (wrapInt (pw - c) * wrapInt (pw - c)) + d) = (pw - c) * (pw - c) + d ∧
      0 ≤ (pw - c) * (pw - c) + d ∧ (pw - c) * (pw - c) + d ≤ (pw + 1) * (pw + 1) + d := by
  unfold INT_MAX at hd
  have hs : wrapInt (pw - c) = pw - c := wrapInt_eq_self (by omega) (by omega)
  have hsq0 : 0 ≤ (pw - c) * (pw - c) := mul_self_nonneg _
  have hsq1 : (pw - c) * (pw - c) ≤ (pw + 1) * (pw + 1) := by nlinarith
  have hsq : wrapInt ((pw - c) * (pw - c)) = (pw - c) * (pw - c) :=
    wrapInt_eq_self (by omega) (by omega)
  rw [hs, hsq, wrapInt_eq_self (by omega) (by omega)]
  exact ⟨rfl, by omega, by omega⟩

theorem innerLoop_spec {ws : List Nat} {pw sw : Int} (h : ValidInput ws pw sw) {i : Nat}
    (hi : i + 2 ≤ ws.length) :
    ∀ (m j : Nat) (t : Tables), j + m = ws.length → i ≤ j →
      lineLen ws sw i j ≤ pw →
      (∀ k, i < k → k < ws.length → 0 ≤ t.dp k ∧ t.dp k ≤ costBound ws.length pw k) →
      InnerPost ws pw sw i j t
        (innerLoop pw sw ws.length i (ws.drop j) j (lineLen ws sw i j) t) := by
  obtain ⟨hpw1, hpw2, hsq⟩ := h.pw_range (by omega)
  have hsw := h.space_nonneg
  intro m
  induction m with
  | zero =>
    intro j t hjm _ _ _
    have hj : ws.length ≤ j := by omega
    rw [List.drop_eq_nil_of_le hj]
    simp only [innerLoop]
    exact ⟨fun _ _ => ⟨rfl, rfl⟩, Or.inl ⟨rfl, rfl⟩, fun j' h1 h2 => by omega, le_refl _⟩
  | succ m ih =>
    intro j t hjm hij hc hdp
    have hj : j < ws.length := by omega
    have hw0 : (0 : Int) ≤ ((ws[j] : Nat) : Int) := Int.natCast_nonneg _
    have hwfit := h.fits ws[j] (List.getElem_mem hj)
    have hc0 : -1 ≤ lineLen ws sw i j := lineLen_ge ws hsw hij (by omega)
    have hlen : wrapInt (lineLen ws sw i j + wrapInt (((ws[j] : Nat) : Int) + sw)) =
        lineLen ws sw i (j + 1) := by
      have e1 : wrapInt (((ws[j] : Nat) : Int) + sw) = ((ws[j] : Nat) : Int) + sw :=
        wrapInt_eq_self (by omega) (by omega)
      rw [lineLen_succ ws sw hij hj, e1, wrapInt_eq_self (by omega) (by omega)]
      ring
    have hmono : ∀ j', j ≤ j' → j' < ws.length →
        lineLen ws sw i (j + 1) ≤ lineLen ws sw i (j' + 1) := fun j' h1 h2 =>
      lineLen_mono ws hsw i (by omega) (by omega) (by omega)
    rw [List.drop_eq_getElem_cons hj]
    simp only [innerLoop, hlen]
    by_cases hover : lineLen ws sw i (j + 1) > pw
    · rw [if_pos hover]
      refine ⟨fun _ _ => ⟨rfl, rfl⟩, Or.inl ⟨rfl, rfl⟩, fun j' h1 h2 h3 => ?_, le_refl _⟩
      have := hmono j' h1 h2
      omega
    · rw [if_neg hover]
      have hfit : lineLen ws sw i (j + 1) ≤ pw := by omega
      have hc1 : -1 ≤ lineLen ws sw i (j + 1) := lineLen_ge ws hsw (by omega) (by omega)
      have hcost : (if j = ws.length - 1 then (0 : Int)
          else wrapInt (wrapInt (wrapInt (pw - lineLen ws sw i (j + 1)) *
            wrapInt (pw - lineLen ws sw i (j + 1))) + t.dp (j + 1))) =
          candCost ws.length pw t.dp (lineLen ws sw i (j + 1)) j := by
        unfold candCost
        by_cases hlast : j = ws.length - 1
        · rw [if_pos hlast, if_pos hlast]
        · rw [if_neg hlast, if_neg hlast]
          have hd := hdp (j + 1) (by omega) (by omega)
          have hcb := costBound_succ (n := ws.length) (k := j) pw (by omega)
          have hanti := costBound_anti ws.length pw (Nat.zero_le j)
          have hsmall := h.cost_small
          exact (cost_wrap_free hpw1 hpw2 hc1 hfit hd.1 (by omega)).1
      rw [hcost]
      have ih' := fun t1 hdp1 => ih (j + 1) t1 (by omega) (by omega) hfit hdp1
      by_cases hlt : candCost ws.length pw t.dp (lineLen ws sw i (j + 1)) j < t.dp i
      · rw [if_pos hlt]
        have hdp1 : ∀ k, i < k → k < ws.length →
            0 ≤ (Function.update t.dp i
              (candCost ws.length pw t.dp (lineLen ws sw i (j + 1)) j)) k ∧
            (Function.update t.dp i
              (candCost ws.length pw t.dp (lineLen ws sw i (j + 1)) j)) k ≤
              costBound ws.length pw k := by
          intro k hk1 hk2
          rw [Function.update_noteq (by omega)]
          exact hdp k hk1 hk2
        have hcongr : ∀ len j', i ≤ j' →
            candCost ws.length pw (Function.update t.dp i
              (candCost ws.length pw t.dp (lineLen ws sw i (j + 1)) j)) len j' =
            candCost ws.length pw t.dp len j' := fun len j' hj' =>
          candCost_congr ws.length pw len hj'
            (fun k hk => Function.update_noteq (by omega) _ _)
        obtain ⟨f1, f2, f3, f4⟩ := ih' ⟨Function.update t.dp i
          (candCost ws.length pw t.dp (lineLen ws sw i (j + 1)) j), Function.update t.ans i j⟩ hdp1
        simp only [Function.update_same] at f2 f4
        refine ⟨fun k hk => ?_, ?_, fun j' h1 h2 h3 => ?_, ?_⟩
        · have := f1 k hk
          simp only [Function.update_noteq hk] at this
          exact this
        · right
          rcases f2 with ⟨e1, e2⟩ | ⟨j', a1, a2, a3, a4, a5, a6, a7⟩
          · exact ⟨j, le_refl _, hj, hfit, e2, e1, by rw [e1]; exact hlt,
              fun j'' h1 h2 => by omega⟩
          · refine ⟨j', by omega, a2, a3, a4, a5.trans (hcongr _ _ (by omega)),
              lt_trans a6 hlt, fun j'' h1 h2 => ?_⟩
            rcases Nat.eq_or_lt_of_le h1 with e | hgt
            · subst e
              exact a6
            · exact lt_of_lt_of_eq (a7 j'' (by omega) h2) (hcongr _ _ (by omega))
        · rcases Nat.eq_or_lt_of_le h1 with e | hgt
          · subst e
            exact f4
          · exact le_of_le_of_eq (f3 j' (by omega) h2 h3) (hcongr _ _ (by omega))
        · exact le_trans f4 (le_of_lt hlt)
      · rw [if_neg hlt]
        obtain ⟨f1, f2, f3, f4⟩ := ih' t hdp
        refine ⟨f1, ?_, fun j' h1 h2 h3 => ?_, f4⟩
        · rcases f2 with e | ⟨j', a1, a2, a3, a4, a5, a6, a7⟩
          · exact Or.inl e
          · refine Or.inr ⟨j', by omega, a2, a3, a4, a5, a6, fun j'' h1 h2 => ?_⟩
            rcases Nat.eq_or_lt_of_le h1 with e | hgt
            · subst e
              exact lt_of_lt_of_le a6 (not_lt.mp hlt)
            · exact a7 j'' (by omega) h2
        · rcases Nat.eq_or_lt_of_le h1 with e | hgt
          · subst e
            exact le_trans f4 (not_lt.mp hlt)
          · exact f3 j' (by omega) h2 h3

theorem Good.congr {ws : List Nat} {pw sw : Int} {t t' : Tables} {k : Nat}
    (hg : Good ws pw sw t k)
    (he : ∀ m, k ≤ m → t'.dp m = t.dp m ∧ t'.ans m = t.ans m) : Good ws pw sw t' k := by
  have hc : ∀ len j, k ≤ j →
      candCost ws.length pw t'.dp len j = candCost ws.length pw t.dp len j := fun len j hj =>
    candCost_congr ws.length pw len hj (fun m hm => (he m (by omega)).1)
  obtain ⟨g1, g2, g3, g4, g5, g6, g7, g8⟩ := hg
  have ea := (he k (le_refl k)).2
  have ed := (he k (le_refl k)).1
  refine ⟨?_, ?_, ?_, ?_, ?_, ?_, ?_, ?_⟩
  · rw [ea]; exact g1
  · rw [ea]; exact g2
  · rw [ea]; exact g3
  · rw [ed]; exact g4
  · rw [ed]; exact g5
  · rw [ed, ea, hc _ _ g1]; exact g6
  · intro j h1 h2 h3
    rw [ed, hc _ _ h1]
    exact g7 j h1 h2 h3
  · intro j h1 h2
    rw [ea] at h2
    rw [ed, hc _ _ h1]
    exact g8 j h1 h2

theorem lineLen_single (ws : List Nat) (sw : Int) {i : Nat} (hi : i < ws.length) :
    lineLen ws sw i (i + 1) = ((ws[i] : Nat) : Int) + sw - 1 := by
  rw [lineLen_succ ws sw (le_refl i) hi, lineLen_self]
  ring

theorem candCost_bounds {ws : List Nat} {pw sw : Int} (h : ValidInput ws pw sw)
    {dp : Nat → Int} {i j : Nat} (hi : i + 2 ≤ ws.length) (hij : i ≤ j) (hj : j < ws.length)
    (hfit : lineLen ws sw i (j + 1) ≤ pw)
    (hdp : ∀ k, i < k → k < ws.length → 0 ≤ dp k ∧ dp k ≤ costBound ws.length pw k) :
    0 ≤ candCost ws.length pw dp (lineLen ws sw i (j + 1)) j ∧
      candCost ws.length pw dp (lineLen ws sw i (j + 1)) j ≤ costBound ws.length pw j := by
  obtain ⟨hpw1, hpw2, hsq⟩ := h.pw_range (by omega)
  unfold candCost
  by_cases hlast : j = ws.length - 1
  · rw [if_pos hlast]
    exact ⟨le_refl _, costBound_nonneg _ _ _⟩
  · rw [if_neg hlast]
    have hd := hdp (j + 1) (by omega) (by omega)
    have hcb := costBound_succ (n := ws.length) (k := j) pw (by omega)
    have hanti := costBound_anti ws.length pw (Nat.zero_le j)
    have hsmall := h.cost_small
    have hc1 : -1 ≤ lineLen ws sw i (j + 1) :=
      lineLen_ge ws h.space_nonneg (by omega) (by omega)
    have := cost_wrap_free hpw1 hpw2 hc1 hfit hd.1 (by omega)
    omega

theorem row_good {ws : List Nat} {pw sw : Int} (h : ValidInput ws pw sw) {i : Nat}
    (hi : i + 2 ≤ ws.length) {t : Tables}
    (hg : ∀ k, i < k → k < ws.length → Good ws pw sw t k) :
    ∀ k, i ≤ k → k < ws.length → Good ws pw sw (row ws pw sw i t) k := by
  have hdp0 : ∀ k, i < k → k < ws.length →
      0 ≤ (Function.update t.dp i INT_MAX) k ∧
        (Function.update t.dp i INT_MAX) k ≤ costBound ws.length pw k := by
    intro k h1 h2
    rw [Function.update_noteq (by omega)]
    exact ⟨(hg k h1 h2).dp_nonneg, (hg k h1 h2).dp_le⟩
  have hpost := innerLoop_spec h hi (ws.length - i) i ⟨Function.update t.dp i INT_MAX, t.ans⟩
    (by omega) (le_refl i) (by rw [lineLen_self]; have := (h.pw_range (by omega)).1; omega) hdp0
  rw [lineLen_self] at hpost
  change InnerPost ws pw sw i i _ (row ws pw sw i t) at hpost
  obtain ⟨f1, f2, f3, f4⟩ := hpost
  dsimp only at f1 f2 f3 f4
  have hframe : ∀ m, i < m →
      (row ws pw sw i t).dp m = t.dp m ∧ (row ws pw sw i t).ans m = t.ans m := by
    intro m hm
    have := f1 m (by omega)
    simp only [Function.update_noteq (show m ≠ i by omega)] at this
    exact this
  have hcongr0 : ∀ len j, i ≤ j →
      candCost ws.length pw (Function.update t.dp i INT_MAX) len j =
        candCost ws.length pw (row ws pw sw i t).dp len j := fun len j hj =>
    candCost_congr ws.length pw len hj (fun m hm => by
      rw [Function.update_noteq (by omega), (hframe m hm).1])
  intro k hik hk
  rcases Nat.eq_or_lt_of_le hik with e | hlt
  · subst e
    have hi' : i < ws.length := by omega
    have hfit1 : lineLen ws sw i (i + 1) ≤ pw := by
      rw [lineLen_single ws sw hi']
      exact h.fits _ (List.getElem_mem hi')
    have hb1 := candCost_bounds h hi (le_refl i) hi' hfit1 hdp0
    have hle1 := f3 i (le_refl i) hi' hfit1
    have hanti := costBound_anti ws.length pw (Nat.zero_le i)
    have hsmall := h.cost_small
    rcases f2 with ⟨e1, _⟩ | ⟨j', a1, a2, a3, a4, a5, _, a7⟩
    · exfalso
      simp only [Function.update_same] at e1
      omega
    · have hb := candCost_bounds h hi a1 a2 a3 hdp0
      have hanti' := costBound_anti ws.length pw a1
      refine ⟨by omega, by omega, by rw [a4]; exact a3, by omega, by omega, ?_, ?_, ?_⟩
      · rw [a4, a5, hcongr0 _ _ a1]
      · intro j h1 h2 h3
        rw [← hcongr0 _ _ h1]
        exact f3 j h1 h2 h3
      · intro j h1 h2
        rw [← hcongr0 _ _ h1]
        exact a7 j h1 (by omega)
  · exact (hg k hlt hk).congr (fun m hm => hframe m (by omega))

theorem outerLoop_good {ws : List Nat} {pw sw : Int} (h : ValidInput ws pw sw) :
    ∀ (i : Nat) (t : Tables), i + 1 ≤ ws.length →
      (∀ k, i ≤ k → k < ws.length → Good ws pw sw t k) →
      ∀ k, k < ws.length → Good ws pw sw (outerLoop ws pw sw i t) k := by
  intro i
  induction i with
  | zero =>
    intro t _ hg k hk
    exact hg k (Nat.zero_le k) hk
  | succ i ih =>
    intro t hi hg k hk
    simp only [outerLoop]
    exact ih _ (by omega) (row_good h (by omega) (fun k h1 h2 => hg k (by omega) h2)) k hk

/-- On valid input every entry of the two tables is set and describes a best
line from its start word. -/
theorem solve_good {ws : List Nat} {pw sw : Int} (h : ValidInput ws pw sw) (garbage : Tables) :
    ∀ k, k < ws.length → Good ws pw sw (solve ws pw sw garbage) k := by
  intro k hk
  have hn : ws.length ≠ 0 := by omega
  unfold solve
  simp only [hn, if_false]
  apply outerLoop_good h (ws.length - 1) _ (by omega) _ k hk
  intro m hm1 hm2
  have e : m = ws.length - 1 := by omega
  have hm' : ws.length - 1 < ws.length := by omega
  have hl : lineLen ws sw (ws.length - 1) (ws.length - 1 + 1) ≤ pw := by
    rw [lineLen_single ws sw hm']
    exact h.fits _ (List.getElem_mem hm')
  subst e
  refine ⟨?_, ?_, ?_, ?_, ?_, ?_, ?_, ?_⟩
  · simp
  · simp only [Function.update_same]; omega
  · simp only [Function.update_same]; exact hl
  · simp
  · simp only [Function.update_same]; exact costBound_nonneg _ _ _
  · simp [candCost]
  · intro j h1 h2 _
    have : j = ws.length - 1 := by omega
    simp [candCost, this]
  · intro j h1 h2
    simp only [Function.update_same] at h2
    omega

/-! ## The reconstruction loop -/

theorem ValidInput.length_lt {ws : List Nat} {pw sw : Int} (h : ValidInput ws pw sw) :
    ws.length < 536870913 := by
  have hc := h.cost_small
  have hp := h.page_pos
  unfold costBound INT_MAX at hc
  simp only [Nat.sub_zero] at hc
  by_contra hcon
  push_neg at hcon
  have h1 : (536870912 : Int) ≤ ((ws.length - 1 : Nat) : Int) := by
    have : 536870912 ≤ ws.length - 1 := by omega
    exact_mod_cast this
  nlinarith

/-- The loop of line 117 stops by itself: more fuel than `1001` iterations
changes nothing. -/
theorem followLinks_fuel (ans : Nat → Nat) (n : Nat) :
    ∀ (fuel fuel' i : Nat) (lb : List Nat), 1 ≤ fuel → 1001 - lb.length ≤ fuel →
      fuel ≤ fuel' → followLinks ans n fuel' i lb = followLinks ans n fuel i lb := by
  intro fuel
  induction fuel with
  | zero => intro fuel' i lb h1; omega
  | succ f ih =>
    intro fuel' i lb _ h2 h3
    obtain ⟨f', rfl⟩ : ∃ f', fuel' = f' + 1 := ⟨fuel' - 1, by omega⟩
    simp only [followLinks]
    split
    · split
      · rfl
      · split
        · rfl
        · rename_i hlen
          simp only [List.length_append, List.length_singleton] at hlen
          apply ih
          · omega
          · simp only [List.length_append, List.length_singleton]; omega
          · omega
    · rfl

theorem getLast?_cons_getD (a i : Nat) (l : List Nat) :
    ((a :: l).getLast?).getD i = (l.getLast?).getD a := by
  cases l with
  | nil => simp
  | cons b l =>
    rw [List.getLast?_cons_cons]
    cases hl : (b :: l).getLast? with
    | none => simp at hl
    | some v => simp

theorem followLinks_chain {ans : Nat → Nat} {n : Nat}
    (hans : ∀ i, i < n → i ≤ ans i ∧ ans i < n) (hn : n < 4294967295) :
    ∀ (fuel i : Nat) (lb : List Nat), i ≤ n → lb.length ≤ 1000 →
      ∃ ext, followLinks ans n fuel i lb = lb ++ ext ∧ Chain ans n i ext ∧
        (lb ++ ext).length ≤ 1001 ∧
        ((ext.getLast?).getD i = n ∨ (lb ++ ext).length = 1001 ∨ ext.length = fuel) := by
  intro fuel
  induction fuel with
  | zero =>
    intro i lb _ hlb
    exact ⟨[], by simp [followLinks], trivial, by simp; omega, Or.inr (Or.inr rfl)⟩
  | succ f ih =>
    intro i lb hi hlb
    simp only [followLinks]
    by_cases hin : i < n
    · obtain ⟨h1, h2⟩ := hans i hin
      have hw : wrapSize (ans i + 1) = ans i + 1 := wrapSize_eq_self (by omega)
      rw [if_pos hin, hw, if_neg (by omega)]
      by_cases hcap : (lb ++ [ans i + 1]).length > 1000
      · rw [if_pos hcap]
        simp only [List.length_append, List.length_singleton] at hcap
        refine ⟨[ans i + 1], rfl, ⟨hin, rfl, trivial⟩, ?_, Or.inr (Or.inl ?_)⟩ <;>
          simp only [List.length_append, List.length_singleton] <;> omega
      · rw [if_neg hcap]
        simp only [List.length_append, List.length_singleton] at hcap
        obtain ⟨ext, e1, e2, e3, e4⟩ := ih (ans i + 1) (lb ++ [ans i + 1]) (by omega)
          (by simp only [List.length_append, List.length_singleton]; omega)
        refine ⟨(ans i + 1) :: ext, ?_, ⟨hin, rfl, e2⟩, ?_, ?_⟩
        · rw [e1]; simp
        · simpa using e3
        · rw [getLast?_cons_getD]
          rcases e4 with e | e | e
          · exact Or.inl e
          · exact Or.inr (Or.inl (by simpa using e))
          · exact Or.inr (Or.inr (by simp [e]))
    · rw [if_neg hin]
      exact ⟨[], by simp, trivial, by simp; omega, Or.inl (by simp; omega)⟩

theorem Chain.bounds {ans : Nat → Nat} {n : Nat} (hans : ∀ i, i < n → i ≤ ans i ∧ ans i < n) :
    ∀ (ext : List Nat) (i : Nat), Chain ans n i ext →
      (∀ b ∈ ext, i < b ∧ b ≤ n) ∧ ext.Pairwise (· < ·) := by
  intro ext
  induction ext with
  | nil => intro i _; exact ⟨by simp, List.Pairwise.nil⟩
  | cons b rest ih =>
    intro i hc
    obtain ⟨h1, h2, h3⟩ := hc
    obtain ⟨hb, hp⟩ := ih b h3
    have := hans i h1
    refine ⟨?_, List.pairwise_cons.mpr ⟨fun c hc => (hb c hc).1, hp⟩⟩
    intro c hc
    rcases List.mem_cons.mp hc with e | hc'
    · subst e; omega
    · have := hb c hc'; omega

theorem solve_links {ws : List Nat} {pw sw : Int} (h : ValidInput ws pw sw) (garbage : Tables) :
    ∀ i, i < ws.length →
      i ≤ (solve ws pw sw garbage).ans i ∧ (solve ws pw sw garbage).ans i < ws.length :=
  fun i hi => ⟨(solve_good h garbage i hi).le_ans, (solve_good h garbage i hi).ans_lt⟩

theorem layout_line_breaks (r : Renderer) (garbage : Tables) (b : TextBlock) :
    (layout r garbage b).line_breaks = layoutBreaks r garbage b := rfl

theorem layoutBreaks_fresh (ws : List Nat) (pw sw : Int) (garbage : Tables) :
    layoutBreaks ⟨pw, sw⟩ garbage (fresh ws) =
      followLinks (solve ws pw sw garbage).ans ws.length 1001 0 [] := rfl

/-- On valid input the breaks of a fresh block follow the chosen line ends from
the word `0`, and stop at the word count or at `1001` entries. -/
theorem layoutBreaks_chain {ws : List Nat} {pw sw : Int} (h : ValidInput ws pw sw)
    (hne : ws ≠ []) (garbage : Tables) :
    Chain (solve ws pw sw garbage).ans ws.length 0 (layoutBreaks ⟨pw, sw⟩ garbage (fresh ws)) ∧
      (layoutBreaks ⟨pw, sw⟩ garbage (fresh ws)).length ≤ 1001 ∧
      ((layoutBreaks ⟨pw, sw⟩ garbage (fresh ws)).getLast? = some ws.length ∨
        (layoutBreaks ⟨pw, sw⟩ garbage (fresh ws)).length = 1001) := by
  have hlen := h.length_lt
  have hpos : 0 < ws.length := List.length_pos.mpr hne
  obtain ⟨ext, e1, e2, e3, e4⟩ := followLinks_chain (solve_links h garbage) (by omega)
    1001 0 [] (Nat.zero_le _) (by simp)
  rw [layoutBreaks_fresh, e1]
  simp only [List.nil_append] at e3 e4 ⊢
  refine ⟨e2, e3, ?_⟩
  rcases e4 with e | e | e
  · left
    cases hl : ext.getLast? with
    | none => rw [hl] at e; simp at e; omega
    | some v => rw [hl] at e; simp at e; rw [e]
  · exact Or.inr e
  · exact Or.inr e

theorem sorted_length_le_last :
    ∀ (bs : List Nat) (s : Nat), bs.Pairwise (· < ·) → (∀ b ∈ bs, s < b) →
      ∀ l, bs.getLast? = some l → s + bs.length ≤ l := by
  intro bs
  induction bs with
  | nil => intro s _ _ l hl; simp at hl
  | cons b rest ih =>
    intro s hp hs l hl
    have hsb := hs b (List.mem_cons_self _ _)
    cases rest with
    | nil =>
      simp at hl
      simp
      omega
    | cons c rest' =>
      rw [List.getLast?_cons_cons] at hl
      have hp' := List.pairwise_cons.mp hp
      have := ih b hp'.2 (fun x hx => hp'.1 x hx) l hl
      simp only [List.length_cons] at this ⊢
      omega

/-- In a strictly increasing break sequence that starts above `s` and ends at
`n`, every word from `s` to `n - 1` lies on exactly one line. -/
theorem lines_cover :
    ∀ (bs : List Nat) (s n k : Nat), bs.Pairwise (· < ·) → (∀ b ∈ bs, s < b) →
      bs.getLast? = some n → s ≤ k → k < n →
      ∃! p : Nat × Nat, p ∈ (s :: bs).zip bs ∧ p.1 ≤ k ∧ k < p.2 := by
  intro bs
  induction bs with
  | nil => intro s n k _ _ hl; simp at hl
  | cons b rest ih =>
    intro s n k hp hs hl hsk hkn
    have hp' := List.pairwise_cons.mp hp
    have hfst : ∀ p : Nat × Nat, p ∈ (b :: rest).zip rest → b ≤ p.1 := by
      intro p hp1
      have hmem := (List.of_mem_zip hp1).1
      rcases List.mem_cons.mp hmem with e | hm
      · omega
      · exact le_of_lt (hp'.1 _ hm)
    simp only [List.zip_cons_cons, List.mem_cons]
    by_cases hkb : k < b
    · refine ⟨(s, b), ⟨Or.inl rfl, hsk, hkb⟩, ?_⟩
      rintro p ⟨hp1 | hp1, hp2, hp3⟩
      · exact hp1
      · have := hfst p hp1; omega
    · have hrest : rest ≠ [] := by
        rintro rfl
        simp at hl
        omega
      have hl' : rest.getLast? = some n := by
        cases rest with
        | nil => exact absurd rfl hrest
        | cons c r => rwa [List.getLast?_cons_cons] at hl
      obtain ⟨p, ⟨hp1, hp2, hp3⟩, huniq⟩ := ih b n k hp'.2 (fun x hx => hp'.1 x hx) hl'
        (by omega) hkn
      refine ⟨p, ⟨Or.inr hp1, hp2, hp3⟩, ?_⟩
      rintro q ⟨hq1 | hq1, hq2, hq3⟩
      · subst hq1; simp at hq3; omega
      · exact huniq q ⟨hq1, hq2, hq3⟩

theorem Chain.lines {ans : Nat → Nat} {n : Nat} :
    ∀ (ext : List Nat) (i : Nat), Chain ans n i ext →
      ∀ p : Nat × Nat, p ∈ (i :: ext).zip ext → p.1 < n ∧ p.2 = ans p.1 + 1 := by
  intro ext
  induction ext with
  | nil => intro i _ p hp; simp at hp
  | cons b rest ih =>
    intro i hc p hp
    obtain ⟨h1, h2, h3⟩ := hc
    simp only [List.zip_cons_cons, List.mem_cons] at hp
    rcases hp with e | hp
    · subst e; exact ⟨h1, h2⟩
    · exact ih b h3 p hp

/-- On valid input every line of the breaks of a fresh block starts inside the
word sequence, ends with the end the solver chose for its start, and passed
the width test of line 97. -/
theorem layout_lines_admitted {ws : List Nat} {pw sw : Int} (h : ValidInput ws pw sw)
    (hne : ws ≠ []) (garbage : Tables) (p : Nat × Nat)
    (hp : p ∈ linesOf (layoutBreaks ⟨pw, sw⟩ garbage (fresh ws))) :
    p.1 < p.2 ∧ p.2 ≤ ws.length ∧ p.2 = (solve ws pw sw garbage).ans p.1 + 1 ∧
      lineLen ws sw p.1 p.2 ≤ pw := by
  obtain ⟨hc, _, _⟩ := layoutBreaks_chain h hne garbage
  obtain ⟨h1, h2⟩ := hc.lines _ 0 p hp
  have hg := solve_good h garbage p.1 h1
  have h3 := hg.admitted
  rw [← h2] at h3
  have := hg.le_ans
  have := hg.ans_lt
  exact ⟨by omega, by omega, h2, h3⟩

/-- With a space width of at least one pixel every line of the result fits
the page with its nominal spaces: widths plus `count - 1` spaces are at most
the page width. -/
theorem lines_fit_page {ws : List Nat} {pw sw : Int} (h : ValidInput ws pw sw)
    (hne : ws ≠ []) (hsw : 1 ≤ sw) (garbage : Tables) (p : Nat × Nat)
    (hp : p ∈ linesOf (layoutBreaks ⟨pw, sw⟩ garbage (fresh ws))) :
    (total_word_width ws p.1 p.2 : Int) + ((p.2 - p.1 - 1 : Nat) : Int) * sw ≤ pw := by
  obtain ⟨h1, _, _, h4⟩ := layout_lines_admitted h hne garbage p hp
  unfold lineLen at h4
  have e : ((p.2 - p.1 : Nat) : Int) = ((p.2 - p.1 - 1 : Nat) : Int) + 1 := by omega
  rw [e] at h4
  nlinarith

/-- The reconstruction loop of `layout` has stopped by itself within the
`1001` iterations the model grants it. -/
theorem layoutBreaks_fuel (r : Renderer) (garbage : Tables) (b : TextBlock) (fuel : Nat)
    (hfuel : 1001 ≤ fuel) :
    followLinks (solve b.widths r.page_width r.space_width garbage).ans b.widths.length
      fuel 0 b.line_breaks = layoutBreaks r garbage b :=
  followLinks_fuel _ _ 1001 fuel 0 _ (by norm_num) (by omega) hfuel

theorem validInput_example : ValidInput [50, 50, 50, 50] 160 10 :=
  ⟨by decide, by decide, by decide, by decide⟩

/-- C1 (amended): for every non-empty word sequence on valid input (each word
alone passes the width test, space width not negative, page width positive,
costs inside the `int` range), `layout` on a fresh block leaves `line_breaks`
strictly increasing with entries between `1` and the word count; its last
entry is the word count unless the cap of line 132 stopped the sequence at
`1001` entries with words left over; and when the last entry is the word
count every word lies on exactly one of the lines `[0,b0), [b0,b1), ...`. -/
theorem layout_breaks_partition (ws : List Nat) (pw sw : Int) (garbage : Tables)
    (hne : ws ≠ []) (h : ValidInput ws pw sw) :
    (layout ⟨pw, sw⟩ garbage (fresh ws)).line_breaks.Pairwise (· < ·) ∧
    (∀ b ∈ (layout ⟨pw, sw⟩ garbage (fresh ws)).line_breaks, 1 ≤ b ∧ b ≤ ws.length) ∧
    ((layout ⟨pw, sw⟩ garbage (fresh ws)).line_breaks.getLast? = some ws.length ∨
      ((layout ⟨pw, sw⟩ garbage (fresh ws)).line_breaks.length = 1001 ∧ 1001 < ws.length)) ∧
    ((layout ⟨pw, sw⟩ garbage (fresh ws)).line_breaks.getLast? = some ws.length →
      ∀ k, k < ws.length → ∃! p : Nat × Nat,
        p ∈ linesOf (layout ⟨pw, sw⟩ garbage (fresh ws)).line_breaks ∧ p.1 ≤ k ∧ k < p.2) := by
  change (layoutBreaks ⟨pw, sw⟩ garbage (fresh ws)).Pairwise (· < ·) ∧
    (∀ b ∈ layoutBreaks ⟨pw, sw⟩ garbage (fresh ws), 1 ≤ b ∧ b ≤ ws.length) ∧
    ((layoutBreaks ⟨pw, sw⟩ garbage (fresh ws)).getLast? = some ws.length ∨
      ((layoutBreaks ⟨pw, sw⟩ garbage (fresh ws)).length = 1001 ∧ 1001 < ws.length)) ∧
    ((layoutBreaks ⟨pw, sw⟩ garbage (fresh ws)).getLast? = some ws.length →
      ∀ k, k < ws.length → ∃! p : Nat × Nat,
        p ∈ linesOf (layoutBreaks ⟨pw, sw⟩ garbage (fresh ws)) ∧ p.1 ≤ k ∧ k < p.2)
  obtain ⟨hc, hlen, hend⟩ := layoutBreaks_chain h hne garbage
  obtain ⟨hb, hsorted⟩ := Chain.bounds (solve_links h garbage) _ 0 hc
  refine ⟨hsorted, fun b hb' => ⟨(hb b hb').1, (hb b hb').2⟩, ?_, ?_⟩
  · rcases hend with e | e
    · exact Or.inl e
    · by_cases hn : 1001 < ws.length
      · exact Or.inr ⟨e, hn⟩
      · left
        cases hl : (layoutBreaks ⟨pw, sw⟩ garbage (fresh ws)).getLast? with
        | none =>
          rw [List.getLast?_eq_none_iff] at hl
          rw [hl] at e
          simp at e
        | some l =>
          have h1 := sorted_length_le_last _ 0 hsorted (fun b hb' => (hb b hb').1) l hl
          have h2 := (hb l (List.mem_of_getLast?_eq_some hl)).2
          congr 1
          omega
  · intro hl k hk
    exact lines_cover _ 0 ws.length k hsorted (fun b hb' => (hb b hb').1) hl (Nat.zero_le k) hk

/-- Witness of `layout_breaks_partition` on the widths `[50,50,50,50]` with
page width `160` and space width `10`. -/
theorem layout_breaks_partition_witness :
    ([50, 50, 50, 50] : List Nat) ≠ [] ∧ ValidInput [50, 50, 50, 50] 160 10 ∧
    (layout ⟨160, 10⟩ zeroTables (fresh [50, 50, 50, 50])).line_breaks.Pairwise (· < ·) :=
  ⟨by decide, validInput_example,
    (layout_breaks_partition [50, 50, 50, 50] 160 10 zeroTables (by decide)
      validInput_example).1⟩

/-! ## Paragraphs of equal words, one word per line -/

theorem total_word_width_replicate (N w s e : Nat) (he : e ≤ N) :
    total_word_width (List.replicate N w) s e = (e - s) * w := by
  unfold total_word_width
  rw [List.drop_replicate, List.take_replicate, List.sum_replicate]
  have : min (e - s) (N - s) = e - s := by omega
  rw [this]
  simp

theorem validInput_replicate (N : Nat) (hN : N ≤ 100000) :
    ValidInput (List.replicate N 100) 100 1 := by
  refine ⟨fun w hw => ?_, by decide, by decide, ?_⟩
  · rw [List.eq_of_mem_replicate hw]; decide
  · unfold costBound INT_MAX
    rw [List.length_replicate]
    have : ((N - 1 - 0 : Nat) : Int) ≤ 100000 := by
      have : N - 1 - 0 ≤ 100000 := by omega
      exact_mod_cast this
    omega

/-- With words of width `100`, page width `100` and space width `1` the solver
ends every line at its start word. -/
theorem solve_replicate_ans (N : Nat) (hN : N ≤ 100000) (garbage : Tables) (i : Nat)
    (hi : i < N) : (solve (List.replicate N 100) 100 1 garbage).ans i = i := by
  have hg := solve_good (validInput_replicate N hN) garbage i
    (by rw [List.length_replicate]; exact hi)
  have h1 := hg.le_ans
  have h2 := hg.ans_lt
  have h3 := hg.admitted
  rw [List.length_replicate] at h2
  unfold lineLen at h3
  rw [total_word_width_replicate _ _ _ _ (by omega)] at h3
  push_cast at h3
  have h4 : ((((solve (List.replicate N 100) 100 1 garbage).ans i + 1 - i : Nat) : Int)) ≤ 1 := by
    omega
  have h5 : (solve (List.replicate N 100) 100 1 garbage).ans i + 1 - i ≤ 1 := by
    exact_mod_cast h4
  omega

theorem Chain.unit_last {ans : Nat → Nat} {n : Nat} (hans : ∀ i, i < n → ans i = i) :
    ∀ (ext : List Nat) (i : Nat), Chain ans n i ext →
      ∀ l, ext.getLast? = some l → l = i + ext.length := by
  intro ext
  induction ext with
  | nil => intro i _ l hl; simp at hl
  | cons b rest ih =>
    intro i hc l hl
    obtain ⟨h1, h2, h3⟩ := hc
    rw [hans i h1] at h2
    cases rest with
    | nil =>
      simp at hl
      simp
      omega
    | cons c rest' =>
      rw [List.getLast?_cons_cons] at hl
      have := ih b h3 l hl
      simp only [List.length_cons] at this ⊢
      omega

/-- More than `1001` one-word lines: the breaks of a fresh block stop at
`1001` entries, the last of which is `1001`. -/
theorem layoutBreaks_replicate (N : Nat) (hN : N ≤ 100000) (hbig : 1001 < N)
    (garbage : Tables) :
    (layoutBreaks ⟨100, 1⟩ garbage (fresh (List.replicate N 100))).length = 1001 ∧
      (layoutBreaks ⟨100, 1⟩ garbage (fresh (List.replicate N 100))).getLast? = some 1001 := by
  have hv := validInput_replicate N hN
  have hne : List.replicate N 100 ≠ [] := by
    intro hcon
    have := congrArg List.length hcon
    simp at this
    omega
  obtain ⟨hc, hlen, hend⟩ := layoutBreaks_chain hv hne garbage
  rw [List.length_replicate] at hc hend
  have hunit := Chain.unit_last (fun i hi => solve_replicate_ans N hN garbage i hi) _ 0 hc
  have hl : (layoutBreaks ⟨100, 1⟩ garbage (fresh (List.replicate N 100))).length = 1001 := by
    rcases hend with e | e
    · have := hunit N e
      omega
    · exact e
  refine ⟨hl, ?_⟩
  cases hlast : (layoutBreaks ⟨100, 1⟩ garbage (fresh (List.replicate N 100))).getLast? with
  | none =>
    rw [List.getLast?_eq_none_iff] at hlast
    rw [hlast] at hl
    simp at hl
  | some l =>
    have := hunit l hlast
    congr 1
    omega

/-- C1 (counterexample): `1002` words of width `100` on a page of width `100`
with space width `1`; the word sequence is not empty and the page width is
positive, yet after `layout` on a fresh block the last entry of `line_breaks`
is `1001`, not the word count `1002`. -/
theorem layout_breaks_short_of_word_count :
    (List.replicate 1002 100).length = 1002 ∧
    (layout ⟨100, 1⟩ zeroTables (fresh (List.replicate 1002 100))).line_breaks.getLast?
      = some 1001 :=
  ⟨by rw [List.length_replicate], by
    rw [layout_line_breaks]
    exact (layoutBreaks_replicate 1002 (by norm_num) (by norm_num) zeroTables).2⟩

/-! ## Rounding to `float` -/

theorem roundEven_intCast (n : Int) : roundEven (n : ℚ) = n := by
  unfold roundEven
  simp

theorem roundEven_bounds (t : ℚ) : ⌊t⌋ ≤ roundEven t ∧ roundEven t ≤ ⌊t⌋ + 1 := by
  unfold roundEven
  split_ifs <;> omega

theorem roundEven_mono {t u : ℚ} (h : t ≤ u) : roundEven t ≤ roundEven u := by
  have hf := Int.floor_mono h
  rcases lt_or_eq_of_le hf with hlt | heq
  · have h1 := (roundEven_bounds t).2
    have h2 := (roundEven_bounds u).1
    omega
  · have hsub : t - ⌊t⌋ ≤ u - ⌊t⌋ := by linarith
    unfold roundEven
    rw [← heq]
    split_ifs <;> first | omega | linarith

theorem roundEven_of_near {t : ℚ} {m : Int} (h1 : (m : ℚ) - 1 / 2 < t)
    (h2 : t < (m : ℚ) + 1 / 2) : roundEven t = m := by
  rcases le_or_lt (m : ℚ) t with hle | hlt
  · have hf : ⌊t⌋ = m := by
      rw [Int.floor_eq_iff]
      exact ⟨hle, by linarith⟩
    unfold roundEven
    rw [hf, if_pos (by linarith)]
  · have hf : ⌊t⌋ = m - 1 := by
      rw [Int.floor_eq_iff]
      push_cast
      exact ⟨by linarith, by linarith⟩
    unfold roundEven
    rw [hf]
    push_cast
    rw [if_neg (by linarith), if_pos (by linarith)]
    omega

theorem two_zpow_pos (k : Int) : (0 : ℚ) < 2 ^ k := zpow_pos (by norm_num) k

theorem f32_zero : f32 0 = 0 := by
  unfold f32
  simp [roundEven]

/-- The exponent of a value between `2^e` and `2^(e+1)`. -/
theorem f32Exponent_eq {x : ℚ} {e : Int} (h1 : (2 : ℚ) ^ e ≤ |x|) (h2 : |x| < 2 ^ (e + 1))
    (h3 : -126 ≤ e) : f32Exponent x = e := by
  have hpos : 0 < |x| := lt_of_lt_of_le (two_zpow_pos e) h1
  have hlog : Int.log 2 |x| = e := by
    apply le_antisymm
    · have := (Int.lt_zpow_iff_log_lt (b := 2) (by norm_num) hpos (x := e + 1)).mp
        (by exact_mod_cast h2)
      omega
    · exact (Int.zpow_le_iff_le_log (b := 2) (by norm_num) hpos).mp (by exact_mod_cast h1)
  unfold f32Exponent
  rw [hlog]
  exact max_eq_left h3

theorem f32Exponent_ge (x : ℚ) : -126 ≤ f32Exponent x := le_max_right _ _

theorem abs_lt_zpow_exponent (x : ℚ) : |x| < 2 ^ (f32Exponent x + 1) := by
  have h1 : |x| < ((2 : Nat) : ℚ) ^ (Int.log 2 |x| + 1) :=
    Int.lt_zpow_succ_log_self (by norm_num) |x|
  have h2 : ((2 : Nat) : ℚ) ^ (Int.log 2 |x| + 1) ≤ ((2 : Nat) : ℚ) ^ (f32Exponent x + 1) :=
    zpow_le_zpow_right₀ (by norm_num) (by unfold f32Exponent; omega)
  exact_mod_cast lt_of_lt_of_le h1 h2

/-- A value `m * 2^k` with `|m| < 2^24` and `k >= -149` is a `float`. -/
theorem f32_exact (m k : Int) (hm : |m| < 16777216) (hk : -149 ≤ k) :
    f32 ((m : ℚ) * 2 ^ k) = (m : ℚ) * 2 ^ k := by
  rcases eq_or_ne m 0 with h0 | h0
  · subst h0
    simp [f32_zero]
  have hx : |(m : ℚ) * 2 ^ k| = (|m| : Int) * 2 ^ k := by
    rw [abs_mul, abs_of_pos (two_zpow_pos k)]
    push_cast
    rfl
  have hpos : 0 < |(m : ℚ) * 2 ^ k| := by
    rw [hx]
    have : (0 : ℚ) < ((|m| : Int) : ℚ) := by exact_mod_cast abs_pos.mpr h0
    exact mul_pos this (two_zpow_pos k)
  have hlt : |(m : ℚ) * 2 ^ k| < 2 ^ (k + 24) := by
    rw [hx, zpow_add₀ (by norm_num : (2 : ℚ) ≠ 0), mul_comm]
    apply mul_lt_mul_of_pos_left _ (two_zpow_pos k)
    have : ((|m| : Int) : ℚ) < ((16777216 : Int) : ℚ) := by exact_mod_cast hm
    norm_num at this ⊢
    exact this
  have hlog : Int.log 2 |(m : ℚ) * 2 ^ k| < k + 24 :=
    (Int.lt_zpow_iff_log_lt (b := 2) (by norm_num) hpos).mp (by exact_mod_cast hlt)
  have he : f32Exponent ((m : ℚ) * 2 ^ k) - 23 ≤ k := by
    unfold f32Exponent
    rcases max_cases (Int.log 2 |(m : ℚ) * 2 ^ k|) (-126) with ⟨e, _⟩ | ⟨e, _⟩ <;> omega
  unfold f32
  generalize f32Exponent ((m : ℚ) * 2 ^ k) - 23 = j at he
  obtain ⟨d, hd⟩ : ∃ d : Nat, k = j + d := ⟨(k - j).toNat, by omega⟩
  have hk2 : (2 : ℚ) ^ k = 2 ^ j * 2 ^ d := by
    rw [hd, zpow_add₀ (by norm_num : (2 : ℚ) ≠ 0), zpow_natCast]
  have hj : (2 : ℚ) ^ j ≠ 0 := ne_of_gt (two_zpow_pos j)
  have hdiv : (m : ℚ) * 2 ^ k / 2 ^ j = ((m * 2 ^ d : Int) : ℚ) := by
    rw [hk2]
    push_cast
    field_simp
    ring
  rw [hdiv, roundEven_intCast, hk2]
  push_cast
  ring

theorem f32_intCast (n : Int) (hn : |n| < 16777216) : f32 (n : ℚ) = n := by
  have := f32_exact n 0 hn (by norm_num)
  simpa using this

theorem f32_natCast (n : Nat) (hn : n < 16777216) : f32 (n : ℚ) = n := by
  have := f32_intCast (n : Int) (by rw [abs_of_nonneg (Int.natCast_nonneg n)]; exact_mod_cast hn)
  exact_mod_cast this

theorem f32_nonneg {x : ℚ} (hx : 0 ≤ x) : 0 ≤ f32 x := by
  unfold f32
  apply mul_nonneg _ (le_of_lt (two_zpow_pos _))
  have h := roundEven_mono (div_nonneg hx (le_of_lt (two_zpow_pos (f32Exponent x - 23))))
  rw [show (0 : ℚ) = ((0 : Int) : ℚ) by norm_num, roundEven_intCast] at h
  exact_mod_cast h

/-- Rounding to `float` is monotone on the values that are not negative. -/
theorem f32_mono {x y : ℚ} (hx : 0 ≤ x) (hxy : x ≤ y) : f32 x ≤ f32 y := by
  rcases eq_or_lt_of_le hx with h0 | hpos
  · rw [← h0, f32_zero]
    exact f32_nonneg (le_trans hx hxy)
  have hypos : 0 < y := lt_of_lt_of_le hpos hxy
  have hlog : Int.log 2 |x| ≤ Int.log 2 |y| := by
    rw [abs_of_pos hpos, abs_of_pos hypos]
    exact Int.log_mono_right hpos hxy
  have hexp : f32Exponent x ≤ f32Exponent y := by
    unfold f32Exponent
    exact max_le_max hlog (le_refl _)
  rcases eq_or_lt_of_le hexp with heq | hlt
  · unfold f32
    rw [heq]
    apply mul_le_mul_of_nonneg_right _ (le_of_lt (two_zpow_pos _))
    have := roundEven_mono (div_le_div_of_nonneg_right hxy
      (le_of_lt (two_zpow_pos (f32Exponent y - 23))))
    exact_mod_cast this
  · -- f32 x ≤ 2 ^ (ex + 1) ≤ 2 ^ ey ≤ f32 y
    have hxu : f32 x ≤ 2 ^ (f32Exponent x + 1) := by
      have h1 := abs_lt_zpow_exponent x
      rw [abs_of_pos hpos] at h1
      have h2 : x / 2 ^ (f32Exponent x - 23) ≤ ((16777216 : Int) : ℚ) := by
        rw [div_le_iff₀ (two_zpow_pos _)]
        have e : ((16777216 : Int) : ℚ) * 2 ^ (f32Exponent x - 23) = 2 ^ (f32Exponent x + 1) := by
          have : f32Exponent x + 1 = 24 + (f32Exponent x - 23) := by ring
          rw [this, zpow_add₀ (by norm_num : (2 : ℚ) ≠ 0)]
          norm_num
        rw [e]
        exact le_of_lt h1
      have h3 := roundEven_mono h2
      rw [roundEven_intCast] at h3
      unfold f32
      have h4 : ((roundEven (x / 2 ^ (f32Exponent x - 23)) : Int) : ℚ) ≤ 16777216 := by
        exact_mod_cast h3
      have e : (2 : ℚ) ^ (f32Exponent x + 1) = 16777216 * 2 ^ (f32Exponent x - 23) := by
        have : f32Exponent x + 1 = 24 + (f32Exponent x - 23) := by ring
        rw [this, zpow_add₀ (by norm_num : (2 : ℚ) ≠ 0)]
        norm_num
      rw [e]
      exact mul_le_mul_of_nonneg_right h4 (le_of_lt (two_zpow_pos _))
    have hyl : (2 : ℚ) ^ f32Exponent y ≤ f32 y := by
      have hey : f32Exponent y = Int.log 2 |y| := by
        unfold f32Exponent at hlt ⊢
        have := f32Exponent_ge x
        unfold f32Exponent at this
        rcases max_cases (Int.log 2 |y|) (-126) with ⟨e, _⟩ | ⟨e, _⟩
        · exact e
        · omega
      have h1 : (2 : ℚ) ^ f32Exponent y ≤ y := by
        have := Int.zpow_log_le_self (b := 2) (by norm_num) (abs_pos.mpr (ne_of_gt hypos))
        rw [abs_of_pos hypos] at this
        rw [hey, abs_of_pos hypos]
        exact_mod_cast this
      have h2 : ((8388608 : Int) : ℚ) ≤ y / 2 ^ (f32Exponent y - 23) := by
        rw [le_div_iff₀ (two_zpow_pos _)]
        have e : ((8388608 : Int) : ℚ) * 2 ^ (f32Exponent y - 23) = 2 ^ f32Exponent y := by
          have : f32Exponent y = 23 + (f32Exponent y - 23) := by ring
          nth_rewrite 2 [this]
          rw [zpow_add₀ (by norm_num : (2 : ℚ) ≠ 0)]
          norm_num
        rw [e]
        exact h1
      have h3 := roundEven_mono h2
      rw [roundEven_intCast] at h3
      unfold f32
      have h4 : (8388608 : ℚ) ≤ ((roundEven (y / 2 ^ (f32Exponent y - 23)) : Int) : ℚ) := by
        exact_mod_cast h3
      have e : (2 : ℚ) ^ f32Exponent y = 8388608 * 2 ^ (f32Exponent y - 23) := by
        have : f32Exponent y = 23 + (f32Exponent y - 23) := by ring
        nth_rewrite 1 [this]
        rw [zpow_add₀ (by norm_num : (2 : ℚ) ≠ 0)]
        norm_num
      rw [e]
      exact mul_le_mul_of_nonneg_right h4 (le_of_lt (two_zpow_pos _))
    have hmid : (2 : ℚ) ^ (f32Exponent x + 1) ≤ 2 ^ f32Exponent y :=
      zpow_le_zpow_right₀ (by norm_num) (by omega)
    exact le_trans hxu (le_trans hmid hyl)

/-- The result of a rounding is a `float`. -/
theorem f32_idem (x : ℚ) : f32 (f32 x) = f32 x := by
  have hj : -149 ≤ f32Exponent x - 23 := by have := f32Exponent_ge x; omega
  have hlt := abs_lt_zpow_exponent x
  have e24 : (2 : ℚ) ^ (f32Exponent x + 1) = 16777216 * 2 ^ (f32Exponent x - 23) := by
    have : f32Exponent x + 1 = 24 + (f32Exponent x - 23) := by ring
    rw [this, zpow_add₀ (by norm_num : (2 : ℚ) ≠ 0)]
    norm_num
  rw [e24] at hlt
  have hu := two_zpow_pos (f32Exponent x - 23)
  have hle := abs_lt.mp hlt
  have h1 : ((-16777216 : Int) : ℚ) ≤ x / 2 ^ (f32Exponent x - 23) := by
    rw [le_div_iff₀ hu]
    push_cast
    linarith [hle.1]
  have h2 : x / 2 ^ (f32Exponent x - 23) ≤ ((16777216 : Int) : ℚ) := by
    rw [div_le_iff₀ hu]
    push_cast
    linarith [hle.2]
  have m1 := roundEven_mono h1
  have m2 := roundEven_mono h2
  rw [roundEven_intCast] at m1 m2
  have hf : f32 x = (roundEven (x / 2 ^ (f32Exponent x - 23)) : ℚ) *
      2 ^ (f32Exponent x - 23) := rfl
  rw [hf]
  generalize roundEven (x / 2 ^ (f32Exponent x - 23)) = M at m1 m2
  generalize f32Exponent x - 23 = j at hj
  by_cases hM : |M| < 16777216
  · exact f32_exact M j hM hj
  · have hcase : M = 16777216 ∨ M = -16777216 := by
      rw [abs_lt] at hM
      omega
    have e2 : (2 : ℚ) ^ (j + 1) = 2 ^ j * 2 := by
      rw [zpow_add₀ (by norm_num : (2 : ℚ) ≠ 0)]
      norm_num
    rcases hcase with e | e
    · have h := f32_exact 8388608 (j + 1) (by norm_num) (by omega)
      have e3 : ((16777216 : Int) : ℚ) * 2 ^ j = ((8388608 : Int) : ℚ) * 2 ^ (j + 1) := by
        rw [e2]; push_cast; ring
      rw [e, e3]
      exact h
    · have h := f32_exact (-8388608) (j + 1) (by norm_num) (by omega)
      have e3 : ((-16777216 : Int) : ℚ) * 2 ^ j = ((-8388608 : Int) : ℚ) * 2 ^ (j + 1) := by
        rw [e2]; push_cast; ring
      rw [e, e3]
      exact h

/-- Evaluation of a rounding from the exponent and the rounded significand. -/
theorem f32_eval {x : ℚ} (e M : Int) (h1 : (2 : ℚ) ^ e ≤ |x|) (h2 : |x| < 2 ^ (e + 1))
    (h3 : -126 ≤ e) (h4 : (M : ℚ) - 1 / 2 < x / 2 ^ (e - 23))
    (h5 : x / 2 ^ (e - 23) < (M : ℚ) + 1 / 2) : f32 x = (M : ℚ) * 2 ^ (e - 23) := by
  unfold f32
  rw [f32Exponent_eq h1 h2 h3, roundEven_of_near h4 h5]

theorem f32_ofNat (n : Nat) [n.AtLeastTwo] (h : n < 16777216) :
    f32 (no_index (OfNat.ofNat n : ℚ)) = OfNat.ofNat n := by
  have := f32_natCast n h
  simpa using this

theorem f32_one : f32 1 = 1 := by
  have := f32_natCast 1 (by norm_num)
  simpa using this

/-! ## Evaluation on small blocks -/

theorem toUint16_natCast (m : Nat) (hm : m < 65536) : toUint16 (m : ℚ) = m := by
  unfold toUint16 truncQ
  rw [if_pos (by positivity)]
  simp only [Int.floor_natCast]
  omega

theorem toUint16_eq (x : ℚ) (m : Nat) (hm : m < 65536) (hx : x = (m : ℚ)) :
    toUint16 x = m := by
  rw [hx]; exact toUint16_natCast m hm

theorem layout_widths (r : Renderer) (garbage : Tables) (b : TextBlock) :
    (layout r garbage b).widths = b.widths := rfl

theorem layout_xpos (r : Renderer) (garbage : Tables) (b : TextBlock) (k : Nat) :
    (layout r garbage b).xpos k =
      toUint16 (positionLines b.widths r.page_width r.space_width
        (layoutBreaks r garbage b).length (layoutBreaks r garbage b) 0 0
        (fun k => (b.xpos k : ℚ)) k) := rfl

/-- C7: a block of exactly one word, whatever its width, the page width, the
space width and the uninitialised table contents, gets `line_breaks = [1]` and
`xpos = 0` for its word from `layout` on a fresh block. -/
theorem layout_single_word (w : Nat) (pw sw : Int) (garbage : Tables) :
    (layout ⟨pw, sw⟩ garbage (fresh [w])).line_breaks = [1] ∧
      (layout ⟨pw, sw⟩ garbage (fresh [w])).xpos 0 = 0 := by
  have hb : layoutBreaks ⟨pw, sw⟩ garbage (fresh [w]) = [1] := by
    simp [layoutBreaks, solve, outerLoop, followLinks, wrapSize, fresh]
  refine ⟨hb, ?_⟩
  simp only [layout, layoutOffsets, hb]
  simp [positionLines, placeWords, fresh, toUint16, truncQ]

/-- C6 (the code at the failing input): with the widths `[200, 10]`, page width
`100` and space width `1`, the pass for the start word `0` rejects the one-word
candidate `j = 0`: `dp[0]` keeps the sentinel `INT_MAX` and `ans[0]` keeps
whatever the uninitialised array held; when that value is `7` the
reconstruction falls off the end and `line_breaks` stays empty, so the
over-wide word is on no line. -/
theorem overwide_word_leaves_choice_unset :
    (∀ g : Tables, (solve [200, 10] 100 1 g).ans 0 = g.ans 0 ∧
      (solve [200, 10] 100 1 g).dp 0 = INT_MAX) ∧
    (layout ⟨100, 1⟩ ⟨fun _ => 0, fun _ => 7⟩ (fresh [200, 10])).line_breaks = [] := by
  refine ⟨fun g => ?_, by decide⟩
  simp [solve, outerLoop, row, innerLoop, wrapInt]

/-- C4 (the code at the failing input): with the widths `[50, 50]`, space width
`10` and page width `115`, the two words with one space between them measure
`110 <= 115` pixels, yet the solver does not admit the candidate `0..1` (it
compares `currlen = 119`): it ends the first line at word `0`, and the cost it
stores is `(115 - 59)^2 = 3136`, the slack taken from `currlen = 59`, not
`(115 - 50)^2 = 4225`. -/
theorem candidate_length_counts_extra_space (g : Tables) :
    (total_word_width [50, 50] 0 2 : Int) + (2 - 1) * 10 = 110 ∧
    (solve [50, 50] 115 10 g).ans 0 = 0 ∧ (solve [50, 50] 115 10 g).dp 0 = 3136 := by
  refine ⟨by decide, ?_⟩
  simp [solve, outerLoop, row, innerLoop, wrapInt, INT_MAX]

/-- C5 (the code at the failing input): with the widths `[51, 50]`, space width
`0` and page width `100` each word alone passes the width test, the layout is
the single line `[0, 2)` whose words measure `101 > 100` pixels, and the last
word is stored at `xpos = 51`, so its right edge is at `101`. -/
theorem line_wider_than_page_at_zero_space (g : Tables) :
    (∀ w ∈ ([51, 50] : List Nat), (w : Int) + 0 - 1 ≤ 100) ∧
    (layout ⟨100, 0⟩ g (fresh [51, 50])).line_breaks = [2] ∧
    total_word_width [51, 50] 0 2 = 101 ∧
    (layout ⟨100, 0⟩ g (fresh [51, 50])).xpos 1 = 51 := by
  have hb : layoutBreaks ⟨100, 0⟩ g (fresh [51, 50]) = [2] := by
    simp [layoutBreaks, solve, outerLoop, row, innerLoop, wrapInt, INT_MAX, followLinks,
      wrapSize, fresh]
  refine ⟨by decide, hb, by decide, ?_⟩
  simp only [layout, layoutOffsets, hb]
  norm_num [positionLines, actual_spacing, placeWords, nextXpos, fresh, f32_ofNat, f32_zero]
  exact toUint16_natCast 51 (by norm_num)

/-- C2 (counterexample): three words of width `10`, page width `100`, space
width `1`. The first `layout` of the fresh block gives `line_breaks = [3]` and
stores `xpos = 11` for word `1`; a second `layout` with the same inputs gives
`line_breaks = [3, 3]` and `xpos = 45` for word `1`. -/
theorem layout_twice_differs :
    (layout ⟨100, 1⟩ zeroTables (fresh [10, 10, 10])).line_breaks = [3] ∧
    (layout ⟨100, 1⟩ zeroTables (fresh [10, 10, 10])).xpos 1 = 11 ∧
    (layout ⟨100, 1⟩ zeroTables (layout ⟨100, 1⟩ zeroTables (fresh [10, 10, 10]))).line_breaks
      = [3, 3] ∧
    (layout ⟨100, 1⟩ zeroTables (layout ⟨100, 1⟩ zeroTables (fresh [10, 10, 10]))).xpos 1
      = 45 := by
  have hb : layoutBreaks ⟨100, 1⟩ zeroTables (fresh [10, 10, 10]) = [3] := by decide
  have hb2 : layoutBreaks ⟨100, 1⟩ zeroTables (layout ⟨100, 1⟩ zeroTables (fresh [10, 10, 10]))
      = [3, 3] := by decide
  refine ⟨hb, ?_, hb2, ?_⟩
  · simp only [layout, layoutOffsets, hb]
    norm_num [positionLines, actual_spacing, placeWords, nextXpos, fresh, f32_ofNat, f32_zero,
      f32_one]
    exact toUint16_eq _ 11 (by norm_num) (by norm_num)
  · rw [layout_xpos, hb2, layout_widths]
    norm_num [positionLines, actual_spacing, placeWords, nextXpos, fresh, total_word_width,
      f32_ofNat, f32_zero, f32_one]
    exact toUint16_eq _ 45 (by norm_num) (by norm_num)

theorem followLinks_prefix (ans : Nat → Nat) (n : Nat) :
    ∀ (fuel i : Nat) (lb : List Nat), ∃ ext, followLinks ans n fuel i lb = lb ++ ext := by
  intro fuel
  induction fuel with
  | zero => intro i lb; exact ⟨[], by simp [followLinks]⟩
  | succ f ih =>
    intro i lb
    simp only [followLinks]
    split
    · split
      · exact ⟨[], by simp⟩
      · split
        · exact ⟨_, rfl⟩
        · obtain ⟨ext, e⟩ := ih (wrapSize (ans i + 1)) (lb ++ [wrapSize (ans i + 1)])
          exact ⟨wrapSize (ans i + 1) :: ext, by rw [e]; simp⟩
    · exact ⟨[], by simp⟩

/-- The tables are determined by the input: two tables that are both good at
every start word agree on every entry below the word count. -/
theorem good_unique {ws : List Nat} {pw sw : Int} {t1 t2 : Tables}
    (h1 : ∀ k, k < ws.length → Good ws pw sw t1 k)
    (h2 : ∀ k, k < ws.length → Good ws pw sw t2 k) :
    ∀ (m k : Nat), ws.length - k ≤ m → k < ws.length →
      t1.dp k = t2.dp k ∧ t1.ans k = t2.ans k := by
  intro m
  induction m with
  | zero => intro k hm hk; omega
  | succ m ih =>
    intro k hm hk
    have hc : ∀ len j, k ≤ j → j < ws.length →
        candCost ws.length pw t1.dp len j = candCost ws.length pw t2.dp len j := by
      intro len j hkj hj
      unfold candCost
      by_cases hlast : j = ws.length - 1
      · rw [if_pos hlast, if_pos hlast]
      · rw [if_neg hlast, if_neg hlast, (ih (j + 1) (by omega) (by omega)).1]
    have g1 := h1 k hk
    have g2 := h2 k hk
    have hle12 : t1.dp k ≤ t2.dp k := by
      have := g1.dp_min (t2.ans k) g2.le_ans g2.ans_lt g2.admitted
      rw [hc _ _ g2.le_ans g2.ans_lt, ← g2.dp_eq] at this
      exact this
    have hle21 : t2.dp k ≤ t1.dp k := by
      have := g2.dp_min (t1.ans k) g1.le_ans g1.ans_lt g1.admitted
      rw [← hc _ _ g1.le_ans g1.ans_lt, ← g1.dp_eq] at this
      exact this
    have hdp : t1.dp k = t2.dp k := le_antisymm hle12 hle21
    refine ⟨hdp, ?_⟩
    rcases Nat.lt_trichotomy (t1.ans k) (t2.ans k) with hlt | heq | hgt
    · exfalso
      have := g2.dp_first (t1.ans k) g1.le_ans hlt
      rw [← hc _ _ g1.le_ans g1.ans_lt, ← g1.dp_eq] at this
      omega
    · exact heq
    · exfalso
      have := g1.dp_first (t2.ans k) g2.le_ans hgt
      rw [hc _ _ g2.le_ans g2.ans_lt, ← g2.dp_eq] at this
      omega

theorem followLinks_congr {a1 a2 : Nat → Nat} {n : Nat} (h : ∀ i, i < n → a1 i = a2 i) :
    ∀ (fuel i : Nat) (lb : List Nat),
      followLinks a1 n fuel i lb = followLinks a2 n fuel i lb := by
  intro fuel
  induction fuel with
  | zero => intro i lb; rfl
  | succ f ih =>
    intro i lb
    simp only [followLinks]
    by_cases hi : i < n
    · rw [if_pos hi, if_pos hi, h i hi]
      split
      · rfl
      · split
        · rfl
        · exact ih _ _
    · rw [if_neg hi, if_neg hi]

/-- On valid input the result of `layout` does not depend on what the
uninitialised arrays `dp` and `ans` hold. -/
theorem layout_deterministic (b : TextBlock) (pw sw : Int) (g1 g2 : Tables)
    (h : ValidInput b.widths pw sw) : layout ⟨pw, sw⟩ g1 b = layout ⟨pw, sw⟩ g2 b := by
  have hbreaks : layoutBreaks ⟨pw, sw⟩ g1 b = layoutBreaks ⟨pw, sw⟩ g2 b := by
    unfold layoutBreaks
    apply followLinks_congr
    intro i hi
    exact (good_unique (solve_good h g1) (solve_good h g2) b.widths.length i (by omega) hi).2
  unfold layout layoutOffsets
  rw [hbreaks]

/-- C2 (amended): `layout` is deterministic but never clears `line_breaks`.
For every block with at least one word, whatever `line_breaks` and `xpos` it
holds, on valid input the result of a call depends on the block and the
geometry only (not on the uninitialised tables), and the call keeps every
entry already in `line_breaks` and appends at least one new entry after them;
so a second call with unchanged inputs leaves `line_breaks` strictly longer
than the first call left it. -/
theorem layout_appends_breaks (b : TextBlock) (pw sw : Int) (garbage : Tables)
    (hne : b.widths ≠ []) (h : ValidInput b.widths pw sw) :
    (∀ g, layout ⟨pw, sw⟩ g b = layout ⟨pw, sw⟩ garbage b) ∧
    ∃ ext, ext ≠ [] ∧ (layout ⟨pw, sw⟩ garbage b).line_breaks = b.line_breaks ++ ext := by
  refine ⟨fun g => layout_deterministic b pw sw g garbage h, ?_⟩
  have hpos : 0 < b.widths.length := List.length_pos.mpr hne
  obtain ⟨h1, h2⟩ := solve_links h garbage 0 hpos
  have hlen := h.length_lt
  have hw : wrapSize ((solve b.widths pw sw garbage).ans 0 + 1) =
      (solve b.widths pw sw garbage).ans 0 + 1 := wrapSize_eq_self (by omega)
  rw [layout_line_breaks]
  change ∃ ext, ext ≠ [] ∧ followLinks (solve b.widths pw sw garbage).ans b.widths.length
    (1000 + 1) 0 b.line_breaks = b.line_breaks ++ ext
  rw [followLinks]
  simp only [hpos, if_true, hw]
  rw [if_neg (by omega)]
  split
  · exact ⟨_, by simp, rfl⟩
  · obtain ⟨ext, e⟩ := followLinks_prefix (solve b.widths pw sw garbage).ans b.widths.length
      1000 ((solve b.widths pw sw garbage).ans 0 + 1)
      (b.line_breaks ++ [(solve b.widths pw sw garbage).ans 0 + 1])
    exact ⟨((solve b.widths pw sw garbage).ans 0 + 1) :: ext, by simp, by rw [e]; simp⟩

/-- Witness of `layout_appends_breaks` on the block the first `layout` of the
widths `[50,50,50,50]` leaves. -/
theorem layout_appends_breaks_witness :
    (layout ⟨160, 10⟩ zeroTables (fresh [50, 50, 50, 50])).widths ≠ [] ∧
    ValidInput (layout ⟨160, 10⟩ zeroTables (fresh [50, 50, 50, 50])).widths 160 10 ∧
    ∃ ext, ext ≠ [] ∧
      (layout ⟨160, 10⟩ zeroTables
        (layout ⟨160, 10⟩ zeroTables (fresh [50, 50, 50, 50]))).line_breaks =
      (layout ⟨160, 10⟩ zeroTables (fresh [50, 50, 50, 50])).line_breaks ++ ext :=
  ⟨by decide, validInput_example,
    (layout_appends_breaks (layout ⟨160, 10⟩ zeroTables (fresh [50, 50, 50, 50])) 160 10
      zeroTables (by decide) validInput_example).2⟩

/-! ## The positioning loop -/

theorem advance_nil (spacing x : ℚ) : advance spacing [] x = x := rfl

theorem advance_cons (spacing x : ℚ) (w : Nat) (l : List Nat) :
    advance spacing (w :: l) x = advance spacing l (nextXpos spacing x w) := rfl

theorem advance_append (spacing x : ℚ) (l1 l2 : List Nat) :
    advance spacing (l1 ++ l2) x = advance spacing l2 (advance spacing l1 x) := by
  unfold advance
  rw [List.foldl_append]

theorem placeWords_spec (spacing : ℚ) :
    ∀ (l : List Nat) (k : Nat) (x : ℚ) (xp : Nat → ℚ) (m : Nat),
      placeWords spacing l k x xp m =
        if k ≤ m ∧ m < k + l.length then advance spacing (l.take (m - k)) x
        else xp m := by
  intro l
  induction l with
  | nil =>
    intro k x xp m
    simp only [placeWords, List.length_nil, Nat.add_zero]
    rw [if_neg (by omega)]
  | cons w rest ih =>
    intro k x xp m
    simp only [placeWords, List.length_cons]
    rw [ih]
    by_cases h1 : k + 1 ≤ m ∧ m < k + 1 + rest.length
    · rw [if_pos h1, if_pos (by omega)]
      have e : m - k = (m - (k + 1)) + 1 := by omega
      rw [e, List.take_succ_cons, advance_cons]
    · rw [if_neg h1]
      by_cases h2 : m = k
      · subst h2
        rw [Function.update_same, if_pos (by omega)]
        simp [advance_nil]
      · rw [Function.update_noteq h2, if_neg (by omega)]

theorem take_take_drop (ws : List Nat) {s m e : Nat} (hm : m ≤ e) :
    ((ws.drop s).take (e - s)).take (m - s) = (ws.drop s).take (m - s) := by
  rw [List.take_take]
  congr 1
  omega

/-- The `float` offset the loop of line 163 gives the word `m` of the line that
starts at `s` when the spacing is `spacing`: the value of `xpos` after the
words `s, ..., m - 1`. -/
theorem placeWords_line (ws : List Nat) (spacing : ℚ) (xp : Nat → ℚ) {s e m : Nat}
    (he : e ≤ ws.length) (hsm : s ≤ m) (hme : m < e) :
    placeWords spacing ((ws.drop s).take (e - s)) s 0 xp m =
      advance spacing ((ws.drop s).take (m - s)) 0 := by
  rw [placeWords_spec, if_pos, take_take_drop ws (le_of_lt hme)]
  refine ⟨hsm, ?_⟩
  simp only [List.length_take, List.length_drop]
  omega

theorem placeWords_frame (ws : List Nat) (spacing : ℚ) (xp : Nat → ℚ) {s e m : Nat}
    (hm : m < s ∨ e ≤ m) :
    placeWords spacing ((ws.drop s).take (e - s)) s 0 xp m = xp m := by
  rw [placeWords_spec, if_neg]
  simp only [List.length_take, List.length_drop]
  omega

theorem positionLines_frame (ws : List Nat) (pw sw : Int) (total : Nat) :
    ∀ (bs : List Nat) (i start : Nat) (xp : Nat → ℚ) (m : Nat),
      (start :: bs).Pairwise (· ≤ ·) → m < start →
      positionLines ws pw sw total bs i start xp m = xp m := by
  intro bs
  induction bs with
  | nil => intro i start xp m _ _; rfl
  | cons b rest ih =>
    intro i start xp m hp hm
    have hp' := List.pairwise_cons.mp hp
    have hsb : start ≤ b := hp'.1 b (List.mem_cons_self _ _)
    simp only [positionLines]
    rw [ih _ _ _ _ hp'.2 (by omega), placeWords_frame ws _ _ (Or.inl hm)]

/-- The line number `k` of a break sequence starts at `0` or at the previous
break (as `render` reads it) and ends at the break `k`. -/
theorem positionLines_line (ws : List Nat) (pw sw : Int) (total : Nat) :
    ∀ (bs : List Nat) (i start : Nat) (xp : Nat → ℚ) (k m : Nat),
      (start :: bs).Pairwise (· ≤ ·) → (∀ b ∈ bs, b ≤ ws.length) → k < bs.length →
      (start :: bs).getD k 0 ≤ m → m < bs.getD k 0 →
      positionLines ws pw sw total bs i start xp m =
        advance (actual_spacing ws pw sw total (i + k) ((start :: bs).getD k 0) (bs.getD k 0))
          ((ws.drop ((start :: bs).getD k 0)).take (m - (start :: bs).getD k 0)) 0 := by
  intro bs
  induction bs with
  | nil => intro i start xp k m _ _ hk; simp at hk
  | cons b rest ih =>
    intro i start xp k m hp hb hk h1 h2
    have hp' := List.pairwise_cons.mp hp
    simp only [positionLines]
    cases k with
    | zero =>
      simp only [List.getD_cons_zero] at h1 h2 ⊢
      rw [positionLines_frame ws pw sw total rest _ b _ m hp'.2 h2,
        placeWords_line ws _ _ (hb b (List.mem_cons_self _ _)) h1 h2]
      simp
    | succ k =>
      simp only [List.getD_cons_succ] at h1 h2 ⊢
      rw [ih (i + 1) b _ k m hp'.2 (fun c hc => hb c (List.mem_cons_of_mem _ hc))
        (by simpa using hk) h1 h2]
      have : i + 1 + k = i + (k + 1) := by omega
      rw [this]

theorem followLinks_le (ans : Nat → Nat) (n : Nat) :
    ∀ (fuel i : Nat) (lb : List Nat), (∀ b ∈ lb, b ≤ n) →
      ∀ b ∈ followLinks ans n fuel i lb, b ≤ n := by
  intro fuel
  induction fuel with
  | zero => intro i lb h; simpa [followLinks] using h
  | succ f ih =>
    intro i lb h
    simp only [followLinks]
    split
    · split
      · exact h
      · rename_i hle
        have h' : ∀ b ∈ lb ++ [wrapSize (ans i + 1)], b ≤ n := by
          intro b hb
          rcases List.mem_append.mp hb with hb | hb
          · exact h b hb
          · rw [List.mem_singleton.mp hb]; omega
        split
        · exact h'
        · exact ih _ _ h'
    · exact h

theorem lineStart_eq (lb : List Nat) (k : Nat) : lineStart lb k = (0 :: lb).getD k 0 := by
  cases k with
  | zero => simp [lineStart]
  | succ k => simp [lineStart]

/-- The `float` offset `layout` gives the word `m` of the line number `k` of a
fresh block, when the breaks it leaves are strictly increasing: the value of
`xpos` after the words of the line before `m`, with the spacing of the line. -/
theorem layoutOffsets_line (ws : List Nat) (pw sw : Int) (garbage : Tables) (bs : List Nat)
    (hbs : layoutBreaks ⟨pw, sw⟩ garbage (fresh ws) = bs) (hsorted : bs.Pairwise (· < ·))
    {k m : Nat} (hk : k < bs.length) (h1 : lineStart bs k ≤ m) (h2 : m < lineEnd bs k) :
    layoutOffsets ⟨pw, sw⟩ garbage (fresh ws) m =
      advance (actual_spacing ws pw sw bs.length k (lineStart bs k) (lineEnd bs k))
        ((ws.drop (lineStart bs k)).take (m - lineStart bs k)) 0 := by
  have hle : ∀ b ∈ bs, b ≤ ws.length := by
    rw [← hbs, layoutBreaks_fresh]
    exact followLinks_le _ _ _ _ _ (by simp)
  have hp : (0 :: bs).Pairwise (· ≤ ·) :=
    List.pairwise_cons.mpr ⟨fun b _ => Nat.zero_le b, hsorted.imp le_of_lt⟩
  unfold layoutOffsets
  rw [hbs]
  rw [lineStart_eq] at h1 ⊢
  unfold lineEnd at h2 ⊢
  have := positionLines_line ws pw sw bs.length bs 0 0
    (fun k => (((fresh ws).xpos k : Nat) : ℚ)) k m hp hle hk h1 h2
  rw [Nat.zero_add] at this
  exact this

theorem line_bounds (bs : List Nat) {n : Nat}
    (hle : ∀ b ∈ bs, b ≤ n) {k : Nat} (hk : k < bs.length) :
    lineEnd bs k ≤ n ∧ (lineStart bs k, lineEnd bs k) ∈ linesOf bs := by
  have he : lineEnd bs k = bs[k] := by
    unfold lineEnd
    rw [List.getD_eq_getElem _ _ hk]
  have hk' : k < (0 :: bs).length := by simp; omega
  have hs : lineStart bs k = (0 :: bs)[k] := by
    rw [lineStart_eq, List.getD_eq_getElem _ _ hk']
  refine ⟨by rw [he]; exact hle _ (List.getElem_mem hk), ?_⟩
  unfold linesOf
  rw [List.mem_iff_getElem]
  refine ⟨k, by simp; omega, ?_⟩
  rw [List.getElem_zip, he, hs]

theorem layoutBreaks_le (ws : List Nat) (pw sw : Int) (garbage : Tables) :
    ∀ b ∈ layoutBreaks ⟨pw, sw⟩ garbage (fresh ws), b ≤ ws.length := by
  rw [layoutBreaks_fresh]
  exact followLinks_le _ _ _ _ _ (by simp)

theorem toUint16_zero : toUint16 0 = 0 := by
  simpa using toUint16_natCast 0 (by norm_num)

/-! ## The `float` offsets along a line -/

/-- A multiple of `1/128` below `2^17` is a `float`. -/
theorem f32_grid (m : Nat) (hm : m < 16777216) : f32 ((m : ℚ) / 128) = (m : ℚ) / 128 := by
  have h := f32_exact (m : Int) (-7)
    (by rw [abs_of_nonneg (Int.natCast_nonneg m)]; exact_mod_cast hm) (by norm_num)
  have e : ((m : Int) : ℚ) * 2 ^ (-7 : Int) = (m : ℚ) / 128 := by
    rw [zpow_neg]
    norm_num
    ring
  rw [e] at h
  exact h

theorem nextXpos_nonneg {spacing x : ℚ} (hs : 0 ≤ spacing) (hx : 0 ≤ x) (w : Nat) :
    0 ≤ nextXpos spacing x w := by
  unfold nextXpos
  have h1 : 0 ≤ f32 (w : ℚ) := f32_nonneg (Nat.cast_nonneg w)
  have h2 : 0 ≤ f32 (f32 (w : ℚ) + spacing) := f32_nonneg (add_nonneg h1 hs)
  exact f32_nonneg (add_nonneg hx h2)

theorem le_nextXpos {spacing x : ℚ} (hs : 0 ≤ spacing) (hx : 0 ≤ x) (hr : f32 x = x) (w : Nat) :
    x ≤ nextXpos spacing x w := by
  unfold nextXpos
  have h1 : 0 ≤ f32 (w : ℚ) := f32_nonneg (Nat.cast_nonneg w)
  have h2 : 0 ≤ f32 (f32 (w : ℚ) + spacing) := f32_nonneg (add_nonneg h1 hs)
  have h3 := f32_mono hx (by linarith : x ≤ x + f32 (f32 (w : ℚ) + spacing))
  rw [hr] at h3
  exact h3

theorem advance_nonneg {spacing : ℚ} (hs : 0 ≤ spacing) :
    ∀ (l : List Nat) (x : ℚ), 0 ≤ x → 0 ≤ advance spacing l x := by
  intro l
  induction l with
  | nil => intro x hx; exact hx
  | cons w rest ih =>
    intro x hx
    rw [advance_cons]
    exact ih _ (nextXpos_nonneg hs hx w)

theorem advance_repr (spacing : ℚ) :
    ∀ (l : List Nat) (x : ℚ), f32 x = x → f32 (advance spacing l x) = advance spacing l x := by
  intro l
  induction l with
  | nil => intro x hx; exact hx
  | cons w rest ih =>
    intro x _
    rw [advance_cons]
    exact ih _ (f32_idem _)

/-- With a spacing that is not negative the `float xpos` never decreases. -/
theorem le_advance {spacing : ℚ} (hs : 0 ≤ spacing) :
    ∀ (l : List Nat) (x : ℚ), 0 ≤ x → f32 x = x → x ≤ advance spacing l x := by
  intro l
  induction l with
  | nil => intro x _ _; exact le_refl _
  | cons w rest ih =>
    intro x hx hr
    rw [advance_cons]
    exact le_trans (le_nextXpos hs hx hr w)
      (ih _ (nextXpos_nonneg hs hx w) (f32_idem _))

/-- With an integer spacing and sums below `2^24` every `float` operation of
the loop is exact. -/
theorem advance_exact (σ : Nat) :
    ∀ (l : List Nat) (x : Nat), x + l.sum + l.length * σ < 16777216 →
      advance (σ : ℚ) l (x : ℚ) = ((x + l.sum + l.length * σ : Nat) : ℚ) := by
  intro l
  induction l with
  | nil => intro x _; simp [advance_nil]
  | cons w rest ih =>
    intro x hb
    simp only [List.sum_cons, List.length_cons] at hb
    have hb2 : x + (w + rest.sum) + (rest.length * σ + σ) < 16777216 := by
      have : (rest.length + 1) * σ = rest.length * σ + σ := by ring
      omega
    have e1 : f32 (w : ℚ) = w := f32_natCast w (by omega)
    have e2 : f32 ((w : ℚ) + (σ : ℚ)) = ((w + σ : Nat) : ℚ) := by
      have := f32_natCast (w + σ) (by omega)
      push_cast at this ⊢
      exact this
    have e3 : f32 ((x : ℚ) + ((w + σ : Nat) : ℚ)) = ((x + w + σ : Nat) : ℚ) := by
      have := f32_natCast (x + w + σ) (by omega)
      push_cast at this ⊢
      rw [← this]
      congr 1
      ring
    rw [advance_cons]
    unfold nextXpos
    rw [e1, e2, e3, ih (x + w + σ) (by omega)]
    congr 1
    simp only [List.sum_cons, List.length_cons]
    ring

/-- Upper bound of the `float xpos` from a bound of the spacing on the grid of
the multiples of `1/128`, which are `float` values below `2^17`. -/
theorem advance_le_grid {spacing : ℚ} (g : Nat) (hs0 : 0 ≤ spacing)
    (hs : spacing ≤ (g : ℚ) / 128) :
    ∀ (l : List Nat) (x : ℚ) (G : Nat), 0 ≤ x → x ≤ (G : ℚ) / 128 →
      G + 128 * l.sum + l.length * g < 16777216 →
      advance spacing l x ≤ ((G + 128 * l.sum + l.length * g : Nat) : ℚ) / 128 := by
  intro l
  induction l with
  | nil => intro x G _ hx _; simpa [advance_nil] using hx
  | cons w rest ih =>
    intro x G hx0 hx hb
    simp only [List.sum_cons, List.length_cons] at hb
    have hb2 : G + (128 * w + 128 * rest.sum) + (rest.length * g + g) < 16777216 := by
      have : (rest.length + 1) * g = rest.length * g + g := by ring
      omega
    have e1 : f32 (w : ℚ) = w := f32_natCast w (by omega)
    have hw0 : (0 : ℚ) ≤ (w : ℚ) := Nat.cast_nonneg w
    have h2 : f32 ((w : ℚ) + spacing) ≤ ((128 * w + g : Nat) : ℚ) / 128 := by
      have := f32_mono (add_nonneg hw0 hs0)
        (by push_cast; linarith : (w : ℚ) + spacing ≤ ((128 * w + g : Nat) : ℚ) / 128)
      rw [f32_grid _ (by omega)] at this
      exact this
    have h20 : 0 ≤ f32 ((w : ℚ) + spacing) := f32_nonneg (add_nonneg hw0 hs0)
    have h3 : nextXpos spacing x w ≤ ((G + 128 * w + g : Nat) : ℚ) / 128 := by
      unfold nextXpos
      rw [e1]
      have := f32_mono (add_nonneg hx0 h20)
        (by push_cast at h2 ⊢; linarith :
          x + f32 ((w : ℚ) + spacing) ≤ ((G + 128 * w + g : Nat) : ℚ) / 128)
      rw [f32_grid _ (by omega)] at this
      exact this
    rw [advance_cons]
    have := ih (nextXpos spacing x w) (G + 128 * w + g) (nextXpos_nonneg hs0 hx0 w) h3 (by omega)
    refine le_trans this (le_of_eq ?_)
    congr 2
    simp only [List.sum_cons, List.length_cons]
    ring

/-- Lower bound of the `float xpos` from a bound of the spacing on the grid of
the multiples of `1/128`. -/
theorem advance_ge_grid {spacing : ℚ} (g : Nat) (hs : (g : ℚ) / 128 ≤ spacing) :
    ∀ (l : List Nat) (x : ℚ) (G : Nat), (G : ℚ) / 128 ≤ x →
      G + 128 * l.sum + l.length * g < 16777216 →
      ((G + 128 * l.sum + l.length * g : Nat) : ℚ) / 128 ≤ advance spacing l x := by
  intro l
  induction l with
  | nil => intro x G hx _; simpa [advance_nil] using hx
  | cons w rest ih =>
    intro x G hx hb
    simp only [List.sum_cons, List.length_cons] at hb
    have hb2 : G + (128 * w + 128 * rest.sum) + (rest.length * g + g) < 16777216 := by
      have : (rest.length + 1) * g = rest.length * g + g := by ring
      omega
    have e1 : f32 (w : ℚ) = w := f32_natCast w (by omega)
    have hg0 : (0 : ℚ) ≤ (g : ℚ) / 128 := by positivity
    have hG0 : (0 : ℚ) ≤ (G : ℚ) / 128 := by positivity
    have hw0 : (0 : ℚ) ≤ (w : ℚ) := Nat.cast_nonneg w
    have h2 : ((128 * w + g : Nat) : ℚ) / 128 ≤ f32 ((w : ℚ) + spacing) := by
      have := f32_mono (by positivity : (0 : ℚ) ≤ ((128 * w + g : Nat) : ℚ) / 128)
        (by push_cast; linarith : ((128 * w + g : Nat) : ℚ) / 128 ≤ (w : ℚ) + spacing)
      rw [f32_grid _ (by omega)] at this
      exact this
    have h3 : ((G + 128 * w + g : Nat) : ℚ) / 128 ≤ nextXpos spacing x w := by
      unfold nextXpos
      rw [e1]
      have := f32_mono (by positivity : (0 : ℚ) ≤ ((G + 128 * w + g : Nat) : ℚ) / 128)
        (by push_cast at h2 ⊢; linarith :
          ((G + 128 * w + g : Nat) : ℚ) / 128 ≤ x + f32 ((w : ℚ) + spacing))
      rw [f32_grid _ (by omega)] at this
      exact this
    rw [advance_cons]
    have := ih (nextXpos spacing x w) (G + 128 * w + g) h3 (by omega)
    refine le_trans (le_of_eq ?_) this
    congr 2
    simp only [List.sum_cons, List.length_cons]
    ring
/-! ## The justified lines on valid input -/

theorem total_word_width_mono (ws : List Nat) (s : Nat) {a b : Nat} (hsa : s ≤ a) (hab : a ≤ b)
    (hb : b ≤ ws.length) : total_word_width ws s a ≤ total_word_width ws s b := by
  induction b, hab using Nat.le_induction with
  | base => exact le_refl _
  | succ k hk ih =>
    rw [total_word_width_succ ws (le_trans hsa hk) (by omega)]
    have := ih (by omega)
    omega

theorem exact_spacing_pos_den {s e : Nat} (hc : s + 2 < e) :
    (0 : ℚ) < ((e - s - 1 : Nat) : ℚ) := by
  have : 0 < e - s - 1 := by omega
  exact_mod_cast this

/-- On a line of more than two words that passed the width test, with a space
width of at least one pixel, the two operands of the quotient of line 159 are
converted to `float` exactly, the quotient is at least the space width, and
the spacing is its rounding. -/
theorem justified_spacing {ws : List Nat} {pw sw : Int} (h : ValidInput ws pw sw)
    (hsw : 1 ≤ sw) (total k : Nat) {s e : Nat} (hcond : k ≠ total - 1) (hc : s + 2 < e)
    (he : e ≤ ws.length) (hfit : lineLen ws sw s e ≤ pw) :
    actual_spacing ws pw sw total k s e =
      f32 (((pw - (total_word_width ws s e : Int) : Int) : ℚ) / ((e - s - 1 : Nat) : ℚ)) ∧
    (sw : ℚ) ≤ ((pw - (total_word_width ws s e : Int) : Int) : ℚ) / ((e - s - 1 : Nat) : ℚ) ∧
    ((pw - (total_word_width ws s e : Int) : Int) : ℚ) / ((e - s - 1 : Nat) : ℚ) ≤ 46340 ∧
    (total_word_width ws s e : Int) ≤ pw ∧ ((e - s - 1 : Nat) : Int) ≤ 46340 := by
  obtain ⟨_, hpw2, _⟩ := h.pw_range (by omega)
  unfold lineLen at hfit
  have e1 : ((e - s : Nat) : Int) = ((e - s - 1 : Nat) : Int) + 1 := by omega
  rw [e1] at hfit
  have hb2 : (2 : Int) ≤ ((e - s - 1 : Nat) : Int) := by omega
  have hT0 : (0 : Int) ≤ (total_word_width ws s e : Int) := Int.natCast_nonneg _
  have hprod : ((e - s - 1 : Nat) : Int) * sw ≤ pw - (total_word_width ws s e : Int) := by
    nlinarith
  have hb_le : ((e - s - 1 : Nat) : Int) ≤ pw - (total_word_width ws s e : Int) := by
    nlinarith
  have hden := exact_spacing_pos_den hc
  have ha : f32 ((pw - (total_word_width ws s e : Int) : Int) : ℚ) =
      ((pw - (total_word_width ws s e : Int) : Int) : ℚ) :=
    f32_intCast _ (by rw [abs_lt]; constructor <;> omega)
  have hbc : (((e : Int) - (s : Int) - 1 : Int) : ℚ) = ((e - s - 1 : Nat) : ℚ) := by
    have : ((e : Int) - (s : Int) - 1) = ((e - s - 1 : Nat) : Int) := by omega
    rw [this]
    norm_cast
  have hb : f32 ((e - s - 1 : Nat) : ℚ) = ((e - s - 1 : Nat) : ℚ) :=
    f32_natCast _ (by omega)
  refine ⟨?_, ?_, ?_, by omega, by omega⟩
  · unfold actual_spacing
    rw [if_pos ⟨hcond, by omega⟩, ha, hbc, hb]
  · rw [le_div_iff₀ hden]
    have : ((sw * ((e - s - 1 : Nat) : Int) : Int) : ℚ) ≤
        ((pw - (total_word_width ws s e : Int) : Int) : ℚ) := by
      exact_mod_cast (by linarith : sw * ((e - s - 1 : Nat) : Int) ≤
        pw - (total_word_width ws s e : Int))
    push_cast at this ⊢
    exact this
  · rw [div_le_iff₀ hden]
    have h1 : ((pw - (total_word_width ws s e : Int) : Int) : ℚ) ≤ 46340 := by
      exact_mod_cast (by omega : pw - (total_word_width ws s e : Int) ≤ 46340)
    have h2 : (2 : ℚ) ≤ ((e - s - 1 : Nat) : ℚ) := by
      exact_mod_cast (by omega : 2 ≤ e - s - 1)
    nlinarith

theorem total_word_width_eq (ws : List Nat) (s m : Nat) :
    ((ws.drop s).take (m - s)).sum = total_word_width ws s m := rfl

theorem take_drop_length (ws : List Nat) {s m : Nat} (hm : m ≤ ws.length) :
    ((ws.drop s).take (m - s)).length = m - s := by
  simp only [List.length_take, List.length_drop]
  omega

/-- On a justified line of valid input with a space width of at least one
pixel, the `float xpos` of the word `m` is within `(m - s) / 128` of the exact
offset, which is at most the page width. -/
theorem justified_offsets_near {ws : List Nat} {pw sw : Int} (h : ValidInput ws pw sw)
    (hsw : 1 ≤ sw) (total k : Nat) {s e m : Nat} (hcond : k ≠ total - 1) (hc : s + 2 < e)
    (he : e ≤ ws.length) (hfit : lineLen ws sw s e ≤ pw) (hsm : s ≤ m) (hme : m < e) :
    |advance (actual_spacing ws pw sw total k s e) ((ws.drop s).take (m - s)) 0 -
        (((total_word_width ws s m : Nat) : ℚ) + ((m - s : Nat) : ℚ) *
          (((pw - (total_word_width ws s e : Int) : Int) : ℚ) / ((e - s - 1 : Nat) : ℚ)))| ≤
      ((m - s : Nat) : ℚ) / 128 ∧
    ((total_word_width ws s m : Nat) : ℚ) + ((m - s : Nat) : ℚ) *
      (((pw - (total_word_width ws s e : Int) : Int) : ℚ) / ((e - s - 1 : Nat) : ℚ)) ≤ (pw : ℚ) ∧
    ((m - s : Nat) : ℚ) ≤ 46340 := by
  obtain ⟨hsp, hq1, hq2, hT, hb⟩ := justified_spacing h hsw total k hcond hc he hfit
  obtain ⟨_, hpw2, _⟩ := h.pw_range (by omega)
  have hden := exact_spacing_pos_den hc
  rw [hsp]
  generalize hq : ((pw - (total_word_width ws s e : Int) : Int) : ℚ) / ((e - s - 1 : Nat) : ℚ) = q
    at hq1 hq2 ⊢
  have hswQ : (1 : ℚ) ≤ (sw : ℚ) := by exact_mod_cast hsw
  have hq0 : 0 ≤ q := by linarith
  -- the quotient between two neighbours on the grid
  have hlo : ((⌊128 * q⌋₊ : Nat) : ℚ) / 128 ≤ q := by
    rw [div_le_iff₀ (by norm_num)]
    have := Nat.floor_le (by positivity : (0 : ℚ) ≤ 128 * q)
    linarith
  have hhi : q ≤ ((⌈128 * q⌉₊ : Nat) : ℚ) / 128 := by
    rw [le_div_iff₀ (by norm_num)]
    have := Nat.le_ceil (128 * q)
    linarith
  have hlo2 : 128 * q - 1 < ((⌊128 * q⌋₊ : Nat) : ℚ) := by
    have := Nat.lt_floor_add_one (128 * q)
    linarith
  have hhi2 : ((⌈128 * q⌉₊ : Nat) : ℚ) < 128 * q + 1 :=
    Nat.ceil_lt_add_one (by positivity)
  have hhiN : ⌈128 * q⌉₊ ≤ 5931520 := by
    rw [Nat.ceil_le]
    push_cast
    linarith
  have hloN : ⌊128 * q⌋₊ ≤ ⌈128 * q⌉₊ := Nat.floor_le_ceil _
  have hflo : ((⌊128 * q⌋₊ : Nat) : ℚ) / 128 ≤ f32 q := by
    have := f32_mono (by positivity : (0 : ℚ) ≤ ((⌊128 * q⌋₊ : Nat) : ℚ) / 128) hlo
    rw [f32_grid _ (by omega)] at this
    exact this
  have hfhi : f32 q ≤ ((⌈128 * q⌉₊ : Nat) : ℚ) / 128 := by
    have := f32_mono hq0 hhi
    rw [f32_grid _ (by omega)] at this
    exact this
  have hf0 : 0 ≤ f32 q := f32_nonneg hq0
  -- sizes
  have hjb : m - s ≤ e - s - 1 := by omega
  have hjbQ : ((m - s : Nat) : ℚ) ≤ ((e - s - 1 : Nat) : ℚ) := by exact_mod_cast hjb
  have hbQ : ((e - s - 1 : Nat) : ℚ) ≤ 46340 := by exact_mod_cast hb
  have hj0 : (0 : ℚ) ≤ ((m - s : Nat) : ℚ) := Nat.cast_nonneg _
  have hTm : total_word_width ws s m ≤ total_word_width ws s e :=
    total_word_width_mono ws s hsm (le_of_lt hme) he
  have hTmQ : ((total_word_width ws s m : Nat) : ℚ) ≤ ((total_word_width ws s e : Nat) : ℚ) := by
    exact_mod_cast hTm
  have hTe : total_word_width ws s e ≤ 46340 := by omega
  have hbq : ((e - s - 1 : Nat) : ℚ) * q =
      ((pw - (total_word_width ws s e : Int) : Int) : ℚ) := by
    rw [← hq, mul_comm]
    exact div_mul_cancel₀ _ (ne_of_gt hden)
  have hjq : ((m - s : Nat) : ℚ) * q ≤ ((pw - (total_word_width ws s e : Int) : Int) : ℚ) := by
    rw [← hbq]
    exact mul_le_mul_of_nonneg_right hjbQ hq0
  have hexact : ((total_word_width ws s m : Nat) : ℚ) + ((m - s : Nat) : ℚ) * q ≤ (pw : ℚ) := by
    push_cast at hjq
    linarith
  have hsize : 0 + 128 * total_word_width ws s m + (m - s) * ⌈128 * q⌉₊ < 16777216 := by
    have h2 : ((((m - s) * ⌈128 * q⌉₊ : Nat)) : ℚ) ≤ 128 * 46340 + 46340 := by
      push_cast
      have a1 : ((m - s : Nat) : ℚ) * ((⌈128 * q⌉₊ : Nat) : ℚ) ≤
          ((m - s : Nat) : ℚ) * (128 * q + 1) :=
        mul_le_mul_of_nonneg_left (le_of_lt hhi2) hj0
      have a2 : ((pw - (total_word_width ws s e : Int) : Int) : ℚ) ≤ 46340 := by
        exact_mod_cast (by omega : pw - (total_word_width ws s e : Int) ≤ 46340)
      nlinarith
    have h3 : (m - s) * ⌈128 * q⌉₊ ≤ 128 * 46340 + 46340 := by exact_mod_cast h2
    omega
  have hsize2 : 0 + 128 * total_word_width ws s m + (m - s) * ⌊128 * q⌋₊ < 16777216 := by
    have : (m - s) * ⌊128 * q⌋₊ ≤ (m - s) * ⌈128 * q⌉₊ := Nat.mul_le_mul_left _ hloN
    omega
  have hlen := take_drop_length ws (le_trans (le_of_lt hme) he) (s := s) (m := m)
  have hsum := total_word_width_eq ws s m
  have hup := advance_le_grid ⌈128 * q⌉₊ hf0 hfhi ((ws.drop s).take (m - s)) 0 0 (le_refl _)
    (by simp) (by rw [hlen, hsum]; exact hsize)
  have hdown := advance_ge_grid ⌊128 * q⌋₊ hflo ((ws.drop s).take (m - s)) 0 0
    (by simp) (by rw [hlen, hsum]; exact hsize2)
  rw [hlen, hsum] at hup hdown
  push_cast at hup hdown
  refine ⟨?_, hexact, le_trans hjbQ hbQ⟩
  rw [abs_le]
  constructor
  · have : ((m - s : Nat) : ℚ) * (128 * q - 1) ≤ ((m - s : Nat) : ℚ) * ((⌊128 * q⌋₊ : Nat) : ℚ) :=
      mul_le_mul_of_nonneg_left (le_of_lt hlo2) hj0
    linarith
  · have : ((m - s : Nat) : ℚ) * ((⌈128 * q⌉₊ : Nat) : ℚ) ≤ ((m - s : Nat) : ℚ) * (128 * q + 1) :=
      mul_le_mul_of_nonneg_left (le_of_lt hhi2) hj0
    linarith
theorem toUint16_lt (x : ℚ) : toUint16 x < 65536 := by
  unfold toUint16
  omega

theorem toUint16_mono {x y : ℚ} (hx : 0 ≤ x) (hxy : x ≤ y) (hy : y < 65536) :
    toUint16 x ≤ toUint16 y := by
  unfold toUint16 truncQ
  rw [if_pos hx, if_pos (le_trans hx hxy)]
  have h1 : (0 : Int) ≤ ⌊x⌋ := Int.floor_nonneg.mpr hx
  have h2 : ⌊x⌋ ≤ ⌊y⌋ := Int.floor_mono hxy
  have h3 : ⌊y⌋ < 65536 := Int.floor_lt.mpr (by exact_mod_cast hy)
  omega

/-! ## Justified and nominal lines -/

/-- C8 (amended): full justification on a fresh block. For every line of the
result of `layout` on a fresh block that is not the last line and has more
than two words, the break sequence being strictly increasing (as it is on
valid input): the first word of the line is stored at `xpos = 0`, and with the
spacing `q = (page_width - total_word_width) / (word_count - 1)` taken as an
exact rational the sum of the word widths plus `word_count - 1` spacings is the
page width. On valid input with a space width of at least one pixel, moreover,
the spacing the code uses is the `float` nearest to `q`, the `float` offset it
gives the `j`-th word of the line is within `j / 128` of the exact offset
`(sum of the first j widths) + j * q`, and the `float` offset of the last word
plus its width is within `(word_count - 1) / 128` of the page width. -/
theorem justified_line_spans_page (ws : List Nat) (pw sw : Int) (garbage : Tables)
    (bs : List Nat) (k : Nat)
    (hbs : (layout ⟨pw, sw⟩ garbage (fresh ws)).line_breaks = bs)
    (hsorted : bs.Pairwise (· < ·))
    (hk : k + 1 < bs.length)
    (hcount : lineStart bs k + 2 < lineEnd bs k) :
    (layout ⟨pw, sw⟩ garbage (fresh ws)).xpos (lineStart bs k) = 0 ∧
    ((total_word_width ws (lineStart bs k) (lineEnd bs k) : Nat) : ℚ) +
      ((lineEnd bs k - lineStart bs k - 1 : Nat) : ℚ) *
        (((pw - (total_word_width ws (lineStart bs k) (lineEnd bs k) : Int) : Int) : ℚ) /
          ((lineEnd bs k - lineStart bs k - 1 : Nat) : ℚ)) = (pw : ℚ) ∧
    (ValidInput ws pw sw → 1 ≤ sw →
      actual_spacing ws pw sw bs.length k (lineStart bs k) (lineEnd bs k) =
        f32 (((pw - (total_word_width ws (lineStart bs k) (lineEnd bs k) : Int) : Int) : ℚ) /
          ((lineEnd bs k - lineStart bs k - 1 : Nat) : ℚ)) ∧
      (∀ m, lineStart bs k ≤ m → m < lineEnd bs k →
        |layoutOffsets ⟨pw, sw⟩ garbage (fresh ws) m -
            (((total_word_width ws (lineStart bs k) m : Nat) : ℚ) +
              ((m - lineStart bs k : Nat) : ℚ) *
                (((pw - (total_word_width ws (lineStart bs k) (lineEnd bs k) : Int) : Int) : ℚ) /
                  ((lineEnd bs k - lineStart bs k - 1 : Nat) : ℚ)))| ≤
          ((m - lineStart bs k : Nat) : ℚ) / 128) ∧
      |layoutOffsets ⟨pw, sw⟩ garbage (fresh ws) (lineEnd bs k - 1) +
          ((ws.getD (lineEnd bs k - 1) 0 : Nat) : ℚ) - (pw : ℚ)| ≤
        ((lineEnd bs k - lineStart bs k - 1 : Nat) : ℚ) / 128) := by
  rw [layout_line_breaks] at hbs
  have hle : ∀ b ∈ bs, b ≤ ws.length := by
    rw [← hbs]; exact layoutBreaks_le ws pw sw garbage
  have hk' : k < bs.length := by omega
  obtain ⟨hend, hmem⟩ := line_bounds bs hle hk'
  have hden := exact_spacing_pos_den hcount
  have halg : ((total_word_width ws (lineStart bs k) (lineEnd bs k) : Nat) : ℚ) +
      ((lineEnd bs k - lineStart bs k - 1 : Nat) : ℚ) *
        (((pw - (total_word_width ws (lineStart bs k) (lineEnd bs k) : Int) : Int) : ℚ) /
          ((lineEnd bs k - lineStart bs k - 1 : Nat) : ℚ)) = (pw : ℚ) := by
    rw [mul_comm, div_mul_cancel₀ _ (ne_of_gt hden)]
    push_cast
    ring
  refine ⟨?_, halg, fun h hsw => ?_⟩
  · have h0 := layoutOffsets_line ws pw sw garbage bs hbs hsorted hk' (le_refl _)
      (by omega : lineStart bs k < lineEnd bs k)
    have hx : (layout ⟨pw, sw⟩ garbage (fresh ws)).xpos (lineStart bs k) =
        toUint16 (layoutOffsets ⟨pw, sw⟩ garbage (fresh ws) (lineStart bs k)) := rfl
    rw [hx, h0, Nat.sub_self, List.take_zero, advance_nil]
    exact toUint16_zero
  · have hne : ws ≠ [] := by
      intro hnil
      rw [hnil] at hend
      simp at hend
      omega
    have hmem2 : (lineStart bs k, lineEnd bs k) ∈
        linesOf (layoutBreaks ⟨pw, sw⟩ garbage (fresh ws)) := by rw [hbs]; exact hmem
    obtain ⟨_, _, _, hfit⟩ := layout_lines_admitted h hne garbage _ hmem2
    simp only at hfit
    have hcond : k ≠ bs.length - 1 := by omega
    have hnear : ∀ m, lineStart bs k ≤ m → m < lineEnd bs k →
        |layoutOffsets ⟨pw, sw⟩ garbage (fresh ws) m -
            (((total_word_width ws (lineStart bs k) m : Nat) : ℚ) +
              ((m - lineStart bs k : Nat) : ℚ) *
                (((pw - (total_word_width ws (lineStart bs k) (lineEnd bs k) : Int) : Int) : ℚ) /
                  ((lineEnd bs k - lineStart bs k - 1 : Nat) : ℚ)))| ≤
          ((m - lineStart bs k : Nat) : ℚ) / 128 := by
      intro m h1 h2
      rw [layoutOffsets_line ws pw sw garbage bs hbs hsorted hk' h1 h2]
      exact (justified_offsets_near h hsw bs.length k hcond hcount hend hfit h1 h2).1
    refine ⟨(justified_spacing h hsw bs.length k hcond hcount hend hfit).1, hnear, ?_⟩
    have hlast : lineEnd bs k - 1 < ws.length := by omega
    have hsum := total_word_width_succ ws (by omega : lineStart bs k ≤ lineEnd bs k - 1) hlast
    have e1 : lineEnd bs k - 1 + 1 = lineEnd bs k := by omega
    rw [e1] at hsum
    have hget : ws.getD (lineEnd bs k - 1) 0 = ws[lineEnd bs k - 1] :=
      List.getD_eq_getElem _ _ hlast
    have e2 : lineEnd bs k - 1 - lineStart bs k = lineEnd bs k - lineStart bs k - 1 := by omega
    have hn := hnear (lineEnd bs k - 1) (by omega) (by omega)
    rw [e2] at hn
    have hT : ((total_word_width ws (lineStart bs k) (lineEnd bs k) : Nat) : ℚ) =
        ((total_word_width ws (lineStart bs k) (lineEnd bs k - 1) : Nat) : ℚ) +
          ((ws[lineEnd bs k - 1] : Nat) : ℚ) := by
      rw [hsum]; push_cast; rfl
    rw [hget]
    have e3 : layoutOffsets ⟨pw, sw⟩ garbage (fresh ws) (lineEnd bs k - 1) +
        ((ws[lineEnd bs k - 1] : Nat) : ℚ) - (pw : ℚ) =
        layoutOffsets ⟨pw, sw⟩ garbage (fresh ws) (lineEnd bs k - 1) -
          (((total_word_width ws (lineStart bs k) (lineEnd bs k - 1) : Nat) : ℚ) +
            ((lineEnd bs k - lineStart bs k - 1 : Nat) : ℚ) *
              (((pw - (total_word_width ws (lineStart bs k) (lineEnd bs k) : Int) : Int) : ℚ) /
                ((lineEnd bs k - lineStart bs k - 1 : Nat) : ℚ))) := by
      linarith [halg, hT]
    rw [e3]
    exact hn

/-- Witness of `justified_line_spans_page`: widths `[20,20,20,20,90]`, page
width `100`, space width `3`; the breaks are `[4, 5]`, the line `0` has four
words, and the `float` offset of its last word plus the width `20` is within
`3 / 128` of `100`. -/
theorem justified_line_spans_page_witness :
    (layout ⟨100, 3⟩ zeroTables (fresh [20, 20, 20, 20, 90])).line_breaks = [4, 5] ∧
    ([4, 5] : List Nat).Pairwise (· < ·) ∧ 0 + 1 < ([4, 5] : List Nat).length ∧
    lineStart [4, 5] 0 + 2 < lineEnd [4, 5] 0 ∧
    ValidInput [20, 20, 20, 20, 90] 100 3 ∧
    |layoutOffsets ⟨100, 3⟩ zeroTables (fresh [20, 20, 20, 20, 90]) (lineEnd [4, 5] 0 - 1) +
        ((([20, 20, 20, 20, 90] : List Nat).getD (lineEnd [4, 5] 0 - 1) 0 : Nat) : ℚ) -
        ((100 : Int) : ℚ)| ≤
      ((lineEnd [4, 5] 0 - lineStart [4, 5] 0 - 1 : Nat) : ℚ) / 128 :=
  ⟨by decide, by decide, by decide, by decide, ⟨by decide, by decide, by decide, by decide⟩,
    ((justified_line_spans_page [20, 20, 20, 20, 90] 100 3 zeroTables [4, 5] 0
      (by decide) (by decide) (by decide) (by decide)).2.2
        ⟨by decide, by decide, by decide, by decide⟩ (by decide)).2.2⟩

/-- C8 (counterexample): six words of width `10`, page width `36`, space width
`1`, laid out twice. The second `layout` leaves `line_breaks = [3, 6, 3, 6]`;
the line `1 = [3, 6)` is not the last line and has three words, but its words
are placed once more by the last line, with the nominal spacing: the last word
of the line is stored at `xpos = 22`, and `22 + 10` is not the page width. -/
theorem relaid_line_not_justified :
    (layout ⟨36, 1⟩ zeroTables
      (layout ⟨36, 1⟩ zeroTables (fresh [10, 10, 10, 10, 10, 10]))).line_breaks = [3, 6, 3, 6] ∧
    1 + 1 < ([3, 6, 3, 6] : List Nat).length ∧
    lineStart [3, 6, 3, 6] 1 + 2 < lineEnd [3, 6, 3, 6] 1 ∧
    lineEnd [3, 6, 3, 6] 1 - 1 = 5 ∧
    (layout ⟨36, 1⟩ zeroTables
      (layout ⟨36, 1⟩ zeroTables (fresh [10, 10, 10, 10, 10, 10]))).xpos 5 = 22 ∧
    (22 : Int) + 10 ≠ 36 := by
  have hb2 : layoutBreaks ⟨36, 1⟩ zeroTables
      (layout ⟨36, 1⟩ zeroTables (fresh [10, 10, 10, 10, 10, 10])) = [3, 6, 3, 6] := by decide
  refine ⟨hb2, by decide, by decide, by decide, ?_, by decide⟩
  rw [layout_xpos, hb2, layout_widths]
  norm_num [positionLines, actual_spacing, placeWords, nextXpos, fresh, total_word_width,
    f32_ofNat, f32_zero, f32_one]
  exact toUint16_eq _ 22 (by norm_num) (by norm_num)
/-- C9 (amended): nominal spacing inside the 16-bit field. On the last line of
the result of `layout` on a fresh block, and on every line of one or two
words, the break sequence being strictly increasing (as it is on valid input)
and the space width not negative: when the offset
`(sum of the widths of the first j words of the line) + j * space_width` of
the `j`-th word is below `65536`, that is the `float` offset the word is given
(every `float` operation is exact) and the value stored in its `xpos`. -/
theorem nominal_spacing_offsets (ws : List Nat) (pw sw : Int) (garbage : Tables)
    (bs : List Nat) (k j : Nat)
    (hbs : (layout ⟨pw, sw⟩ garbage (fresh ws)).line_breaks = bs)
    (hsorted : bs.Pairwise (· < ·))
    (hk : k < bs.length)
    (hnominal : k + 1 = bs.length ∨ lineEnd bs k ≤ lineStart bs k + 2)
    (hj : lineStart bs k + j < lineEnd bs k)
    (hsw : 0 ≤ sw)
    (hfield : (total_word_width ws (lineStart bs k) (lineStart bs k + j) : Int) + j * sw
      < 65536) :
    layoutOffsets ⟨pw, sw⟩ garbage (fresh ws) (lineStart bs k + j) =
      ((total_word_width ws (lineStart bs k) (lineStart bs k + j) : Nat) : ℚ) +
        (j : ℚ) * (sw : ℚ) ∧
    (((layout ⟨pw, sw⟩ garbage (fresh ws)).xpos (lineStart bs k + j) : Nat) : Int) =
      (total_word_width ws (lineStart bs k) (lineStart bs k + j) : Int) + j * sw := by
  rw [layout_line_breaks] at hbs
  have hle : ∀ b ∈ bs, b ≤ ws.length := by
    rw [← hbs]; exact layoutBreaks_le ws pw sw garbage
  obtain ⟨hend, _⟩ := line_bounds bs hle hk
  have h0 := layoutOffsets_line ws pw sw garbage bs hbs hsorted hk
    (Nat.le_add_right _ j) hj
  have hspacing : actual_spacing ws pw sw bs.length k (lineStart bs k) (lineEnd bs k) =
      f32 (sw : ℚ) := by
    unfold actual_spacing
    rw [if_neg]
    intro hcon
    omega
  have e : lineStart bs k + j - lineStart bs k = j := by omega
  rw [hspacing, e] at h0
  have hlen : ((ws.drop (lineStart bs k)).take j).length = j := by
    simp only [List.length_take, List.length_drop]
    omega
  have hsum : ((ws.drop (lineStart bs k)).take j).sum =
      total_word_width ws (lineStart bs k) (lineStart bs k + j) := by
    unfold total_word_width
    rw [e]
  obtain ⟨σ, hσ⟩ : ∃ σ : Nat, sw = (σ : Int) := ⟨sw.toNat, by omega⟩
  have hoff : layoutOffsets ⟨pw, sw⟩ garbage (fresh ws) (lineStart bs k + j) =
      ((total_word_width ws (lineStart bs k) (lineStart bs k + j) + j * σ : Nat) : ℚ) := by
    rw [h0]
    rcases Nat.eq_zero_or_pos j with hj0 | hjpos
    · subst hj0
      simp [advance_nil, total_word_width_self]
    · have hT0 : (0 : Int) ≤ (total_word_width ws (lineStart bs k) (lineStart bs k + j) : Int) :=
        Int.natCast_nonneg _
      have hprod : (total_word_width ws (lineStart bs k) (lineStart bs k + j) : Int) +
          ((j * σ : Nat) : Int) < 65536 := by
        rw [hσ] at hfield
        push_cast
        exact hfield
      have hσj : σ ≤ j * σ := Nat.le_mul_of_pos_left σ hjpos
      have hσlt : σ < 16777216 := by omega
      have hs : f32 ((sw : Int) : ℚ) = ((σ : Nat) : ℚ) := by
        rw [hσ]
        exact_mod_cast f32_natCast σ hσlt
      rw [hs]
      have := advance_exact σ ((ws.drop (lineStart bs k)).take j) 0
        (by rw [hlen, hsum]; omega)
      rw [hlen, hsum] at this
      simp only [Nat.cast_zero, Nat.zero_add] at this
      exact this
  have hv : total_word_width ws (lineStart bs k) (lineStart bs k + j) + j * σ < 65536 := by
    rw [hσ] at hfield
    exact_mod_cast hfield
  constructor
  · rw [hoff, hσ]
    push_cast
    ring
  · have hx : (layout ⟨pw, sw⟩ garbage (fresh ws)).xpos (lineStart bs k + j) =
        toUint16 (layoutOffsets ⟨pw, sw⟩ garbage (fresh ws) (lineStart bs k + j)) := rfl
    rw [hx, hoff, toUint16_natCast _ hv, hσ]
    push_cast
    ring

/-- Witness of `nominal_spacing_offsets`: widths `[50,50,50,50]`, page width
`160`, space width `10`; the breaks are `[2, 4]` and the second word of the
two-word line `0` is stored at `50 + 10`. -/
theorem nominal_spacing_offsets_witness :
    (layout ⟨160, 10⟩ zeroTables (fresh [50, 50, 50, 50])).line_breaks = [2, 4] ∧
    ([2, 4] : List Nat).Pairwise (· < ·) ∧ 0 < ([2, 4] : List Nat).length ∧
    (0 + 1 = ([2, 4] : List Nat).length ∨ lineEnd [2, 4] 0 ≤ lineStart [2, 4] 0 + 2) ∧
    lineStart [2, 4] 0 + 1 < lineEnd [2, 4] 0 ∧
    (((layout ⟨160, 10⟩ zeroTables (fresh [50, 50, 50, 50])).xpos (lineStart [2, 4] 0 + 1) :
        Nat) : Int) =
      (total_word_width [50, 50, 50, 50] (lineStart [2, 4] 0) (lineStart [2, 4] 0 + 1) : Int) +
        (1 : Nat) * 10 :=
  ⟨by decide, by decide, by decide, by decide, by decide,
    (nominal_spacing_offsets [50, 50, 50, 50] 160 10 zeroTables [2, 4] 0 1
      (by decide) (by decide) (by decide) (by decide) (by decide) (by decide) (by decide)).2⟩

/-- C9 (counterexample): two inputs. Widths `[40000, 40000, 10]`, page width
`80012`, space width `1`: the three words are on the one line `[0, 3)`, which
is the last line; the nominal offset of the word `2` is
`40000 + 40000 + 2 * 1 = 80002`, which the 16-bit field `xpos` cannot hold: the
stored value is below `65536`. Widths `[200, 200, 200, 10]`, page width `100`,
space width `1`, the unset entries `ans[0], ans[1], ans[2]` holding `1, 3, 0`:
the breaks are `[2, 1, 4]`, the line `0 = [0, 2)` has two words, and its second
word, whose nominal offset is `200 + 1`, is stored at `0`, placed once more by
the last line `[1, 4)`. -/
theorem nominal_offset_not_stored :
    (layout ⟨80012, 1⟩ zeroTables (fresh [40000, 40000, 10])).line_breaks = [3] ∧
    0 + 1 = ([3] : List Nat).length ∧ lineStart [3] 0 + 2 < lineEnd [3] 0 ∧
    (total_word_width [40000, 40000, 10] (lineStart [3] 0) (lineStart [3] 0 + 2) : Int) +
      (2 : Nat) * 1 = 80002 ∧
    (layout ⟨80012, 1⟩ zeroTables (fresh [40000, 40000, 10])).xpos (lineStart [3] 0 + 2)
      < 65536 ∧
    (layout ⟨100, 1⟩ ⟨fun _ => 0, fun i => if i = 0 then 1 else if i = 1 then 3 else 0⟩
      (fresh [200, 200, 200, 10])).line_breaks = [2, 1, 4] ∧
    lineStart [2, 1, 4] 0 = 0 ∧ lineEnd [2, 1, 4] 0 = 2 ∧
    (total_word_width [200, 200, 200, 10] 0 1 : Int) + (1 : Nat) * 1 = 201 ∧
    (layout ⟨100, 1⟩ ⟨fun _ => 0, fun i => if i = 0 then 1 else if i = 1 then 3 else 0⟩
      (fresh [200, 200, 200, 10])).xpos 1 = 0 := by
  have hb : layoutBreaks ⟨100, 1⟩
      ⟨fun _ => 0, fun i => if i = 0 then 1 else if i = 1 then 3 else 0⟩
      (fresh [200, 200, 200, 10]) = [2, 1, 4] := by decide
  refine ⟨by decide, by decide, by decide, by decide, ?_, hb, by decide, by decide, by decide, ?_⟩
  · rw [layout_xpos]
    exact toUint16_lt _
  · rw [layout_xpos, hb]
    norm_num [positionLines, actual_spacing, placeWords, nextXpos, fresh, total_word_width,
      f32_ofNat, f32_zero, f32_one, toUint16_zero]
/-! ## Monotone offsets -/

theorem toUint16_floor (x : ℚ) (m : Nat) (h1 : (m : ℚ) ≤ x) (h2 : x < (m : ℚ) + 1)
    (hm : m < 65536) : toUint16 x = m := by
  unfold toUint16 truncQ
  rw [if_pos (le_trans (Nat.cast_nonneg m) h1)]
  have : ⌊x⌋ = (m : Int) := by
    rw [Int.floor_eq_iff]
    exact ⟨by exact_mod_cast h1, by exact_mod_cast h2⟩
  rw [this]
  omega

theorem f32_eval_pos {x : ℚ} (e M : Int) (h1 : (2 : ℚ) ^ e ≤ x) (h2 : x < 2 ^ (e + 1))
    (h3 : -126 ≤ e) (h4 : (M : ℚ) - 1 / 2 < x / 2 ^ (e - 23))
    (h5 : x / 2 ^ (e - 23) < (M : ℚ) + 1 / 2) : f32 x = (M : ℚ) * 2 ^ (e - 23) := by
  have hx : 0 ≤ x := le_trans (le_of_lt (two_zpow_pos e)) h1
  exact f32_eval e M (by rw [abs_of_nonneg hx]; exact h1) (by rw [abs_of_nonneg hx]; exact h2)
    h3 h4 h5

theorem f32_eval_neg {x : ℚ} (e M : Int) (h1 : (2 : ℚ) ^ e ≤ -x) (h2 : -x < 2 ^ (e + 1))
    (h3 : -126 ≤ e) (h4 : (M : ℚ) - 1 / 2 < x / 2 ^ (e - 23))
    (h5 : x / 2 ^ (e - 23) < (M : ℚ) + 1 / 2) : f32 x = (M : ℚ) * 2 ^ (e - 23) := by
  have hx : x ≤ 0 := by
    have := le_trans (le_of_lt (two_zpow_pos e)) h1
    linarith
  exact f32_eval e M (by rw [abs_of_nonpos hx]; exact h1) (by rw [abs_of_nonpos hx]; exact h2)
    h3 h4 h5

theorem take_append_of_le (l : List Nat) {a b : Nat} (hab : a ≤ b) :
    l.take b = l.take a ++ (l.take b).drop a := by
  have h := List.take_append_drop a (l.take b)
  rw [List.take_take, Nat.min_eq_left hab] at h
  exact h.symm

/-- On valid input with a space width of at least one pixel the `float` offsets
of a line that passed the width test do not decrease, are not negative and
stay below `65536`. -/
theorem line_offsets_monotone {ws : List Nat} {pw sw : Int} (h : ValidInput ws pw sw)
    (hsw : 1 ≤ sw) (total k : Nat) {s e a b : Nat} (hsa : s ≤ a) (hab : a < b) (hbe : b < e)
    (hen : e ≤ ws.length) (hfit : lineLen ws sw s e ≤ pw) :
    0 ≤ advance (actual_spacing ws pw sw total k s e) ((ws.drop s).take (a - s)) 0 ∧
    advance (actual_spacing ws pw sw total k s e) ((ws.drop s).take (a - s)) 0 ≤
      advance (actual_spacing ws pw sw total k s e) ((ws.drop s).take (b - s)) 0 ∧
    advance (actual_spacing ws pw sw total k s e) ((ws.drop s).take (b - s)) 0 < 65536 := by
  obtain ⟨hpw1, hpw2, _⟩ := h.pw_range (by omega)
  have hswQ : (1 : ℚ) ≤ (sw : ℚ) := by exact_mod_cast hsw
  have hsw_le : sw ≤ pw + 1 := by
    have := h.fits ws[b] (List.getElem_mem (by omega : b < ws.length))
    have : (0 : Int) ≤ ((ws[b] : Nat) : Int) := Int.natCast_nonneg _
    omega
  obtain ⟨σ, hσ⟩ : ∃ σ : Nat, sw = (σ : Int) := ⟨sw.toNat, by omega⟩
  have hfsw : f32 ((sw : Int) : ℚ) = ((σ : Nat) : ℚ) := by
    rw [hσ]
    exact_mod_cast f32_natCast σ (by omega)
  -- the spacing is not negative
  have hs0 : 0 ≤ actual_spacing ws pw sw total k s e := by
    unfold actual_spacing
    split
    · apply f32_nonneg
      apply div_nonneg <;> apply f32_nonneg
      · have := (justified_spacing h hsw total k (by tauto) (by omega : s + 2 < e) hen hfit).2.2.2.1
        exact_mod_cast (by omega : (0 : Int) ≤ pw - (total_word_width ws s e : Int))
      · exact_mod_cast (by omega : (0 : Int) ≤ (e : Int) - (s : Int) - 1)
    · rw [hfsw]
      exact Nat.cast_nonneg σ
  have hsplit := take_append_of_le (ws.drop s) (by omega : a - s ≤ b - s)
  have hmono : advance (actual_spacing ws pw sw total k s e) ((ws.drop s).take (a - s)) 0 ≤
      advance (actual_spacing ws pw sw total k s e) ((ws.drop s).take (b - s)) 0 := by
    rw [hsplit, advance_append]
    exact le_advance hs0 _ _ (advance_nonneg hs0 _ 0 (le_refl _)) (advance_repr _ _ 0 f32_zero)
  refine ⟨advance_nonneg hs0 _ 0 (le_refl _), hmono, ?_⟩
  by_cases hcond : k ≠ total - 1 ∧ (e : Int) - (s : Int) > 2
  · obtain ⟨h1, h2, h3⟩ := justified_offsets_near h hsw total k hcond.1 (by omega : s + 2 < e)
      hen hfit (by omega : s ≤ b) hbe
    have h4 := (abs_le.mp h1).2
    have hpwQ : ((pw : Int) : ℚ) ≤ 46340 := by exact_mod_cast hpw2
    linarith
  · have hsp : actual_spacing ws pw sw total k s e = ((σ : Nat) : ℚ) := by
      unfold actual_spacing
      rw [if_neg hcond, hfsw]
    have hlen := take_drop_length ws (le_trans (le_of_lt hbe) hen) (s := s) (m := b)
    have hsum := total_word_width_eq ws s b
    have hTb : total_word_width ws s b ≤ total_word_width ws s e :=
      total_word_width_mono ws s (by omega) (le_of_lt hbe) hen
    unfold lineLen at hfit
    have hprod : ((b - s : Nat) : Int) * sw ≤ ((e - s : Nat) : Int) * sw := by
      apply mul_le_mul_of_nonneg_right _ (by omega)
      exact_mod_cast (by omega : b - s ≤ e - s)
    have hval : total_word_width ws s b + (b - s) * σ ≤ 46341 := by
      have : ((total_word_width ws s b + (b - s) * σ : Nat) : Int) ≤ 46341 := by
        push_cast
        rw [← hσ]
        have : (total_word_width ws s b : Int) ≤ (total_word_width ws s e : Int) := by
          exact_mod_cast hTb
        omega
      exact_mod_cast this
    have hex := advance_exact σ ((ws.drop s).take (b - s)) 0 (by rw [hlen, hsum]; omega)
    rw [hlen, hsum] at hex
    simp only [Nat.cast_zero, Nat.zero_add] at hex
    rw [hsp, hex]
    exact_mod_cast (by omega : total_word_width ws s b + (b - s) * σ < 65536)

/-- C10 (amended): for every non-empty word sequence on valid input (each word
alone passes the width test, page width positive, and
`(n - 1) * (page_width + 1)^2` below `INT_MAX`, which keeps every offset
inside the 16-bit field) with a space width of at least one pixel, the offsets
`layout` stores on a fresh block do not decrease within a line: words `a < b`
of the same line have `xpos(a) <= xpos(b)`. -/
theorem stored_offsets_monotone (ws : List Nat) (pw sw : Int) (garbage : Tables)
    (bs : List Nat) (k a b : Nat) (hne : ws ≠ []) (h : ValidInput ws pw sw) (hsw : 1 ≤ sw)
    (hbs : (layout ⟨pw, sw⟩ garbage (fresh ws)).line_breaks = bs)
    (hk : k < bs.length) (ha : lineStart bs k ≤ a) (hab : a < b) (hb : b < lineEnd bs k) :
    (layout ⟨pw, sw⟩ garbage (fresh ws)).xpos a ≤
      (layout ⟨pw, sw⟩ garbage (fresh ws)).xpos b := by
  rw [layout_line_breaks] at hbs
  obtain ⟨hc, _, _⟩ := layoutBreaks_chain h hne garbage
  obtain ⟨_, hsorted⟩ := Chain.bounds (solve_links h garbage) _ 0 hc
  have hle := layoutBreaks_le ws pw sw garbage
  rw [hbs] at hsorted hle
  obtain ⟨hend, hmem⟩ := line_bounds bs hle hk
  have hmem' : (lineStart bs k, lineEnd bs k) ∈
      linesOf (layoutBreaks ⟨pw, sw⟩ garbage (fresh ws)) := by rw [hbs]; exact hmem
  obtain ⟨_, _, _, hfit⟩ := layout_lines_admitted h hne garbage _ hmem'
  have hxa := layoutOffsets_line ws pw sw garbage bs hbs hsorted hk ha (by omega)
  have hxb := layoutOffsets_line ws pw sw garbage bs hbs hsorted hk (by omega) hb
  have ea : (layout ⟨pw, sw⟩ garbage (fresh ws)).xpos a =
      toUint16 (layoutOffsets ⟨pw, sw⟩ garbage (fresh ws) a) := rfl
  have eb : (layout ⟨pw, sw⟩ garbage (fresh ws)).xpos b =
      toUint16 (layoutOffsets ⟨pw, sw⟩ garbage (fresh ws) b) := rfl
  rw [ea, eb, hxa, hxb]
  obtain ⟨h0, h1, h2⟩ := line_offsets_monotone h hsw bs.length k ha hab hb hend hfit
  exact toUint16_mono h0 h1 h2

/-- Witness of `stored_offsets_monotone`: widths `[20,20,20,20,90]`, page width
`100`, space width `3`; words `1` and `2` lie on the line `0 = [0, 4)`. -/
theorem stored_offsets_monotone_witness :
    ([20, 20, 20, 20, 90] : List Nat) ≠ [] ∧ ValidInput [20, 20, 20, 20, 90] 100 3 ∧
    (1 : Int) ≤ 3 ∧
    (layout ⟨100, 3⟩ zeroTables (fresh [20, 20, 20, 20, 90])).line_breaks = [4, 5] ∧
    0 < ([4, 5] : List Nat).length ∧ lineStart [4, 5] 0 ≤ 1 ∧ 1 < 2 ∧ 2 < lineEnd [4, 5] 0 ∧
    (layout ⟨100, 3⟩ zeroTables (fresh [20, 20, 20, 20, 90])).xpos 1 ≤
      (layout ⟨100, 3⟩ zeroTables (fresh [20, 20, 20, 20, 90])).xpos 2 :=
  ⟨by decide, ⟨by decide, by decide, by decide, by decide⟩, by decide, by decide, by decide,
    by decide, by decide, by decide,
    stored_offsets_monotone [20, 20, 20, 20, 90] 100 3 zeroTables [4, 5] 0 1 2 (by decide)
      ⟨by decide, by decide, by decide, by decide⟩ (by decide) (by decide) (by decide)
      (by decide) (by decide) (by decide)⟩
/-- C10 (counterexample): widths `[70, 10, 0, 21, 50]`, page width `100`, space
width `0`. Every word alone passes the width test, the page width is positive
and `4 * 101^2` is below `INT_MAX`; the breaks are `[4, 5]`. The line
`0 = [0, 4)` measures `101` pixels and is spaced by the `float` nearest to
`-1 / 3`; the `float` offsets of its words `2` and `3` are `5199189 / 65536`
(just above `79.33`) and `10354687 / 131072` (just below `79`), stored as `79`
and `78`: the stored offsets decrease. -/
theorem stored_offsets_decrease :
    ValidInput [70, 10, 0, 21, 50] 100 0 ∧
    (layout ⟨100, 0⟩ zeroTables (fresh [70, 10, 0, 21, 50])).line_breaks = [4, 5] ∧
    lineStart [4, 5] 0 ≤ 2 ∧ 2 < 3 ∧ 3 < lineEnd [4, 5] 0 ∧
    (layout ⟨100, 0⟩ zeroTables (fresh [70, 10, 0, 21, 50])).xpos 2 = 79 ∧
    (layout ⟨100, 0⟩ zeroTables (fresh [70, 10, 0, 21, 50])).xpos 3 = 78 := by
  have hb : layoutBreaks ⟨100, 0⟩ zeroTables (fresh [70, 10, 0, 21, 50]) = [4, 5] := by decide
  have hs : actual_spacing [70, 10, 0, 21, 50] 100 0 ([4, 5] : List Nat).length 0
      (lineStart [4, 5] 0) (lineEnd [4, 5] 0) = -11184811 / 33554432 := by
    have e1 : f32 (((100 - ((101 : Nat) : Int) : Int)) : ℚ) = -1 := by
      have := f32_intCast (-1) (by norm_num)
      norm_num at this ⊢
      exact this
    have e2 : f32 ((((4 : Nat) : Int) - ((0 : Nat) : Int) - 1 : Int) : ℚ) = 3 := by
      have := f32_intCast 3 (by norm_num)
      norm_num at this ⊢
      exact this
    have e3 : f32 (-1 / 3) = -11184811 / 33554432 := by
      rw [f32_eval_neg (-2) (-11184811) (by norm_num) (by norm_num) (by norm_num)
        (by norm_num) (by norm_num)]
      norm_num
    have ht : total_word_width [70, 10, 0, 21, 50] 0 4 = 101 := by decide
    have hl : lineStart [4, 5] 0 = 0 := by decide
    have he : lineEnd [4, 5] 0 = 4 := by decide
    unfold actual_spacing
    rw [hl, he, if_pos (by decide), ht, e1, e2, e3]
  have a1 : f32 (70 + -11184811 / 33554432) = 9131349 / 131072 := by
    rw [f32_eval_pos 6 9131349 (by norm_num) (by norm_num) (by norm_num)
      (by norm_num) (by norm_num)]
    norm_num
  have a2 : f32 (0 + 9131349 / 131072) = 9131349 / 131072 := by
    rw [f32_eval_pos 6 9131349 (by norm_num) (by norm_num) (by norm_num)
      (by norm_num) (by norm_num)]
    norm_num
  have a3 : f32 (10 + -11184811 / 33554432) = 10136235 / 1048576 := by
    rw [f32_eval_pos 3 10136235 (by norm_num) (by norm_num) (by norm_num)
      (by norm_num) (by norm_num)]
    norm_num
  have a4 : f32 (9131349 / 131072 + 10136235 / 1048576) = 5199189 / 65536 := by
    rw [f32_eval_pos 6 10398378 (by norm_num) (by norm_num) (by norm_num)
      (by norm_num) (by norm_num)]
    norm_num
  have a5 : f32 (0 + -11184811 / 33554432) = -11184811 / 33554432 := by
    rw [f32_eval_neg (-2) (-11184811) (by norm_num) (by norm_num) (by norm_num)
      (by norm_num) (by norm_num)]
    norm_num
  have a6 : f32 (5199189 / 65536 + -11184811 / 33554432) = 10354687 / 131072 := by
    rw [f32_eval_pos 6 10354687 (by norm_num) (by norm_num) (by norm_num)
      (by norm_num) (by norm_num)]
    norm_num
  have w70 : f32 ((70 : Nat) : ℚ) = 70 := by
    have := f32_natCast 70 (by norm_num); norm_num at this ⊢; exact this
  have w10 : f32 ((10 : Nat) : ℚ) = 10 := by
    have := f32_natCast 10 (by norm_num); norm_num at this ⊢; exact this
  have w0 : f32 ((0 : Nat) : ℚ) = 0 := by
    have := f32_natCast 0 (by norm_num); norm_num at this ⊢; exact this
  have hoff : ∀ m, lineStart [4, 5] 0 ≤ m → m < lineEnd [4, 5] 0 →
      layoutOffsets ⟨100, 0⟩ zeroTables (fresh [70, 10, 0, 21, 50]) m =
        advance (-11184811 / 33554432)
          ((([70, 10, 0, 21, 50] : List Nat).drop (lineStart [4, 5] 0)).take
            (m - lineStart [4, 5] 0)) 0 := by
    intro m h1 h2
    rw [layoutOffsets_line [70, 10, 0, 21, 50] 100 0 zeroTables [4, 5] hb (by decide)
      (by decide : 0 < ([4, 5] : List Nat).length) h1 h2, hs]
  have x2 : layoutOffsets ⟨100, 0⟩ zeroTables (fresh [70, 10, 0, 21, 50]) 2 =
      5199189 / 65536 := by
    rw [hoff 2 (by decide) (by decide)]
    have : (([70, 10, 0, 21, 50] : List Nat).drop (lineStart [4, 5] 0)).take
        (2 - lineStart [4, 5] 0) = [70, 10] := by decide
    rw [this]
    simp only [advance_cons, advance_nil, nextXpos]
    rw [w70, a1, a2, w10, a3, a4]
  have x3 : layoutOffsets ⟨100, 0⟩ zeroTables (fresh [70, 10, 0, 21, 50]) 3 =
      10354687 / 131072 := by
    rw [hoff 3 (by decide) (by decide)]
    have : (([70, 10, 0, 21, 50] : List Nat).drop (lineStart [4, 5] 0)).take
        (3 - lineStart [4, 5] 0) = [70, 10, 0] := by decide
    rw [this]
    simp only [advance_cons, advance_nil, nextXpos]
    rw [w70, a1, a2, w10, a3, a4, w0, a5, a6]
  refine ⟨⟨by decide, by decide, by decide, by decide⟩, hb, by decide, by decide, by decide,
    ?_, ?_⟩
  · have : (layout ⟨100, 0⟩ zeroTables (fresh [70, 10, 0, 21, 50])).xpos 2 =
        toUint16 (layoutOffsets ⟨100, 0⟩ zeroTables (fresh [70, 10, 0, 21, 50]) 2) := rfl
    rw [this, x2]
    exact toUint16_floor _ 79 (by norm_num) (by norm_num) (by norm_num)
  · have : (layout ⟨100, 0⟩ zeroTables (fresh [70, 10, 0, 21, 50])).xpos 3 =
        toUint16 (layoutOffsets ⟨100, 0⟩ zeroTables (fresh [70, 10, 0, 21, 50]) 3) := rfl
    rw [this, x3]
    exact toUint16_floor _ 78 (by norm_num) (by norm_num) (by norm_num)

/-! ## Optimality of the breaks -/

theorem getLast?_cons_ne_nil {a n : Nat} {l : List Nat} (hl : (a :: l).getLast? = some n)
    (hne : l ≠ []) : l.getLast? = some n := by
  cases l with
  | nil => exact absurd rfl hne
  | cons c r => rwa [List.getLast?_cons_cons] at hl

/-- The lines that follow the chosen ends from `i` to the word count cost
`dp[i]`. -/
theorem chain_cost {ws : List Nat} {pw sw : Int} {t : Tables}
    (hgood : ∀ k, k < ws.length → Good ws pw sw t k) :
    ∀ (ext : List Nat) (i : Nat), Chain t.ans ws.length i ext →
      ext.getLast? = some ws.length → partitionCost ws pw sw i ext = t.dp i := by
  intro ext
  induction ext with
  | nil => intro i _ hl; simp at hl
  | cons b rest ih =>
    intro i hc hl
    obtain ⟨h1, h2, h3⟩ := hc
    have hg := hgood i h1
    have hdp := hg.dp_eq
    have hlt := hg.ans_lt
    unfold candCost at hdp
    simp only [partitionCost]
    by_cases hb : b = ws.length
    · have hrest : rest = [] := by
        cases rest with
        | nil => rfl
        | cons c r => exact absurd h3.1 (by omega)
      rw [if_pos hb, hrest]
      rw [if_pos (by omega)] at hdp
      simp [partitionCost, hdp]
    · have hrest : rest ≠ [] := by
        rintro rfl
        simp at hl
        exact hb hl
      rw [if_neg hb, ih b h3 (getLast?_cons_ne_nil hl hrest)]
      rw [if_neg (by omega)] at hdp
      rw [hdp, h2]

/-- No partition into lines that pass the width test costs less than
`dp[s]` from the word `s` on. -/
theorem partition_lower {ws : List Nat} {pw sw : Int} {t : Tables}
    (hgood : ∀ k, k < ws.length → Good ws pw sw t k) :
    ∀ (bs : List Nat) (s : Nat), s < ws.length → (s :: bs).Pairwise (· < ·) →
      bs.getLast? = some ws.length →
      (∀ p ∈ (s :: bs).zip bs, lineLen ws sw p.1 p.2 ≤ pw) →
      t.dp s ≤ partitionCost ws pw sw s bs := by
  intro bs
  induction bs with
  | nil => intro s _ _ hl; simp at hl
  | cons b rest ih =>
    intro s hs hp hl hfit
    have hp' := List.pairwise_cons.mp hp
    have hsb : s < b := hp'.1 b (List.mem_cons_self _ _)
    have hline := hfit (s, b) (by simp)
    simp only [partitionCost]
    by_cases hrest : rest = []
    · subst hrest
      simp at hl
      have hmin := (hgood s hs).dp_min (b - 1) (by omega) (by omega)
        (by rw [Nat.sub_add_cancel (by omega)]; exact hline)
      unfold candCost at hmin
      rw [if_pos (by omega)] at hmin
      rw [if_pos hl]
      simpa [partitionCost] using hmin
    · have hl' := getLast?_cons_ne_nil hl hrest
      have hp2 := List.pairwise_cons.mp hp'.2
      have hlen := sorted_length_le_last rest b hp2.2 (fun x hx => hp2.1 x hx) _ hl'
      have hpos : 0 < rest.length := List.length_pos.mpr hrest
      have hb : b < ws.length := by omega
      have hmin := (hgood s hs).dp_min (b - 1) (by omega) (by omega)
        (by rw [Nat.sub_add_cancel (by omega)]; exact hline)
      unfold candCost at hmin
      rw [if_neg (by omega), Nat.sub_add_cancel (by omega)] at hmin
      have hih := ih b hb hp'.2 hl' (fun p hp => hfit p (by
        simp only [List.zip_cons_cons, List.mem_cons]
        exact Or.inr hp))
      rw [if_neg (by omega)]
      omega

/-- C3 (amended): optimality of the solver. For every non-empty word sequence
on valid input, when the break sequence `layout` leaves on a fresh block ends
at the word count (it always does for at most `1001` words), that sequence is
a partition of the words into consecutive non-empty lines that pass the width
test, and its total cost is the least among all such partitions; a line that
ends before the last word costs `(page_width - currlen)^2`, the line with the
last word costs `0`. -/
theorem layout_breaks_optimal (ws : List Nat) (pw sw : Int) (garbage : Tables)
    (hne : ws ≠ []) (h : ValidInput ws pw sw)
    (hlast : (layout ⟨pw, sw⟩ garbage (fresh ws)).line_breaks.getLast? = some ws.length) :
    IsPartition ws pw sw (layout ⟨pw, sw⟩ garbage (fresh ws)).line_breaks ∧
    ∀ bs, IsPartition ws pw sw bs →
      partitionCost ws pw sw 0 (layout ⟨pw, sw⟩ garbage (fresh ws)).line_breaks ≤
        partitionCost ws pw sw 0 bs := by
  rw [layout_line_breaks] at hlast ⊢
  obtain ⟨hc, _, _⟩ := layoutBreaks_chain h hne garbage
  obtain ⟨hb, hsorted⟩ := Chain.bounds (solve_links h garbage) _ 0 hc
  have hgood := solve_good h garbage
  have hpos : 0 < ws.length := List.length_pos.mpr hne
  refine ⟨⟨List.pairwise_cons.mpr ⟨fun b hb' => (hb b hb').1, hsorted⟩, hlast,
    fun p hp => (layout_lines_admitted h hne garbage p hp).2.2.2⟩, fun bs hbs => ?_⟩
  rw [chain_cost hgood _ 0 hc hlast]
  exact partition_lower hgood bs 0 hpos hbs.increasing hbs.ends hbs.fits

/-- Witness of `layout_breaks_optimal`: the widths `[50,50,50,50]` with space
width `10` and page width `160` give the breaks `[2, 4]`, a partition of least
cost. -/
theorem layout_breaks_optimal_witness :
    ([50, 50, 50, 50] : List Nat) ≠ [] ∧ ValidInput [50, 50, 50, 50] 160 10 ∧
    (layout ⟨160, 10⟩ zeroTables (fresh [50, 50, 50, 50])).line_breaks = [2, 4] ∧
    (layout ⟨160, 10⟩ zeroTables (fresh [50, 50, 50, 50])).line_breaks.getLast? =
      some ([50, 50, 50, 50] : List Nat).length ∧
    ∀ bs, IsPartition [50, 50, 50, 50] 160 10 bs →
      partitionCost [50, 50, 50, 50] 160 10 0
        (layout ⟨160, 10⟩ zeroTables (fresh [50, 50, 50, 50])).line_breaks ≤
        partitionCost [50, 50, 50, 50] 160 10 0 bs :=
  ⟨by decide, validInput_example, by decide, by decide,
    (layout_breaks_optimal [50, 50, 50, 50] 160 10 zeroTables (by decide) validInput_example
      (by decide)).2⟩

/-- C3 (counterexample): `1003` words of width `100`, page width `100`, space
width `1`; every word alone passes the width test and no cost overflows, yet
the break sequence `layout` leaves on a fresh block ends at `1001` and is not a
partition of the `1003` words. -/
theorem layout_breaks_not_a_partition :
    ValidInput (List.replicate 1003 100) 100 1 ∧
    (layout ⟨100, 1⟩ zeroTables (fresh (List.replicate 1003 100))).line_breaks.getLast?
      = some 1001 ∧
    ¬ IsPartition (List.replicate 1003 100) 100 1
      (layout ⟨100, 1⟩ zeroTables (fresh (List.replicate 1003 100))).line_breaks := by
  have hl : (layout ⟨100, 1⟩ zeroTables (fresh (List.replicate 1003 100))).line_breaks.getLast?
      = some 1001 := by
    rw [layout_line_breaks]
    exact (layoutBreaks_replicate 1003 (by norm_num) (by norm_num) zeroTables).2
  refine ⟨validInput_replicate 1003 (by norm_num), hl, fun hp => ?_⟩
  have he := hp.ends
  rw [hl, List.length_replicate] at he
  simp at he

/-! ## The cap on the number of breaks -/

theorem followLinks_length (ans : Nat → Nat) (n : Nat) :
    ∀ (fuel i : Nat) (lb : List Nat), lb.length ≤ 1000 →
      (followLinks ans n fuel i lb).length ≤ 1001 := by
  intro fuel
  induction fuel with
  | zero => intro i lb h; simp only [followLinks]; omega
  | succ f ih =>
    intro i lb h
    simp only [followLinks]
    split
    · split
      · omega
      · split
        · simp only [List.length_append, List.length_singleton]; omega
        · rename_i hcap
          exact ih _ _ (by simpa using hcap)
    · omega

/-- The size of `line_breaks` is compared with `1000` after the entry has been
pushed (line 132): for every word sequence, page width, space width and table
content, the break sequence `layout` leaves on a fresh block has at most `1001`
entries. -/
theorem layout_breaks_at_most_1001 (ws : List Nat) (pw sw : Int) (garbage : Tables) :
    (layout ⟨pw, sw⟩ garbage (fresh ws)).line_breaks.length ≤ 1001 := by
  rw [layout_line_breaks, layoutBreaks_fresh]
  exact followLinks_length _ _ _ _ _ (by simp)

/-- C11 (code at the failing input): `1002` words of width `100` with page
width `100` and space width `1`, each word on a line of its own; the break
sequence `layout` leaves on a fresh block has `1001` entries, one more than the
maximum `1000` that line 132 compares the size with. -/
theorem layout_breaks_exceed_1000 :
    (layout ⟨100, 1⟩ zeroTables (fresh (List.replicate 1002 100))).line_breaks.length = 1001 ∧
    1000 < (layout ⟨100, 1⟩ zeroTables (fresh (List.replicate 1002 100))).line_breaks.length := by
  have h : (layout ⟨100, 1⟩ zeroTables (fresh (List.replicate 1002 100))).line_breaks.length
      = 1001 := by
    rw [layout_line_breaks]
    exact (layoutBreaks_replicate 1002 (by norm_num) (by norm_num) zeroTables).1
  exact ⟨h, by rw [h]; norm_num⟩

/-! ## Termination and range of the reconstruction loop -/

theorem followLinks_appended (ans : Nat → Nat) (n : Nat) :
    ∀ (fuel i : Nat) (lb : List Nat),
      ∃ ext, followLinks ans n fuel i lb = lb ++ ext ∧ ∀ b ∈ ext, b ≤ n := by
  intro fuel
  induction fuel with
  | zero => intro i lb; exact ⟨[], by simp [followLinks], by simp⟩
  | succ f ih =>
    intro i lb
    simp only [followLinks]
    split
    · split
      · exact ⟨[], by simp, by simp⟩
      · rename_i hle
        split
        · exact ⟨[wrapSize (ans i + 1)], rfl, fun b hb => by
            rw [List.mem_singleton.mp hb]; omega⟩
        · obtain ⟨ext, e, hext⟩ := ih (wrapSize (ans i + 1)) (lb ++ [wrapSize (ans i + 1)])
          refine ⟨wrapSize (ans i + 1) :: ext, by rw [e]; simp, fun b hb => ?_⟩
          rcases List.mem_cons.mp hb with hb | hb
          · rw [hb]; omega
          · exact hext b hb
    · exact ⟨[], by simp, by simp⟩

/-- With enough fuel the instrumented loop stops, leaves the vector of
`followLinks`, and has run its body at most `1001 - lb.length` times (once when
the vector was already full). -/
theorem followLinksRun_stops (ans : Nat → Nat) (n : Nat) :
    ∀ (fuel i : Nat) (lb : List Nat), 1 ≤ fuel → 1001 - lb.length ≤ fuel →
      ∃ run, followLinksRun ans n fuel i lb = some run ∧
        run.breaks = followLinks ans n fuel i lb ∧
        run.iterations ≤ max 1 (1001 - lb.length) := by
  intro fuel
  induction fuel with
  | zero => intro i lb h; omega
  | succ f ih =>
    intro i lb _ h2
    simp only [followLinksRun, followLinks]
    by_cases hin : i < n
    · rw [if_pos hin, if_pos hin]
      by_cases hoff : wrapSize (ans i + 1) > n
      · rw [if_pos hoff, if_pos hoff]
        exact ⟨_, rfl, rfl, by simp⟩
      · rw [if_neg hoff, if_neg hoff]
        by_cases hcap : (lb ++ [wrapSize (ans i + 1)]).length > 1000
        · rw [if_pos hcap, if_pos hcap]
          exact ⟨_, rfl, rfl, by simp⟩
        · rw [if_neg hcap, if_neg hcap]
          have hlen : (lb ++ [wrapSize (ans i + 1)]).length = lb.length + 1 := by simp
          rw [hlen] at hcap
          obtain ⟨run, e1, e2, e3⟩ := ih (wrapSize (ans i + 1)) (lb ++ [wrapSize (ans i + 1)])
            (by omega) (by rw [hlen]; omega)
          rw [e1]
          refine ⟨_, rfl, e2, ?_⟩
          rw [hlen] at e3
          simp only [Option.map_some']
          omega
    · rw [if_neg hin, if_neg hin]
      exact ⟨_, rfl, rfl, by simp⟩

/-- C15: the break reconstruction cannot hang or append an index out of range.
For every word count, every content of the choice table `ans` and every vector
`line_breaks` it starts with, the loop of line 117 stops after at most `1001`
iterations of its body (any fuel from `1001` on is enough, and the vector it
leaves is the one `layout` uses), and every index it has appended is at most
the word count. -/
theorem reconstruction_terminates (ans : Nat → Nat) (n : Nat) (lb : List Nat) (extra : Nat) :
    ∃ run, followLinksRun ans n (1001 + extra) 0 lb = some run ∧
      run.iterations ≤ 1001 ∧
      run.breaks = followLinks ans n 1001 0 lb ∧
      ∃ ext, run.breaks = lb ++ ext ∧ ∀ b ∈ ext, b ≤ n := by
  obtain ⟨run, e1, e2, e3⟩ := followLinksRun_stops ans n (1001 + extra) 0 lb (by omega)
    (by omega)
  have hfuel := followLinks_fuel ans n 1001 (1001 + extra) 0 lb (by norm_num) (by omega)
    (by omega)
  obtain ⟨ext, e4, e5⟩ := followLinks_appended ans n 1001 0 lb
  refine ⟨run, e1, ?_, ?_, ext, ?_, e5⟩
  · have : max 1 (1001 - lb.length) ≤ 1001 := by omega
    omega
  · rw [e2, hfuel]
  · rw [e2, hfuel, e4]

/-! ## The reconstruction never leaves the words on valid input -/

theorem followLinksRun_stays {ans : Nat → Nat} {n : Nat}
    (hans : ∀ i, i < n → i ≤ ans i ∧ ans i < n) (hn : n < 4294967295) :
    ∀ (fuel i : Nat) (lb : List Nat) (run : LinkRun),
      followLinksRun ans n fuel i lb = some run → run.fellOff = false := by
  intro fuel
  induction fuel with
  | zero =>
    intro i lb run h
    simp only [followLinksRun] at h
    split at h
    · exact absurd h (by simp)
    · simp only [Option.some.injEq] at h; rw [← h]
  | succ f ih =>
    intro i lb run h
    simp only [followLinksRun] at h
    by_cases hin : i < n
    · rw [if_pos hin] at h
      obtain ⟨h1, h2⟩ := hans i hin
      have hw : wrapSize (ans i + 1) = ans i + 1 := wrapSize_eq_self (by omega)
      rw [hw] at h
      have hoff : ¬ (ans i + 1 > n) := by omega
      rw [if_neg hoff] at h
      split at h
      · simp only [Option.some.injEq] at h; rw [← h]
      · cases hrec : followLinksRun ans n f (ans i + 1) (lb ++ [ans i + 1]) with
        | none => rw [hrec] at h; exact absurd h (by simp)
        | some run' =>
          rw [hrec] at h
          simp only [Option.map_some', Option.some.injEq] at h
          rw [← h]
          exact ih _ _ run' hrec
    · rw [if_neg hin] at h
      simp only [Option.some.injEq] at h; rw [← h]

/-- C14 (amended): with the absence of overflow made precise as
`(n - 1) * (pw + 1)^2 < INT_MAX` and a positive page width, the branch
"fallen off the end of the words" is not taken. When every word alone passes
the width test and the space width is not negative, the solver leaves
`i <= ans[i] <= n - 1` and `dp[i] < INT_MAX` for every word `i`, and the
reconstruction loop, from any vector of breaks, stops without having computed
an index above the word count. -/
theorem fallen_off_unreachable {ws : List Nat} {pw sw : Int} (h : ValidInput ws pw sw)
    (garbage : Tables) :
    (∀ i, i < ws.length →
      i ≤ (solve ws pw sw garbage).ans i ∧ (solve ws pw sw garbage).ans i ≤ ws.length - 1 ∧
        (solve ws pw sw garbage).dp i < INT_MAX) ∧
    ∀ lb, ∃ run, followLinksRun (solve ws pw sw garbage).ans ws.length 1001 0 lb = some run ∧
      run.fellOff = false := by
  constructor
  · intro i hi
    have hg := solve_good h garbage i hi
    have h1 := hg.le_ans
    have h2 := hg.ans_lt
    have h3 := hg.dp_le
    have h4 := costBound_anti ws.length pw (Nat.zero_le i)
    have h5 := h.cost_small
    exact ⟨h1, by omega, by omega⟩
  · intro lb
    obtain ⟨run, e, _, _⟩ := followLinksRun_stops (solve ws pw sw garbage).ans ws.length
      1001 0 lb (by norm_num) (by omega)
    have hlen := h.length_lt
    exact ⟨run, e, followLinksRun_stays (solve_links h garbage) (by omega) _ _ _ _ e⟩

theorem fallen_off_unreachable_witness :
    (∀ i, i < [50, 50, 50, 50].length →
      i ≤ (solve [50, 50, 50, 50] 160 10 zeroTables).ans i ∧
        (solve [50, 50, 50, 50] 160 10 zeroTables).ans i ≤ [50, 50, 50, 50].length - 1 ∧
        (solve [50, 50, 50, 50] 160 10 zeroTables).dp i < INT_MAX) ∧
    ∀ lb, ∃ run,
      followLinksRun (solve [50, 50, 50, 50] 160 10 zeroTables).ans [50, 50, 50, 50].length
        1001 0 lb = some run ∧ run.fellOff = false :=
  fallen_off_unreachable validInput_example zeroTables

/-- C14 (counterexample): five words of widths 3661, 49575, 49990, 49999 and
49999 with page width 50000 and space width 1. Every word alone passes the
width test, and the solver over unbounded integers computes the same costs, so
nothing overflows; the only candidate for the word 0 costs
`46339^2 + 180726 = INT_MAX`, which is not below the sentinel, so `dp[0]` stays
`INT_MAX` and `ans[0]` keeps what the table held before (here 7), and the
reconstruction computes the index 8 and takes the branch. -/
theorem fallen_off_at_sentinel_cost :
    (∀ w ∈ [3661, 49575, 49990, 49999, 49999], ((w : Nat) : Int) + 1 - 1 ≤ 50000) ∧
    (List.range 5).map
      (solveZ [3661, 49575, 49990, 49999, 49999] 50000 1 ⟨fun _ => 0, fun _ => 7⟩).dp
      = [2147483647, 180726, 101, 1, 0] ∧
    (List.range 5).map
      (solve [3661, 49575, 49990, 49999, 49999] 50000 1 ⟨fun _ => 0, fun _ => 7⟩).dp
      = [INT_MAX, 180726, 101, 1, 0] ∧
    (solve [3661, 49575, 49990, 49999, 49999] 50000 1 ⟨fun _ => 0, fun _ => 7⟩).ans 0 = 7 ∧
    followLinksRun
      (solve [3661, 49575, 49990, 49999, 49999] 50000 1 ⟨fun _ => 0, fun _ => 7⟩).ans 5
      1001 0 [] = some ⟨[], 1, true⟩ := by
  refine ⟨by decide, by decide, by decide, by decide, by decide⟩

/-! ## The block of zero words -/

theorem storedIndices_inTable {n : Nat} (hn : 1 ≤ n) : ∀ k ∈ storedIndices n, InTable n k := by
  intro k hk
  unfold storedIndices baseIndex at hk
  unfold InTable
  rcases List.mem_cons.mp hk with e | hk
  · omega
  · simp only [List.mem_map, List.mem_reverse, List.mem_range] at hk
    obtain ⟨a, ha, e⟩ := hk
    have e2 : (a : Int) = k := e
    omega

/-- C13 (code at the failing input): on a block of zero words the word count is
`n = 0` and the two stores of lines 78-79 go to the index `n - 1 = -1`, which
is not inside the tables of length `n`; this is the only index the solver
stores to. The reconstruction and the positioning are no-ops there: the fresh
block keeps an empty `line_breaks` and its offsets. -/
theorem empty_block_writes_before_tables :
    baseIndex 0 = -1 ∧ ¬ InTable 0 (baseIndex 0) ∧ storedIndices 0 = [-1] ∧
    ∀ (r : Renderer) (garbage : Tables),
      (layout r garbage (fresh [])).line_breaks = [] ∧
        ∀ k, (layout r garbage (fresh [])).xpos k = 0 := by
  refine ⟨by decide, ?_, by decide, ?_⟩
  · unfold InTable baseIndex; omega
  · intro r garbage
    have hb : layoutBreaks r garbage (fresh []) = [] := by
      simp [layoutBreaks, followLinks, fresh]
    refine ⟨hb, fun k => ?_⟩
    rw [layout_xpos, hb]
    simp [positionLines, fresh, toUint16_zero]

/-! ## Rendering one line -/

theorem renderFrom_spec (words : List Word) (y_pos : Int) (stop : Nat)
    (hstop : stop ≤ words.length) :
    ∀ (m i : Nat) (out : List DrawCall), stop - i = m →
      renderFrom words y_pos stop i out =
        some (out ++ ((words.drop i).take (stop - i)).map (fun w => w.render y_pos)) := by
  intro m
  induction m with
  | zero =>
    intro i out h
    rw [renderFrom, if_neg (by omega), h]
    simp
  | succ m ih =>
    intro i out h
    have hi : i < words.length := by omega
    rw [renderFrom, if_pos (by omega), List.getElem?_eq_getElem hi]
    simp only
    rw [ih (i + 1) _ (by omega)]
    have e : stop - i = (stop - (i + 1)) + 1 := by omega
    rw [e, List.drop_eq_getElem_cons hi, List.take_succ_cons]
    simp

/-- On a block that `layout` has laid out from fresh, the end of every line is
at most the word count: `render` indexes `words` inside its range. -/
theorem lineEnd_layout_le (ws : List Nat) (pw sw : Int) (garbage : Tables) (k : Nat)
    (hk : k < (layout ⟨pw, sw⟩ garbage (fresh ws)).line_breaks.length) :
    lineEnd (layout ⟨pw, sw⟩ garbage (fresh ws)).line_breaks k ≤ ws.length := by
  rw [layout_line_breaks] at hk ⊢
  refine (line_bounds _ (fun b hb => ?_) hk).1
  rw [layoutBreaks_fresh] at hb
  exact followLinks_le _ _ _ _ _ (by simp) b hb

/-- C12: rendering a line draws exactly that line's words. For a line index
`k` inside `line_breaks` whose break does not exceed the word count (as is the
case of every break that `layout` has left),
`render(renderer, k, y_pos)` completes and its calls of `draw_text` are, in
order, one per word index of `[start, end)` with `start = 0` for `k = 0` and
`line_breaks[k - 1]` otherwise and `end = line_breaks[k]`: the call number `j`
has the offset `xpos`, the text and the style of the word `start + j` and the
ordinate `y_pos`, and there is no other call. -/
theorem render_draws_line (words : List Word) (line_breaks : List Nat) (k : Nat) (y_pos : Int)
    (hk : k < line_breaks.length) (hend : lineEnd line_breaks k ≤ words.length) :
    ∃ calls, render words line_breaks k y_pos = some calls ∧
      calls = ((words.drop (lineStart line_breaks k)).take
        (lineEnd line_breaks k - lineStart line_breaks k)).map (fun w => w.render y_pos) ∧
      calls.length = lineEnd line_breaks k - lineStart line_breaks k ∧
      ∀ j, j < lineEnd line_breaks k - lineStart line_breaks k →
        ∃ w, words[lineStart line_breaks k + j]? = some w ∧
          calls[j]? = some ⟨w.xpos, y_pos, w.text, w.bold, w.italic⟩ := by
  have hs : (if k = 0 then some 0 else line_breaks[k - 1]?) = some (lineStart line_breaks k) := by
    unfold lineStart
    by_cases h0 : k = 0
    · simp [h0]
    · have hk1 : k - 1 < line_breaks.length := by omega
      simp [h0, List.getElem?_eq_getElem hk1, List.getD_eq_getElem _ _ hk1]
  have he : line_breaks[k]? = some (lineEnd line_breaks k) := by
    unfold lineEnd
    simp [List.getElem?_eq_getElem hk, List.getD_eq_getElem _ _ hk]
  refine ⟨_, ?_, rfl, ?_, ?_⟩
  · unfold render
    rw [hs, he]
    simp only
    rw [renderFrom_spec words y_pos _ hend _ _ _ rfl]
    simp
  · simp only [List.length_map, List.length_take, List.length_drop]
    omega
  · intro j hj
    have hlt : lineStart line_breaks k + j < words.length := by omega
    refine ⟨words[lineStart line_breaks k + j], List.getElem?_eq_getElem hlt, ?_⟩
    rw [List.getElem?_map, List.getElem?_take_of_lt hj, List.getElem?_drop,
      List.getElem?_eq_getElem hlt]
    rfl

theorem render_draws_line_witness :
    ∃ calls, render ([⟨['a'], false, false, 0, 3⟩, ⟨['b'], true, false, 5, 3⟩,
        ⟨['c'], false, true, 0, 4⟩] : List Word) [2, 3] 0 40 = some calls ∧
      calls = ((([⟨['a'], false, false, 0, 3⟩, ⟨['b'], true, false, 5, 3⟩,
        ⟨['c'], false, true, 0, 4⟩] : List Word).drop (lineStart [2, 3] 0)).take
        (lineEnd [2, 3] 0 - lineStart [2, 3] 0)).map (fun w => w.render 40) ∧
      calls.length = lineEnd [2, 3] 0 - lineStart [2, 3] 0 ∧
      ∀ j, j < lineEnd [2, 3] 0 - lineStart [2, 3] 0 →
        ∃ w, ([⟨['a'], false, false, 0, 3⟩, ⟨['b'], true, false, 5, 3⟩,
        ⟨['c'], false, true, 0, 4⟩] : List Word)[lineStart [2, 3] 0 + j]? = some w ∧
          calls[j]? = some ⟨w.xpos, 40, w.text, w.bold, w.italic⟩ :=
  render_draws_line ([⟨['a'], false, false, 0, 3⟩, ⟨['b'], true, false, 5, 3⟩,
        ⟨['c'], false, true, 0, 4⟩] : List Word) [2, 3] 0 40 (by decide) (by decide)

/-! ## Paragraphs of one line, and the spacing of the justified lines -/

theorem lineLen_split (ws : List Nat) (sw : Int) {s m e : Nat} (hsm : s ≤ m) (hme : m ≤ e)
    (he : e ≤ ws.length) : lineLen ws sw s e = lineLen ws sw s m + lineLen ws sw m e + 1 := by
  induction e, hme using Nat.le_induction with
  | base => rw [lineLen_self]; ring
  | succ k hk ih =>
    have hk' : k < ws.length := by omega
    rw [lineLen_succ ws sw (le_trans hsm hk) hk', lineLen_succ ws sw hk hk', ih (by omega)]
    ring

/-- A word that passes the width test inside a line passes it alone. -/
theorem lineLen_word_le (ws : List Nat) {sw : Int} (hsw : 0 ≤ sw) {s k e : Nat} (hsk : s ≤ k)
    (hke : k < e) (he : e ≤ ws.length) :
    lineLen ws sw k (k + 1) ≤ lineLen ws sw s e := by
  have h1 := lineLen_split ws sw hsk (by omega : k ≤ k + 1) (by omega : k + 1 ≤ ws.length)
  have h2 := lineLen_ge ws hsw hsk (by omega : k ≤ ws.length)
  have h3 := lineLen_mono ws hsw s (by omega : s ≤ k + 1) (by omega : k + 1 ≤ e) he
  omega

theorem validInput_of_one_line {ws : List Nat} {pw sw : Int} (hsw : 0 ≤ sw) (hpw : 0 < pw)
    (hfit : lineLen ws sw 0 ws.length ≤ pw) (hcost : costBound ws.length pw 0 < INT_MAX) :
    ValidInput ws pw sw := by
  refine ⟨fun w hw => ?_, hsw, hpw, hcost⟩
  obtain ⟨k, hk, e⟩ := List.getElem_of_mem hw
  have h1 := lineLen_word_le ws hsw (Nat.zero_le k) hk (le_refl _)
  rw [lineLen_single ws sw hk, e] at h1
  omega

/-- When the whole paragraph passes the width test, the solver ends the line of
the word 0 at the last word. -/
theorem solve_one_line {ws : List Nat} {pw sw : Int} (h : ValidInput ws pw sw) (hne : ws ≠ [])
    (hsw : 1 ≤ sw) (hfit : lineLen ws sw 0 ws.length ≤ pw) (garbage : Tables) :
    (solve ws pw sw garbage).ans 0 = ws.length - 1 := by
  have hpos : 0 < ws.length := List.length_pos.mpr hne
  have hg := solve_good h garbage 0 hpos
  have hn1 : ws.length - 1 + 1 = ws.length := by omega
  have h0 : (solve ws pw sw garbage).dp 0 ≤ 0 := by
    have := hg.dp_min (ws.length - 1) (Nat.zero_le _) (by omega) (by rw [hn1]; exact hfit)
    simpa [candCost] using this
  by_contra hcon
  have ha := hg.ans_lt
  have ha2 : (solve ws pw sw garbage).ans 0 + 1 < ws.length := by omega
  have hg1 := (solve_good h garbage _ ha2).dp_nonneg
  have he := hg.dp_eq
  unfold candCost at he
  rw [if_neg hcon] at he
  have hs := lineLen_split ws sw (Nat.zero_le ((solve ws pw sw garbage).ans 0 + 1))
    (le_of_lt ha2) (le_refl _)
  have hw := lineLen_word_le ws (by omega : 0 ≤ sw)
    (le_refl ((solve ws pw sw garbage).ans 0 + 1)) ha2 (le_refl _)
  rw [lineLen_single ws sw ha2] at hw
  have hlt : lineLen ws sw 0 ((solve ws pw sw garbage).ans 0 + 1) < pw := by omega
  have hsq : 0 < (pw - lineLen ws sw 0 ((solve ws pw sw garbage).ans 0 + 1)) *
      (pw - lineLen ws sw 0 ((solve ws pw sw garbage).ans 0 + 1)) :=
    mul_pos (by omega) (by omega)
  omega

theorem layoutBreaks_one_line {ws : List Nat} {pw sw : Int} (h : ValidInput ws pw sw)
    (hne : ws ≠ []) (hsw : 1 ≤ sw) (hfit : lineLen ws sw 0 ws.length ≤ pw) (garbage : Tables) :
    layoutBreaks ⟨pw, sw⟩ garbage (fresh ws) = [ws.length] := by
  have hpos : 0 < ws.length := List.length_pos.mpr hne
  have hlen := h.length_lt
  have ha := solve_one_line h hne hsw hfit garbage
  have hw : wrapSize ((solve ws pw sw garbage).ans 0 + 1) = ws.length := by
    rw [ha, wrapSize_eq_self (by omega)]; omega
  rw [layoutBreaks_fresh]
  change followLinks _ _ (1000 + 1) 0 [] = _
  rw [followLinks, if_pos hpos]
  simp only [hw, gt_iff_lt, lt_irrefl, if_false, List.nil_append, List.length_singleton]
  rw [if_neg (by norm_num)]
  change followLinks _ _ (999 + 1) _ _ = _
  rw [followLinks, if_neg (lt_irrefl _)]

/-- C17 (amended): a paragraph that fits on one line gets one line, when the
page width is positive and `(n - 1) * (pw + 1)^2` is below `INT_MAX` so that no
cost wraps. For a non-empty word sequence with space width at least 1 and
`sum of the widths + n * space_width - 1 <= page_width`, `layout` on a fresh
block leaves `line_breaks = [n]` and stores for every word `k` the offset
`(sum of the widths of the words before k) + k * space_width`. -/
theorem one_line_paragraph {ws : List Nat} {pw sw : Int} (hne : ws ≠ []) (hsw : 1 ≤ sw)
    (hpw : 0 < pw) (hfit : lineLen ws sw 0 ws.length ≤ pw)
    (hcost : costBound ws.length pw 0 < INT_MAX) (garbage : Tables) :
    (layout ⟨pw, sw⟩ garbage (fresh ws)).line_breaks = [ws.length] ∧
    ∀ k, k < ws.length →
      (((layout ⟨pw, sw⟩ garbage (fresh ws)).xpos k : Nat) : Int) =
        (total_word_width ws 0 k : Int) + (k : Int) * sw := by
  have h := validInput_of_one_line (by omega : 0 ≤ sw) hpw hfit hcost
  have hb := layoutBreaks_one_line h hne hsw hfit garbage
  refine ⟨by rw [layout_line_breaks, hb], fun k hk => ?_⟩
  have hs : lineStart [ws.length] 0 = 0 := by simp [lineStart]
  have he : lineEnd [ws.length] 0 = ws.length := by simp [lineEnd]
  have h0 := layoutOffsets_line ws pw sw garbage [ws.length] hb (List.pairwise_singleton _ _)
    (k := 0) (m := k) (by simp) (by rw [hs]; omega) (by rw [he]; exact hk)
  have hspacing : actual_spacing ws pw sw [ws.length].length 0 (lineStart [ws.length] 0)
      (lineEnd [ws.length] 0) = f32 (sw : ℚ) := by
    unfold actual_spacing
    rw [if_neg]
    intro hcon
    simp at hcon
  rw [hspacing, hs, Nat.sub_zero] at h0
  obtain ⟨σ, hσ⟩ : ∃ σ : Nat, sw = (σ : Int) := ⟨sw.toNat, by omega⟩
  have hlen := take_drop_length ws (le_of_lt hk) (s := 0) (m := k)
  have hsum := total_word_width_eq ws 0 k
  rw [Nat.sub_zero] at hlen hsum
  -- the offset is inside the 16-bit field and every operation is exact
  have hmono := lineLen_mono ws (by omega : 0 ≤ sw) 0 (Nat.zero_le k) (le_of_lt hk) (le_refl _)
  have hoff : layoutOffsets ⟨pw, sw⟩ garbage (fresh ws) k =
        ((total_word_width ws 0 k + k * σ : Nat) : ℚ) ∧
      total_word_width ws 0 k + k * σ < 65536 := by
    rcases Nat.eq_zero_or_pos k with hk0 | hkpos
    · subst hk0
      rw [h0]
      simp [advance_nil, total_word_width_self]
    · obtain ⟨_, hr, _⟩ := h.pw_range (by omega)
      unfold lineLen at hmono hfit
      simp only [Nat.sub_zero] at hmono hfit
      have hval : total_word_width ws 0 k + k * σ ≤ 46341 := by
        have : ((total_word_width ws 0 k + k * σ : Nat) : Int) ≤ 46341 := by
          push_cast
          rw [← hσ]
          omega
        exact_mod_cast this
      have hσk : σ ≤ k * σ := Nat.le_mul_of_pos_left σ hkpos
      have hfs : f32 ((sw : Int) : ℚ) = ((σ : Nat) : ℚ) := by
        rw [hσ]
        exact_mod_cast f32_natCast σ (by omega)
      have hex := advance_exact σ ((ws.drop 0).take k) 0 (by rw [hlen, hsum]; omega)
      rw [hlen, hsum] at hex
      simp only [Nat.cast_zero, Nat.zero_add] at hex
      rw [h0, hfs]
      exact ⟨hex, by omega⟩
  have hx : (layout ⟨pw, sw⟩ garbage (fresh ws)).xpos k =
      toUint16 (layoutOffsets ⟨pw, sw⟩ garbage (fresh ws) k) := rfl
  rw [hx, hoff.1, toUint16_natCast _ hoff.2, hσ]
  push_cast
  ring

theorem one_line_paragraph_witness :
    (layout ⟨160, 10⟩ zeroTables (fresh [50, 40])).line_breaks = [[50, 40].length] ∧
    ∀ k, k < [50, 40].length →
      (((layout ⟨160, 10⟩ zeroTables (fresh [50, 40])).xpos k : Nat) : Int) =
        (total_word_width [50, 40] 0 k : Int) + (k : Int) * 10 :=
  one_line_paragraph (by simp) (by decide) (by decide) (by decide) (by decide) zeroTables

/-- C17 (counterexample): two words of width 10 with space width 1 and page
width 46351 fit on one line (`10 + 10 + 2 * 1 - 1 = 21 <= 46351`), but the
cost `46341^2` of ending the line after the first word wraps to a negative
`int`, is preferred to the cost 0 of the single line, and `layout` leaves the
breaks `[1, 2]`. -/
theorem one_line_paragraph_split :
    (1 : Int) ≤ 1 ∧ lineLen [10, 10] 1 0 [10, 10].length ≤ 46351 ∧
    (layout ⟨46351, 1⟩ zeroTables (fresh [10, 10])).line_breaks = [1, 2] ∧
    (solve [10, 10] 46351 1 zeroTables).dp 0 = -2147479015 := by
  refine ⟨by decide, by decide, by decide, by decide⟩

/-- C18 (amended): justification only stretches, when no `int` wraps. On valid
input (each word alone passes the width test, page width positive,
`(n - 1) * (pw + 1)^2` below `INT_MAX`) with space width at least 1, every line
of the result of `layout` on a fresh block that is not the last one and holds
more than two words is spaced by the `float` nearest to
`(page_width - total_word_width) / (word_count - 1)`, a quotient that is at
least `space_width`, and this spacing is at least `space_width`. -/
theorem justified_spacing_at_least_space {ws : List Nat} {pw sw : Int}
    (h : ValidInput ws pw sw) (hne : ws ≠ []) (hsw : 1 ≤ sw) (garbage : Tables) (k : Nat)
    (hk : k + 1 < (layout ⟨pw, sw⟩ garbage (fresh ws)).line_breaks.length)
    (hlong : lineStart (layout ⟨pw, sw⟩ garbage (fresh ws)).line_breaks k + 2 <
      lineEnd (layout ⟨pw, sw⟩ garbage (fresh ws)).line_breaks k) :
    actual_spacing ws pw sw (layout ⟨pw, sw⟩ garbage (fresh ws)).line_breaks.length k
        (lineStart (layout ⟨pw, sw⟩ garbage (fresh ws)).line_breaks k)
        (lineEnd (layout ⟨pw, sw⟩ garbage (fresh ws)).line_breaks k) =
      f32 (((pw - (total_word_width ws
          (lineStart (layout ⟨pw, sw⟩ garbage (fresh ws)).line_breaks k)
          (lineEnd (layout ⟨pw, sw⟩ garbage (fresh ws)).line_breaks k) : Int) : Int) : ℚ) /
        (((lineEnd (layout ⟨pw, sw⟩ garbage (fresh ws)).line_breaks k -
          lineStart (layout ⟨pw, sw⟩ garbage (fresh ws)).line_breaks k - 1 : Nat) : ℚ))) ∧
    (sw : ℚ) ≤ ((pw - (total_word_width ws
          (lineStart (layout ⟨pw, sw⟩ garbage (fresh ws)).line_breaks k)
          (lineEnd (layout ⟨pw, sw⟩ garbage (fresh ws)).line_breaks k) : Int) : Int) : ℚ) /
        (((lineEnd (layout ⟨pw, sw⟩ garbage (fresh ws)).line_breaks k -
          lineStart (layout ⟨pw, sw⟩ garbage (fresh ws)).line_breaks k - 1 : Nat) : ℚ)) ∧
    (sw : ℚ) ≤ actual_spacing ws pw sw (layout ⟨pw, sw⟩ garbage (fresh ws)).line_breaks.length k
        (lineStart (layout ⟨pw, sw⟩ garbage (fresh ws)).line_breaks k)
        (lineEnd (layout ⟨pw, sw⟩ garbage (fresh ws)).line_breaks k) := by
  rw [layout_line_breaks] at hk hlong ⊢
  generalize hbs : layoutBreaks ⟨pw, sw⟩ garbage (fresh ws) = bs at hk hlong ⊢
  have hle : ∀ b ∈ bs, b ≤ ws.length := by
    rw [← hbs, layoutBreaks_fresh]
    exact followLinks_le _ _ _ _ _ (by simp)
  obtain ⟨hend, hmem⟩ := line_bounds bs hle (by omega : k < bs.length)
  have hmem2 : (lineStart bs k, lineEnd bs k) ∈
      linesOf (layoutBreaks ⟨pw, sw⟩ garbage (fresh ws)) := by rw [hbs]; exact hmem
  obtain ⟨_, _, _, hfit⟩ := layout_lines_admitted h hne garbage _ hmem2
  simp only at hfit
  obtain ⟨h1, h2, h3, h4, h5⟩ :=
    justified_spacing h hsw bs.length k (by omega) hlong hend hfit
  refine ⟨h1, h2, ?_⟩
  rw [h1]
  obtain ⟨_, hpw2, _⟩ := h.pw_range (by omega)
  have hsw0 : (0 : ℚ) ≤ (sw : ℚ) := by exact_mod_cast (by omega : (0 : Int) ≤ sw)
  have hmono := f32_mono hsw0 h2
  have hfs : f32 ((sw : Int) : ℚ) = (sw : ℚ) := by
    have hswle : sw ≤ 46340 := by
      have : ((sw : Int) : ℚ) ≤ 46340 := le_trans h2 h3
      exact_mod_cast this
    exact f32_intCast sw (by rw [abs_lt]; constructor <;> omega)
  rw [hfs] at hmono
  exact hmono

theorem justified_spacing_at_least_space_witness :
    actual_spacing [50, 50, 50, 50] 160 2
        (layout ⟨160, 2⟩ zeroTables (fresh [50, 50, 50, 50])).line_breaks.length 0
        (lineStart (layout ⟨160, 2⟩ zeroTables (fresh [50, 50, 50, 50])).line_breaks 0)
        (lineEnd (layout ⟨160, 2⟩ zeroTables (fresh [50, 50, 50, 50])).line_breaks 0) =
      f32 (((160 - (total_word_width [50, 50, 50, 50]
          (lineStart (layout ⟨160, 2⟩ zeroTables (fresh [50, 50, 50, 50])).line_breaks 0)
          (lineEnd (layout ⟨160, 2⟩ zeroTables (fresh [50, 50, 50, 50])).line_breaks 0) : Int) :
          Int) : ℚ) /
        (((lineEnd (layout ⟨160, 2⟩ zeroTables (fresh [50, 50, 50, 50])).line_breaks 0 -
          lineStart (layout ⟨160, 2⟩ zeroTables (fresh [50, 50, 50, 50])).line_breaks 0 - 1 :
          Nat) : ℚ))) ∧
    ((2 : Int) : ℚ) ≤ ((160 - (total_word_width [50, 50, 50, 50]
          (lineStart (layout ⟨160, 2⟩ zeroTables (fresh [50, 50, 50, 50])).line_breaks 0)
          (lineEnd (layout ⟨160, 2⟩ zeroTables (fresh [50, 50, 50, 50])).line_breaks 0) : Int) :
          Int) : ℚ) /
        (((lineEnd (layout ⟨160, 2⟩ zeroTables (fresh [50, 50, 50, 50])).line_breaks 0 -
          lineStart (layout ⟨160, 2⟩ zeroTables (fresh [50, 50, 50, 50])).line_breaks 0 - 1 :
          Nat) : ℚ)) ∧
    ((2 : Int) : ℚ) ≤ actual_spacing [50, 50, 50, 50] 160 2
        (layout ⟨160, 2⟩ zeroTables (fresh [50, 50, 50, 50])).line_breaks.length 0
        (lineStart (layout ⟨160, 2⟩ zeroTables (fresh [50, 50, 50, 50])).line_breaks 0)
        (lineEnd (layout ⟨160, 2⟩ zeroTables (fresh [50, 50, 50, 50])).line_breaks 0) :=
  justified_spacing_at_least_space ⟨by decide, by decide, by decide, by decide⟩ (by simp)
    (by decide) zeroTables 0 (by decide) (by decide)

/-- C18 (counterexample): five words of width 10 with space width `2^30` and
page width `2^30 + 100`. Every word alone passes the width test and the space
width is at least 1, but `currlen` wraps in the solver, which puts the words
0 to 3 on the first line; that line is not the last, holds four words, and is
spaced by `357913952`, the `float` quotient of `page_width - 40` by `3`, less
than the space width. -/
theorem justified_spacing_below_space :
    (∀ w ∈ [10, 10, 10, 10, 10], ((w : Nat) : Int) + 1073741824 - 1 ≤ 1073741924) ∧
    (layout ⟨1073741924, 1073741824⟩ zeroTables (fresh [10, 10, 10, 10, 10])).line_breaks
      = [4, 5] ∧
    actual_spacing [10, 10, 10, 10, 10] 1073741924 1073741824 2 0 0 4 = 357913952 ∧
    actual_spacing [10, 10, 10, 10, 10] 1073741924 1073741824 2 0 0 4 <
      ((1073741824 : Int) : ℚ) := by
  have e1 : f32 ((1073741924 - ((40 : Nat) : Int) : Int) : ℚ) = 1073741824 := by
    have : (((1073741924 - ((40 : Nat) : Int) : Int)) : ℚ) = 1073741884 := by norm_num
    rw [this, f32_eval_pos 30 8388608 (by norm_num) (by norm_num) (by norm_num)
      (by norm_num) (by norm_num)]
    norm_num
  have e2 : f32 ((((4 : Nat) : Int) - ((0 : Nat) : Int) - 1 : Int) : ℚ) = 3 := by
    have := f32_intCast 3 (by norm_num)
    norm_num at this ⊢
    exact this
  have e3 : f32 (1073741824 / 3) = 357913952 := by
    rw [f32_eval_pos 28 11184811 (by norm_num) (by norm_num) (by norm_num)
      (by norm_num) (by norm_num)]
    norm_num
  have ht : total_word_width [10, 10, 10, 10, 10] 0 4 = 40 := by decide
  have hs : actual_spacing [10, 10, 10, 10, 10] 1073741924 1073741824 2 0 0 4 =
      357913952 := by
    unfold actual_spacing
    rw [if_pos (by decide), ht, e1, e2, e3]
  refine ⟨by decide, by decide, hs, ?_⟩
  rw [hs]
  norm_num

/-! ## The cost bound and the absence of overflow -/

/-- The inner loop over unbounded integers only changes `dp[i]`, never raises
it, and keeps it non-negative when the entries it reads are non-negative. -/
theorem innerLoopZ_dp (pw sw : Int) (n i : Nat) :
    ∀ (rest : List Nat) (j : Nat) (c : Int) (t : Tables), i ≤ j → j + rest.length ≤ n →
      (∀ k, i < k → k < n → 0 ≤ t.dp k) → 0 ≤ t.dp i →
      (∀ k, k ≠ i → (innerLoopZ pw sw n i rest j c t).dp k = t.dp k) ∧
        0 ≤ (innerLoopZ pw sw n i rest j c t).dp i ∧
        (innerLoopZ pw sw n i rest j c t).dp i ≤ t.dp i := by
  intro rest
  induction rest with
  | nil => intro j c t _ _ _ h0; exact ⟨fun _ _ => rfl, h0, le_refl _⟩
  | cons w rest ih =>
    intro j c t hij hlen hdp h0
    simp only [List.length_cons] at hlen
    simp only [innerLoopZ]
    by_cases hex : c + ((w : Int) + sw) > pw
    · rw [if_pos hex]; exact ⟨fun _ _ => rfl, h0, le_refl _⟩
    · rw [if_neg hex]
      have hcost : 0 ≤ (if j = n - 1 then (0 : Int)
          else (pw - (c + ((w : Int) + sw))) * (pw - (c + ((w : Int) + sw))) + t.dp (j + 1)) := by
        split
        · exact le_refl _
        · exact add_nonneg (mul_self_nonneg _) (hdp (j + 1) (by omega) (by omega))
      by_cases hlt : (if j = n - 1 then (0 : Int)
          else (pw - (c + ((w : Int) + sw))) * (pw - (c + ((w : Int) + sw))) + t.dp (j + 1))
          < t.dp i
      · rw [if_pos hlt]
        obtain ⟨f1, f2, f3⟩ := ih (j + 1) (c + ((w : Int) + sw))
          ⟨Function.update t.dp i (if j = n - 1 then (0 : Int)
            else (pw - (c + ((w : Int) + sw))) * (pw - (c + ((w : Int) + sw))) + t.dp (j + 1)),
            Function.update t.ans i j⟩ (by omega) (by omega)
          (fun k h1 h2 => by
            show 0 ≤ Function.update t.dp i _ k
            rw [Function.update_noteq (by omega)]; exact hdp k h1 h2)
          (by show 0 ≤ Function.update t.dp i _ i
              rw [Function.update_same]; exact hcost)
        refine ⟨fun k hk => ?_, f2, ?_⟩
        · rw [f1 k hk]
          exact Function.update_noteq hk _ _
        · have e : (Function.update t.dp i (if j = n - 1 then (0 : Int)
              else (pw - (c + ((w : Int) + sw))) * (pw - (c + ((w : Int) + sw))) + t.dp (j + 1)))
              i = _ := Function.update_same _ _ _
          have f3' := f3
          simp only [e] at f3'
          exact le_trans f3' (le_of_lt hlt)
      · rw [if_neg hlt]
        exact ih (j + 1) _ t (by omega) (by omega) hdp h0

/-- One pass over unbounded integers: the new entry `dp[i]` is between `0` and
`(n - 1 - i) * (pw + 1)^2`, the others are kept. -/
theorem rowZ_bounds {ws : List Nat} {pw sw : Int} (hfits : ∀ w ∈ ws, (w : Int) + sw - 1 ≤ pw)
    (hsw : 0 ≤ sw) {i : Nat} (hi : i + 2 ≤ ws.length) (t : Tables)
    (hdp : ∀ k, i < k → k < ws.length → 0 ≤ t.dp k ∧ t.dp k ≤ costBound ws.length pw k) :
    ∀ k, i ≤ k → k < ws.length →
      0 ≤ (rowZ ws pw sw i t).dp k ∧ (rowZ ws pw sw i t).dp k ≤ costBound ws.length pw k := by
  have hil : i < ws.length := by omega
  have hfit := hfits ws[i] (List.getElem_mem hil)
  have hw0 : (0 : Int) ≤ ((ws[i] : Nat) : Int) := Int.natCast_nonneg _
  have hd := hdp (i + 1) (by omega) (by omega)
  have hcb := costBound_succ (n := ws.length) (k := i) pw (by omega)
  have hsq : (pw - (-1 + (((ws[i] : Nat) : Int) + sw))) * (pw - (-1 + (((ws[i] : Nat) : Int) + sw)))
      ≤ (pw + 1) * (pw + 1) :=
    mul_le_mul (by omega) (by omega) (by omega) (by omega)
  have hsq0 := mul_self_nonneg (pw - (-1 + (((ws[i] : Nat) : Int) + sw)))
  have hne : ¬ i = ws.length - 1 := by omega
  have hup : (Function.update t.dp i INT_MAX) (i + 1) = t.dp (i + 1) :=
    Function.update_noteq (by omega) _ _
  unfold rowZ
  rw [List.drop_eq_getElem_cons hil]
  simp only [innerLoopZ]
  rw [if_neg (by omega), if_neg hne, hup, Function.update_same]
  have hlen : i + 1 + (ws.drop (i + 1)).length ≤ ws.length := by
    rw [List.length_drop]; omega
  by_cases hlt : (pw - (-1 + (((ws[i] : Nat) : Int) + sw))) *
      (pw - (-1 + (((ws[i] : Nat) : Int) + sw))) + t.dp (i + 1) < INT_MAX
  · rw [if_pos hlt]
    obtain ⟨f1, f2, f3⟩ := innerLoopZ_dp pw sw ws.length i (ws.drop (i + 1)) (i + 1)
      (-1 + (((ws[i] : Nat) : Int) + sw))
      ⟨Function.update (Function.update t.dp i INT_MAX) i
        ((pw - (-1 + (((ws[i] : Nat) : Int) + sw))) *
          (pw - (-1 + (((ws[i] : Nat) : Int) + sw))) + t.dp (i + 1)),
        Function.update t.ans i i⟩ (by omega) hlen
      (fun k h1 h2 => by
        show 0 ≤ Function.update (Function.update t.dp i INT_MAX) i _ k
        rw [Function.update_noteq (by omega), Function.update_noteq (by omega)]
        exact (hdp k h1 h2).1)
      (by show 0 ≤ Function.update (Function.update t.dp i INT_MAX) i _ i
          rw [Function.update_same]; omega)
    intro k hik hk
    rcases Nat.eq_or_lt_of_le hik with e | hgt
    · subst e
      have f3' : _ ≤ Function.update (Function.update t.dp i INT_MAX) i _ i := f3
      rw [Function.update_same] at f3'
      exact ⟨f2, by omega⟩
    · rw [f1 k (by omega)]
      show 0 ≤ Function.update (Function.update t.dp i INT_MAX) i _ k ∧
        Function.update (Function.update t.dp i INT_MAX) i _ k ≤ _
      rw [Function.update_noteq (by omega), Function.update_noteq (by omega)]
      exact hdp k hgt hk
  · rw [if_neg hlt]
    obtain ⟨f1, f2, f3⟩ := innerLoopZ_dp pw sw ws.length i (ws.drop (i + 1)) (i + 1)
      (-1 + (((ws[i] : Nat) : Int) + sw))
      ⟨Function.update t.dp i INT_MAX, t.ans⟩ (by omega) hlen
      (fun k h1 h2 => by
        show 0 ≤ Function.update t.dp i INT_MAX k
        rw [Function.update_noteq (by omega)]
        exact (hdp k h1 h2).1)
      (by show 0 ≤ Function.update t.dp i INT_MAX i
          rw [Function.update_same]; decide)
    intro k hik hk
    rcases Nat.eq_or_lt_of_le hik with e | hgt
    · subst e
      have f3' : _ ≤ Function.update t.dp i INT_MAX i := f3
      rw [Function.update_same] at f3'
      exact ⟨f2, by omega⟩
    · rw [f1 k (by omega)]
      show 0 ≤ Function.update t.dp i INT_MAX k ∧ Function.update t.dp i INT_MAX k ≤ _
      rw [Function.update_noteq (by omega)]
      exact hdp k hgt hk

theorem outerLoopZ_bounds {ws : List Nat} {pw sw : Int}
    (hfits : ∀ w ∈ ws, (w : Int) + sw - 1 ≤ pw) (hsw : 0 ≤ sw) :
    ∀ (i : Nat) (t : Tables), i + 1 ≤ ws.length →
      (∀ k, i ≤ k → k < ws.length → 0 ≤ t.dp k ∧ t.dp k ≤ costBound ws.length pw k) →
      ∀ k, k < ws.length →
        0 ≤ (outerLoopZ ws pw sw i t).dp k ∧
          (outerLoopZ ws pw sw i t).dp k ≤ costBound ws.length pw k := by
  intro i
  induction i with
  | zero => intro t _ hg k hk; exact hg k (Nat.zero_le k) hk
  | succ i ih =>
    intro t hi hg k hk
    simp only [outerLoopZ]
    exact ih _ (by omega)
      (rowZ_bounds hfits hsw (by omega) t (fun k h1 h2 => hg k (by omega) h2)) k hk

theorem solveZ_bounds {ws : List Nat} {pw sw : Int} (hne : ws ≠ [])
    (hfits : ∀ w ∈ ws, (w : Int) + sw - 1 ≤ pw) (hsw : 0 ≤ sw) (garbage : Tables) :
    ∀ k, k < ws.length →
      0 ≤ (solveZ ws pw sw garbage).dp k ∧
        (solveZ ws pw sw garbage).dp k ≤ costBound ws.length pw k := by
  have hpos : 0 < ws.length := List.length_pos.mpr hne
  have hn : ws.length ≠ 0 := by omega
  unfold solveZ
  simp only [hn, if_false]
  apply outerLoopZ_bounds hfits hsw (ws.length - 1) _ (by omega)
  intro k h1 h2
  have e : k = ws.length - 1 := by omega
  subst e
  simp only [Function.update_same]
  exact ⟨le_refl _, costBound_nonneg _ _ _⟩

/-- On valid input the inner loop in 32-bit arithmetic and the inner loop over
unbounded integers do the same. -/
theorem innerLoop_eq_innerLoopZ {ws : List Nat} {pw sw : Int} (h : ValidInput ws pw sw)
    {i : Nat} (hi : i + 2 ≤ ws.length) :
    ∀ (m j : Nat) (t : Tables), j + m = ws.length → i ≤ j →
      lineLen ws sw i j ≤ pw →
      (∀ k, i < k → k < ws.length → 0 ≤ t.dp k ∧ t.dp k ≤ costBound ws.length pw k) →
      innerLoop pw sw ws.length i (ws.drop j) j (lineLen ws sw i j) t =
        innerLoopZ pw sw ws.length i (ws.drop j) j (lineLen ws sw i j) t := by
  obtain ⟨hpw1, hpw2, hsq⟩ := h.pw_range (by omega)
  have hsw := h.space_nonneg
  intro m
  induction m with
  | zero =>
    intro j t hjm _ _ _
    rw [List.drop_eq_nil_of_le (by omega)]
    rfl
  | succ m ih =>
    intro j t hjm hij hc hdp
    have hj : j < ws.length := by omega
    have hw0 : (0 : Int) ≤ ((ws[j] : Nat) : Int) := Int.natCast_nonneg _
    have hwfit := h.fits ws[j] (List.getElem_mem hj)
    have hc0 : -1 ≤ lineLen ws sw i j := lineLen_ge ws hsw hij (by omega)
    have hlenZ : lineLen ws sw i j + (((ws[j] : Nat) : Int) + sw) = lineLen ws sw i (j + 1) := by
      rw [lineLen_succ ws sw hij hj]; ring
    have hlen : wrapInt (lineLen ws sw i j + wrapInt (((ws[j] : Nat) : Int) + sw)) =
        lineLen ws sw i (j + 1) := by
      have e1 : wrapInt (((ws[j] : Nat) : Int) + sw) = ((ws[j] : Nat) : Int) + sw :=
        wrapInt_eq_self (by omega) (by omega)
      rw [e1, ← hlenZ, wrapInt_eq_self (by omega) (by omega)]
    rw [List.drop_eq_getElem_cons hj]
    simp only [innerLoop, innerLoopZ, hlen, hlenZ]
    by_cases hover : lineLen ws sw i (j + 1) > pw
    · rw [if_pos hover, if_pos hover]
    · rw [if_neg hover, if_neg hover]
      have hfit : lineLen ws sw i (j + 1) ≤ pw := by omega
      have hc1 : -1 ≤ lineLen ws sw i (j + 1) := lineLen_ge ws hsw (by omega) (by omega)
      have hcost : (if j = ws.length - 1 then (0 : Int)
          else wrapInt (wrapInt (wrapInt (pw - lineLen ws sw i (j + 1)) *
            wrapInt (pw - lineLen ws sw i (j + 1))) + t.dp (j + 1))) =
          (if j = ws.length - 1 then (0 : Int)
          else (pw - lineLen ws sw i (j + 1)) * (pw - lineLen ws sw i (j + 1)) +
            t.dp (j + 1)) := by
        by_cases hlast : j = ws.length - 1
        · rw [if_pos hlast, if_pos hlast]
        · rw [if_neg hlast, if_neg hlast]
          have hd := hdp (j + 1) (by omega) (by omega)
          have hcb := costBound_succ (n := ws.length) (k := j) pw (by omega)
          have hanti := costBound_anti ws.length pw (Nat.zero_le j)
          have hsmall := h.cost_small
          exact (cost_wrap_free hpw1 hpw2 hc1 hfit hd.1 (by omega)).1
      rw [hcost]
      generalize (if j = ws.length - 1 then (0 : Int)
          else (pw - lineLen ws sw i (j + 1)) * (pw - lineLen ws sw i (j + 1)) +
            t.dp (j + 1)) = cost
      by_cases hlt : cost < t.dp i
      · rw [if_pos hlt, if_pos hlt]
        exact ih (j + 1) ⟨Function.update t.dp i cost, Function.update t.ans i j⟩ (by omega)
          (by omega) hfit (fun k h1 h2 => by
            show 0 ≤ Function.update t.dp i cost k ∧ Function.update t.dp i cost k ≤ _
            rw [Function.update_noteq (by omega)]
            exact hdp k h1 h2)
      · rw [if_neg hlt, if_neg hlt]
        exact ih (j + 1) t (by omega) (by omega) hfit hdp

theorem row_eq_rowZ {ws : List Nat} {pw sw : Int} (h : ValidInput ws pw sw)
    {i : Nat} (hi : i + 2 ≤ ws.length) (t : Tables)
    (hdp : ∀ k, i < k → k < ws.length → 0 ≤ t.dp k ∧ t.dp k ≤ costBound ws.length pw k) :
    row ws pw sw i t = rowZ ws pw sw i t := by
  unfold row rowZ
  rw [← lineLen_self ws sw i]
  have hp := h.page_pos
  exact innerLoop_eq_innerLoopZ h hi (ws.length - i) i _ (by omega) (le_refl _)
    (by rw [lineLen_self]; omega)
    (fun k h1 h2 => by
      show 0 ≤ Function.update t.dp i _ k ∧ Function.update t.dp i _ k ≤ _
      rw [Function.update_noteq (by omega)]
      exact hdp k h1 h2)

theorem outerLoop_eq_outerLoopZ {ws : List Nat} {pw sw : Int} (h : ValidInput ws pw sw) :
    ∀ (i : Nat) (t : Tables), i + 1 ≤ ws.length →
      (∀ k, i ≤ k → k < ws.length → 0 ≤ t.dp k ∧ t.dp k ≤ costBound ws.length pw k) →
      outerLoop ws pw sw i t = outerLoopZ ws pw sw i t := by
  intro i
  induction i with
  | zero => intro t _ _; rfl
  | succ i ih =>
    intro t hi hg
    simp only [outerLoop, outerLoopZ]
    have hdp : ∀ k, i < k → k < ws.length →
        0 ≤ t.dp k ∧ t.dp k ≤ costBound ws.length pw k := fun k h1 h2 => hg k (by omega) h2
    rw [row_eq_rowZ h (by omega) t hdp]
    exact ih _ (by omega) (rowZ_bounds h.fits h.space_nonneg (by omega) t hdp)

theorem solve_eq_solveZ {ws : List Nat} {pw sw : Int} (h : ValidInput ws pw sw)
    (garbage : Tables) : solve ws pw sw garbage = solveZ ws pw sw garbage := by
  unfold solve solveZ
  simp only
  split
  · rfl
  · apply outerLoop_eq_outerLoopZ h _ _ (by omega)
    intro k h1 h2
    have e : k = ws.length - 1 := by omega
    subst e
    simp only [Function.update_same]
    exact ⟨le_refl _, costBound_nonneg _ _ _⟩

/-- The largest `int`, `2^31 - 1`, is a prime number. -/
theorem int_max_prime : Nat.Prime 2147483647 := by
  have h : (mersenne 31).Prime := lucas_lehmer_sufficiency _ (by norm_num) (by norm_num)
  have e : mersenne 31 = 2147483647 := by norm_num [mersenne]
  rwa [e] at h

/-- With a positive page width the bound `(n - 1) * (pw + 1)^2` is never
`INT_MAX` itself: it is a multiple of a square above 1 and `INT_MAX` is
prime. -/
theorem costBound_ne_int_max (n : Nat) {pw : Int} (hpw : 0 < pw) :
    costBound n pw 0 ≠ INT_MAX := by
  intro hcon
  unfold costBound INT_MAX at hcon
  obtain ⟨a, ha⟩ : ∃ a : Nat, pw + 1 = (a : Int) := ⟨(pw + 1).toNat, by omega⟩
  rw [ha] at hcon
  have ha2 : 2 ≤ a := by omega
  have hnat : (n - 1 - 0) * (a * a) = 2147483647 := by exact_mod_cast hcon
  have hdvd : a ∣ 2147483647 := ⟨(n - 1 - 0) * a, by rw [← hnat]; ring⟩
  rcases (Nat.dvd_prime int_max_prime).mp hdvd with e | e
  · omega
  · rw [e] at hnat
    omega

/-- On valid input every cost the inner loop computes for an admitted candidate
is the exact cost, and lies between `0` and the bound of the candidate. -/
theorem admittedCosts_exact {ws : List Nat} {pw sw : Int} (h : ValidInput ws pw sw)
    {i : Nat} (hi : i + 2 ≤ ws.length) {dp : Nat → Int}
    (hdp : ∀ k, i < k → k < ws.length → 0 ≤ dp k ∧ dp k ≤ costBound ws.length pw k) :
    ∀ (m j : Nat), j + m = ws.length → i ≤ j → lineLen ws sw i j ≤ pw →
      ∀ p ∈ admittedCosts pw sw ws.length dp (ws.drop j) j (lineLen ws sw i j),
        p.2 = candCost ws.length pw dp (lineLen ws sw i (p.1 + 1)) p.1 ∧
          0 ≤ p.2 ∧ p.2 ≤ costBound ws.length pw p.1 := by
  obtain ⟨hpw1, hpw2, hsq⟩ := h.pw_range (by omega)
  have hsw := h.space_nonneg
  intro m
  induction m with
  | zero =>
    intro j hjm _ _ p hp
    rw [List.drop_eq_nil_of_le (by omega)] at hp
    simp [admittedCosts] at hp
  | succ m ih =>
    intro j hjm hij hc p hp
    have hj : j < ws.length := by omega
    have hw0 : (0 : Int) ≤ ((ws[j] : Nat) : Int) := Int.natCast_nonneg _
    have hwfit := h.fits ws[j] (List.getElem_mem hj)
    have hc0 : -1 ≤ lineLen ws sw i j := lineLen_ge ws hsw hij (by omega)
    have hlen : wrapInt (lineLen ws sw i j + wrapInt (((ws[j] : Nat) : Int) + sw)) =
        lineLen ws sw i (j + 1) := by
      have e1 : wrapInt (((ws[j] : Nat) : Int) + sw) = ((ws[j] : Nat) : Int) + sw :=
        wrapInt_eq_self (by omega) (by omega)
      rw [lineLen_succ ws sw hij hj, e1, wrapInt_eq_self (by omega) (by omega)]
      ring
    rw [List.drop_eq_getElem_cons hj] at hp
    simp only [admittedCosts, hlen] at hp
    by_cases hover : lineLen ws sw i (j + 1) > pw
    · rw [if_pos hover] at hp
      simp at hp
    · rw [if_neg hover] at hp
      have hfit : lineLen ws sw i (j + 1) ≤ pw := by omega
      have hc1 : -1 ≤ lineLen ws sw i (j + 1) := lineLen_ge ws hsw (by omega) (by omega)
      rcases List.mem_cons.mp hp with e | hp
      · have hb := candCost_bounds h hi hij hj hfit hdp
        have hcost : (if j = ws.length - 1 then (0 : Int)
            else wrapInt (wrapInt (wrapInt (pw - lineLen ws sw i (j + 1)) *
              wrapInt (pw - lineLen ws sw i (j + 1))) + dp (j + 1))) =
            candCost ws.length pw dp (lineLen ws sw i (j + 1)) j := by
          unfold candCost
          by_cases hlast : j = ws.length - 1
          · rw [if_pos hlast, if_pos hlast]
          · rw [if_neg hlast, if_neg hlast]
            have hd := hdp (j + 1) (by omega) (by omega)
            have hcb := costBound_succ (n := ws.length) (k := j) pw (by omega)
            have hanti := costBound_anti ws.length pw (Nat.zero_le j)
            have hsmall := h.cost_small
            exact (cost_wrap_free hpw1 hpw2 hc1 hfit hd.1 (by omega)).1
        rw [e, hcost]
        exact ⟨rfl, hb.1, hb.2⟩
      · exact ih (j + 1) (by omega) (by omega) hfit p hp

/-- C20: the cost bound that rules out 32-bit overflow. For every non-empty
word sequence in which each word alone passes the width test, with a space
width that is not negative and a positive page width, every entry of `dp`
computed over unbounded integers is between `0` and
`(n - 1 - i) * (page_width + 1)^2`; and whenever
`(n - 1) * (page_width + 1)^2 < 2^31` the solver in 32-bit arithmetic computes
the same tables as over unbounded integers, every `dp[i]` is below the sentinel
`INT_MAX`, and every cost it computes for an admitted candidate is the exact
cost, not negative and below `INT_MAX`. -/
theorem cost_bound_rules_out_overflow {ws : List Nat} {pw sw : Int} (hne : ws ≠ [])
    (hfits : ∀ w ∈ ws, (w : Int) + sw - 1 ≤ pw) (hsw : 0 ≤ sw) (hpw : 0 < pw)
    (garbage : Tables) :
    (∀ i, i < ws.length →
      0 ≤ (solveZ ws pw sw garbage).dp i ∧
        (solveZ ws pw sw garbage).dp i ≤ costBound ws.length pw i) ∧
    (costBound ws.length pw 0 < 2147483648 →
      solve ws pw sw garbage = solveZ ws pw sw garbage ∧
        (∀ i, i < ws.length → (solve ws pw sw garbage).dp i < INT_MAX) ∧
        ∀ i, i + 2 ≤ ws.length →
          ∀ p ∈ admittedCosts pw sw ws.length (solve ws pw sw garbage).dp (ws.drop i) i (-1),
            p.2 = candCost ws.length pw (solve ws pw sw garbage).dp
              (lineLen ws sw i (p.1 + 1)) p.1 ∧ 0 ≤ p.2 ∧ p.2 < INT_MAX) := by
  refine ⟨solveZ_bounds hne hfits hsw garbage, fun hsmall => ?_⟩
  have hneq := costBound_ne_int_max ws.length hpw
  have hlt : costBound ws.length pw 0 < INT_MAX := by
    unfold INT_MAX at hneq ⊢
    omega
  have h : ValidInput ws pw sw := ⟨hfits, hsw, hpw, hlt⟩
  have heq := solve_eq_solveZ h garbage
  have hb : ∀ k, k < ws.length → 0 ≤ (solve ws pw sw garbage).dp k ∧
      (solve ws pw sw garbage).dp k ≤ costBound ws.length pw k := by
    rw [heq]
    exact solveZ_bounds hne hfits hsw garbage
  refine ⟨heq, fun i hi => ?_, fun i hi p hp => ?_⟩
  · have h1 := (hb i hi).2
    have h2 := costBound_anti ws.length pw (Nat.zero_le i)
    omega
  · rw [← lineLen_self ws sw i] at hp
    obtain ⟨e1, e2, e3⟩ := admittedCosts_exact h hi (fun k _ hk => hb k hk) (ws.length - i) i
      (by omega) (le_refl _) (by rw [lineLen_self]; omega) p hp
    have h2 := costBound_anti ws.length pw (Nat.zero_le p.1)
    exact ⟨e1, e2, by omega⟩

theorem cost_bound_rules_out_overflow_witness :
    (∀ i, i < [50, 50, 50, 50].length →
      0 ≤ (solveZ [50, 50, 50, 50] 160 10 zeroTables).dp i ∧
        (solveZ [50, 50, 50, 50] 160 10 zeroTables).dp i ≤
          costBound [50, 50, 50, 50].length 160 i) ∧
    (costBound [50, 50, 50, 50].length 160 0 < 2147483648 →
      solve [50, 50, 50, 50] 160 10 zeroTables = solveZ [50, 50, 50, 50] 160 10 zeroTables ∧
        (∀ i, i < [50, 50, 50, 50].length →
          (solve [50, 50, 50, 50] 160 10 zeroTables).dp i < INT_MAX) ∧
        ∀ i, i + 2 ≤ [50, 50, 50, 50].length →
          ∀ p ∈ admittedCosts 160 10 [50, 50, 50, 50].length
              (solve [50, 50, 50, 50] 160 10 zeroTables).dp ([50, 50, 50, 50].drop i) i (-1),
            p.2 = candCost [50, 50, 50, 50].length 160
              (solve [50, 50, 50, 50] 160 10 zeroTables).dp
              (lineLen [50, 50, 50, 50] 10 i (p.1 + 1)) p.1 ∧ 0 ≤ p.2 ∧ p.2 < INT_MAX) :=
  cost_bound_rules_out_overflow (by simp) (by decide) (by decide) (by decide) zeroTables

/-! ## The early exit of the inner loop -/

/-- Over the exact integers, once the length has exceeded the page width it
exceeds it for every later word, and the exhaustive loop changes nothing any
more. -/
theorem innerLoopAll_exceeded (pw : Int) {sw : Int} (hsw : 0 ≤ sw) (n i : Nat) :
    ∀ (rest : List Nat) (j : Nat) (c : Int) (t : Tables), pw < c →
      innerLoopAll pw sw n i rest j c t = t := by
  intro rest
  induction rest with
  | nil => intro j c t _; rfl
  | cons w rest ih =>
    intro j c t hc
    have hw : (0 : Int) ≤ (w : Int) := Int.natCast_nonneg w
    simp only [innerLoopAll]
    rw [if_pos (by omega)]
    exact ih (j + 1) _ t (by omega)

theorem innerLoopAll_eq_innerLoopZ (pw : Int) {sw : Int} (hsw : 0 ≤ sw) (n i : Nat) :
    ∀ (rest : List Nat) (j : Nat) (c : Int) (t : Tables),
      innerLoopAll pw sw n i rest j c t = innerLoopZ pw sw n i rest j c t := by
  intro rest
  induction rest with
  | nil => intro j c t; rfl
  | cons w rest ih =>
    intro j c t
    simp only [innerLoopAll, innerLoopZ]
    by_cases hex : c + ((w : Int) + sw) > pw
    · rw [if_pos hex, if_pos hex]
      exact innerLoopAll_exceeded pw hsw n i rest (j + 1) _ t hex
    · rw [if_neg hex, if_neg hex]
      split_ifs <;> exact ih (j + 1) _ _

theorem rowAll_eq_rowZ (ws : List Nat) (pw : Int) {sw : Int} (hsw : 0 ≤ sw) (i : Nat)
    (t : Tables) : rowAll ws pw sw i t = rowZ ws pw sw i t := by
  unfold rowAll rowZ
  exact innerLoopAll_eq_innerLoopZ pw hsw _ _ _ _ _ _

theorem outerLoopAll_eq_outerLoopZ (ws : List Nat) (pw : Int) {sw : Int} (hsw : 0 ≤ sw) :
    ∀ (k : Nat) (t : Tables), outerLoopAll ws pw sw k t = outerLoopZ ws pw sw k t := by
  intro k
  induction k with
  | zero => intro t; rfl
  | succ k ih =>
    intro t
    simp only [outerLoopAll, outerLoopZ]
    rw [rowAll_eq_rowZ ws pw hsw, ih]

/-- Over the exact integers the early exit loses nothing, for every input with
a space width that is not negative. -/
theorem solveAll_eq_solveZ (ws : List Nat) (pw : Int) {sw : Int} (hsw : 0 ≤ sw)
    (garbage : Tables) : solveAll ws pw sw garbage = solveZ ws pw sw garbage := by
  unfold solveAll solveZ
  simp only
  split
  · rfl
  · exact outerLoopAll_eq_outerLoopZ ws pw hsw _ _

/-- C16 (amended): the early exit loses nothing where the `int` arithmetic of
the solver is exact. For every word sequence in which each word alone passes
the width test, with a space width that is not negative, a positive page width
and `(n - 1) * (page_width + 1)^2` below `INT_MAX`, whatever the tables held
before, the solver as written leaves the same tables `dp` and `ans` as the
exhaustive dynamic programme that examines every `j` and skips the candidates
whose length exceeds the page width. -/
theorem early_exit_same_tables {ws : List Nat} {pw sw : Int} (h : ValidInput ws pw sw)
    (garbage : Tables) : solve ws pw sw garbage = solveAll ws pw sw garbage := by
  rw [solve_eq_solveZ h garbage, solveAll_eq_solveZ ws pw h.space_nonneg garbage]

theorem early_exit_same_tables_witness :
    solve [50, 50, 50, 50] 160 10 zeroTables = solveAll [50, 50, 50, 50] 160 10 zeroTables :=
  early_exit_same_tables ⟨by decide, by decide, by decide, by decide⟩ zeroTables

/-- C16 (counterexample): two inputs with a space width that is not negative.
Two words of width 10 with page width `46351` and space width 1: the cost
`46341^2` of ending the first line after the word 0 wraps in the solver, which
leaves `dp[0] = -2147479015` and `ans[0] = 0`, where the exhaustive dynamic
programme has `dp[0] = 0` and `ans[0] = 1`. Widths `[10, 200, 10]` with page
width 100 and space width 1: the word 1 is wider than the page, `dp[1]` stays
`INT_MAX`, and the sum `8100 + INT_MAX` wraps in the solver, which leaves
`dp[0] = -2147475549`, where the exhaustive dynamic programme has
`dp[0] = INT_MAX`. -/
theorem written_tables_differ_from_exhaustive :
    (0 : Int) ≤ 1 ∧
    (solve [10, 10] 46351 1 zeroTables).dp 0 = -2147479015 ∧
    (solve [10, 10] 46351 1 zeroTables).ans 0 = 0 ∧
    (solveAll [10, 10] 46351 1 zeroTables).dp 0 = 0 ∧
    (solveAll [10, 10] 46351 1 zeroTables).ans 0 = 1 ∧
    (solve [10, 200, 10] 100 1 zeroTables).dp 0 = -2147475549 ∧
    (solveAll [10, 200, 10] 100 1 zeroTables).dp 0 = INT_MAX := by
  refine ⟨by decide, by decide, by decide, by decide, by decide, by decide, by decide⟩

/-! ## The choice among candidates of equal cost -/

theorem admittedCosts_congr (pw sw : Int) (n : Nat) {dp dp' : Nat → Int} :
    ∀ (rest : List Nat) (j : Nat) (c : Int), (∀ k, j < k → dp k = dp' k) →
      admittedCosts pw sw n dp rest j c = admittedCosts pw sw n dp' rest j c := by
  intro rest
  induction rest with
  | nil => intro j c _; rfl
  | cons w rest ih =>
    intro j c h
    simp only [admittedCosts]
    rw [h (j + 1) (by omega), ih (j + 1) _ (fun k hk => h k (by omega))]

theorem admittedCosts_index (pw sw : Int) (n : Nat) (dp : Nat → Int) :
    ∀ (rest : List Nat) (j : Nat) (c : Int), ∀ p ∈ admittedCosts pw sw n dp rest j c, j ≤ p.1 := by
  intro rest
  induction rest with
  | nil => intro j c p hp; simp [admittedCosts] at hp
  | cons w rest ih =>
    intro j c p hp
    simp only [admittedCosts] at hp
    split at hp
    · simp at hp
    · rcases List.mem_cons.mp hp with e | hp
      · rw [e]
      · have := ih (j + 1) _ p hp
        omega

/-- The inner loop changes the tables at the index `i` only. -/
theorem innerLoop_frame (pw sw : Int) (n i : Nat) :
    ∀ (rest : List Nat) (j : Nat) (c : Int) (t : Tables) (k : Nat), k ≠ i →
      (innerLoop pw sw n i rest j c t).dp k = t.dp k ∧
        (innerLoop pw sw n i rest j c t).ans k = t.ans k := by
  intro rest
  induction rest with
  | nil => intro j c t k _; exact ⟨rfl, rfl⟩
  | cons w rest ih =>
    intro j c t k hk
    simp only [innerLoop]
    generalize wrapInt (c + wrapInt ((w : Int) + sw)) = c1
    by_cases hex : c1 > pw
    · rw [if_pos hex]
      exact ⟨rfl, rfl⟩
    · rw [if_neg hex]
      generalize (if j = n - 1 then (0 : Int)
        else wrapInt (wrapInt (wrapInt (pw - c1) * wrapInt (pw - c1)) + t.dp (j + 1))) = cost
      by_cases hlt : cost < t.dp i
      · rw [if_pos hlt]
        obtain ⟨e1, e2⟩ := ih (j + 1) c1
          ⟨Function.update t.dp i cost, Function.update t.ans i j⟩ k hk
        rw [e1, e2]
        exact ⟨Function.update_noteq hk _ _, Function.update_noteq hk _ _⟩
      · rw [if_neg hlt]
        exact ih (j + 1) c1 t k hk

/-- What the inner loop leaves at the index `i`: the least of the value it
found there and the costs of the admitted candidates, and with it the first
candidate that has this cost when it is below the value found. -/
theorem innerLoop_first_min (pw sw : Int) (n i : Nat) :
    ∀ (rest : List Nat) (j : Nat) (c : Int) (t : Tables), i ≤ j →
      (∀ p ∈ admittedCosts pw sw n t.dp rest j c, (innerLoop pw sw n i rest j c t).dp i ≤ p.2) ∧
      (innerLoop pw sw n i rest j c t).dp i ≤ t.dp i ∧
      (((innerLoop pw sw n i rest j c t).dp i = t.dp i ∧
          (innerLoop pw sw n i rest j c t).ans i = t.ans i) ∨
        ((innerLoop pw sw n i rest j c t).dp i < t.dp i ∧
          ((innerLoop pw sw n i rest j c t).ans i, (innerLoop pw sw n i rest j c t).dp i) ∈
            admittedCosts pw sw n t.dp rest j c ∧
          ∀ p ∈ admittedCosts pw sw n t.dp rest j c,
            p.1 < (innerLoop pw sw n i rest j c t).ans i →
              (innerLoop pw sw n i rest j c t).dp i < p.2)) := by
  intro rest
  induction rest with
  | nil =>
    intro j c t _
    exact ⟨fun p hp => by simp [admittedCosts] at hp, le_refl _, Or.inl ⟨rfl, rfl⟩⟩
  | cons w rest ih =>
    intro j c t hij
    simp only [innerLoop, admittedCosts]
    generalize wrapInt (c + wrapInt ((w : Int) + sw)) = c1
    by_cases hex : c1 > pw
    · rw [if_pos hex, if_pos hex]
      exact ⟨fun p hp => by simp at hp, le_refl _, Or.inl ⟨rfl, rfl⟩⟩
    · rw [if_neg hex, if_neg hex]
      generalize (if j = n - 1 then (0 : Int)
        else wrapInt (wrapInt (wrapInt (pw - c1) * wrapInt (pw - c1)) + t.dp (j + 1))) = cost
      have hidx := admittedCosts_index pw sw n t.dp rest (j + 1) c1
      by_cases hlt : cost < t.dp i
      · rw [if_pos hlt]
        have hc : admittedCosts pw sw n (Function.update t.dp i cost) rest (j + 1) c1 =
            admittedCosts pw sw n t.dp rest (j + 1) c1 :=
          admittedCosts_congr pw sw n rest (j + 1) c1
            (fun k hk => Function.update_noteq (by omega) _ _)
        obtain ⟨f1, f2, f3⟩ := ih (j + 1) c1
          ⟨Function.update t.dp i cost, Function.update t.ans i j⟩ (by omega)
        simp only [Function.update_same, hc] at f1 f2 f3
        refine ⟨fun p hp => ?_, le_trans f2 (le_of_lt hlt), Or.inr ⟨lt_of_le_of_lt f2 hlt, ?_, ?_⟩⟩
        · rcases List.mem_cons.mp hp with e | hp
          · rw [e]; exact f2
          · exact f1 p hp
        · rcases f3 with ⟨e1, e2⟩ | ⟨_, g2, _⟩
          · rw [e1, e2]; exact List.mem_cons_self _ _
          · exact List.mem_cons_of_mem _ g2
        · intro p hp hpl
          rcases f3 with ⟨e1, e2⟩ | ⟨g1, _, g3⟩
          · rw [e2] at hpl
            rcases List.mem_cons.mp hp with e | hp
            · rw [e] at hpl; exact absurd hpl (lt_irrefl _)
            · have := hidx p hp
              omega
          · rcases List.mem_cons.mp hp with e | hp
            · rw [e]; exact g1
            · exact g3 p hp hpl
      · rw [if_neg hlt]
        obtain ⟨f1, f2, f3⟩ := ih (j + 1) c1 t (by omega)
        refine ⟨fun p hp => ?_, f2, ?_⟩
        · rcases List.mem_cons.mp hp with e | hp
          · rw [e]; exact le_trans f2 (not_lt.mp hlt)
          · exact f1 p hp
        · rcases f3 with e | ⟨g1, g2, g3⟩
          · exact Or.inl e
          · refine Or.inr ⟨g1, List.mem_cons_of_mem _ g2, fun p hp hpl => ?_⟩
            rcases List.mem_cons.mp hp with e | hp
            · rw [e]; exact lt_of_lt_of_le g1 (not_lt.mp hlt)
            · exact g3 p hp hpl

theorem row_frame (ws : List Nat) (pw sw : Int) (i : Nat) (t : Tables) (k : Nat) (hk : k ≠ i) :
    (row ws pw sw i t).dp k = t.dp k ∧ (row ws pw sw i t).ans k = t.ans k := by
  unfold row
  obtain ⟨e1, e2⟩ := innerLoop_frame pw sw ws.length i (ws.drop i) i (-1)
    ⟨Function.update t.dp i INT_MAX, t.ans⟩ k hk
  rw [e1, e2]
  exact ⟨Function.update_noteq hk _ _, rfl⟩

theorem outerLoop_frame (ws : List Nat) (pw sw : Int) :
    ∀ (k : Nat) (t : Tables) (m : Nat), k ≤ m →
      (outerLoop ws pw sw k t).dp m = t.dp m ∧ (outerLoop ws pw sw k t).ans m = t.ans m := by
  intro k
  induction k with
  | zero => intro t m _; exact ⟨rfl, rfl⟩
  | succ k ih =>
    intro t m hm
    simp only [outerLoop]
    obtain ⟨e1, e2⟩ := ih (row ws pw sw k t) m (by omega)
    obtain ⟨e3, e4⟩ := row_frame ws pw sw k t m (by omega)
    rw [e1, e2, e3, e4]
    exact ⟨rfl, rfl⟩

/-- The tables after the pass for the start word `i`, against the candidates
of that pass. -/
theorem row_first_min (ws : List Nat) (pw sw : Int) (i : Nat) (t : Tables) :
    (∀ p ∈ admittedCosts pw sw ws.length (row ws pw sw i t).dp (ws.drop i) i (-1),
      (row ws pw sw i t).dp i ≤ p.2) ∧
    (((row ws pw sw i t).dp i = INT_MAX ∧ (row ws pw sw i t).ans i = t.ans i) ∨
      ((row ws pw sw i t).dp i < INT_MAX ∧
        ((row ws pw sw i t).ans i, (row ws pw sw i t).dp i) ∈
          admittedCosts pw sw ws.length (row ws pw sw i t).dp (ws.drop i) i (-1) ∧
        ∀ p ∈ admittedCosts pw sw ws.length (row ws pw sw i t).dp (ws.drop i) i (-1),
          p.1 < (row ws pw sw i t).ans i → (row ws pw sw i t).dp i < p.2)) := by
  have hc : admittedCosts pw sw ws.length (row ws pw sw i t).dp (ws.drop i) i (-1) =
      admittedCosts pw sw ws.length (Function.update t.dp i INT_MAX) (ws.drop i) i (-1) :=
    admittedCosts_congr pw sw ws.length (ws.drop i) i (-1) (fun k hk => by
      rw [(row_frame ws pw sw i t k (by omega)).1, Function.update_noteq (by omega)])
  rw [hc]
  obtain ⟨f1, _, f3⟩ := innerLoop_first_min pw sw ws.length i (ws.drop i) i (-1)
    ⟨Function.update t.dp i INT_MAX, t.ans⟩ (le_refl _)
  simp only [Function.update_same] at f1 f3
  exact ⟨f1, f3⟩

theorem outerLoop_first_min (ws : List Nat) (pw sw : Int) :
    ∀ (k : Nat) (t : Tables) (i : Nat), i < k →
      (∀ p ∈ admittedCosts pw sw ws.length (outerLoop ws pw sw k t).dp (ws.drop i) i (-1),
        (outerLoop ws pw sw k t).dp i ≤ p.2) ∧
      (((outerLoop ws pw sw k t).dp i = INT_MAX ∧ (outerLoop ws pw sw k t).ans i = t.ans i) ∨
        ((outerLoop ws pw sw k t).dp i < INT_MAX ∧
          ((outerLoop ws pw sw k t).ans i, (outerLoop ws pw sw k t).dp i) ∈
            admittedCosts pw sw ws.length (outerLoop ws pw sw k t).dp (ws.drop i) i (-1) ∧
          ∀ p ∈ admittedCosts pw sw ws.length (outerLoop ws pw sw k t).dp (ws.drop i) i (-1),
            p.1 < (outerLoop ws pw sw k t).ans i → (outerLoop ws pw sw k t).dp i < p.2)) := by
  intro k
  induction k with
  | zero => intro t i hi; omega
  | succ k ih =>
    intro t i hi
    simp only [outerLoop]
    rcases Nat.eq_or_lt_of_le (Nat.lt_succ_iff.mp hi) with e | hlt
    · subst e
      have hc : admittedCosts pw sw ws.length
          (outerLoop ws pw sw i (row ws pw sw i t)).dp (ws.drop i) i (-1) =
          admittedCosts pw sw ws.length (row ws pw sw i t).dp (ws.drop i) i (-1) :=
        admittedCosts_congr pw sw ws.length (ws.drop i) i (-1) (fun m hm =>
          (outerLoop_frame ws pw sw i (row ws pw sw i t) m (by omega)).1)
      obtain ⟨e1, e2⟩ := outerLoop_frame ws pw sw i (row ws pw sw i t) i (le_refl _)
      rw [hc, e1, e2]
      exact row_first_min ws pw sw i t
    · have h := ih (row ws pw sw k t) i hlt
      rw [(row_frame ws pw sw k t i (by omega)).2] at h
      exact h

/-- C19 (amended): ties go to the shortest line whenever the pass has found a
cost below the sentinel. For every word sequence, page width, space width and
table content, and every start word `i < n - 1`, with the candidates the inner
loop admits from `i` and the costs it computes for them: `dp[i]` is at most
each of these costs and at most `INT_MAX`; it is below `INT_MAX` exactly when
some admitted candidate costs less than `INT_MAX`, and then `ans[i]` is an
admitted candidate of cost `dp[i]` and every admitted candidate before it costs
strictly more. -/
theorem ties_choose_first_minimum (ws : List Nat) (pw sw : Int) (garbage : Tables) (i : Nat)
    (hi : i + 2 ≤ ws.length) :
    (∀ p ∈ admittedCosts pw sw ws.length (solve ws pw sw garbage).dp (ws.drop i) i (-1),
      (solve ws pw sw garbage).dp i ≤ p.2) ∧
    (solve ws pw sw garbage).dp i ≤ INT_MAX ∧
    ((solve ws pw sw garbage).dp i < INT_MAX ↔
      ∃ p ∈ admittedCosts pw sw ws.length (solve ws pw sw garbage).dp (ws.drop i) i (-1),
        p.2 < INT_MAX) ∧
    ((solve ws pw sw garbage).dp i < INT_MAX →
      ((solve ws pw sw garbage).ans i, (solve ws pw sw garbage).dp i) ∈
        admittedCosts pw sw ws.length (solve ws pw sw garbage).dp (ws.drop i) i (-1) ∧
      ∀ p ∈ admittedCosts pw sw ws.length (solve ws pw sw garbage).dp (ws.drop i) i (-1),
        p.1 < (solve ws pw sw garbage).ans i → (solve ws pw sw garbage).dp i < p.2) := by
  have hn : ws.length ≠ 0 := by omega
  have hs : solve ws pw sw garbage = outerLoop ws pw sw (ws.length - 1)
      ⟨Function.update garbage.dp (ws.length - 1) 0,
        Function.update garbage.ans (ws.length - 1) (ws.length - 1)⟩ := by
    unfold solve
    simp only [hn, if_false]
  obtain ⟨f1, f2⟩ := outerLoop_first_min ws pw sw (ws.length - 1)
    ⟨Function.update garbage.dp (ws.length - 1) 0,
      Function.update garbage.ans (ws.length - 1) (ws.length - 1)⟩ i (by omega)
  rw [← hs] at f1 f2
  have hg : Function.update garbage.ans (ws.length - 1) (ws.length - 1) i = garbage.ans i :=
    Function.update_noteq (by omega) _ _
  simp only [hg] at f2
  refine ⟨f1, ?_, ⟨fun h => ?_, fun ⟨p, hp, hlt⟩ => lt_of_le_of_lt (f1 p hp) hlt⟩,
    fun h => ?_⟩
  · rcases f2 with ⟨e, _⟩ | ⟨g1, _, _⟩
    · exact le_of_eq e
    · exact le_of_lt g1
  · rcases f2 with ⟨e, _⟩ | ⟨_, g2, _⟩
    · omega
    · exact ⟨_, g2, h⟩
  · rcases f2 with ⟨e, _⟩ | ⟨_, g2, g3⟩
    · omega
    · exact ⟨g2, g3⟩

theorem ties_choose_first_minimum_witness :
    (∀ p ∈ admittedCosts 160 10 [50, 50, 50, 50].length
        (solve [50, 50, 50, 50] 160 10 zeroTables).dp ([50, 50, 50, 50].drop 0) 0 (-1),
      (solve [50, 50, 50, 50] 160 10 zeroTables).dp 0 ≤ p.2) ∧
    (solve [50, 50, 50, 50] 160 10 zeroTables).dp 0 ≤ INT_MAX ∧
    ((solve [50, 50, 50, 50] 160 10 zeroTables).dp 0 < INT_MAX ↔
      ∃ p ∈ admittedCosts 160 10 [50, 50, 50, 50].length
          (solve [50, 50, 50, 50] 160 10 zeroTables).dp ([50, 50, 50, 50].drop 0) 0 (-1),
        p.2 < INT_MAX) ∧
    ((solve [50, 50, 50, 50] 160 10 zeroTables).dp 0 < INT_MAX →
      ((solve [50, 50, 50, 50] 160 10 zeroTables).ans 0,
          (solve [50, 50, 50, 50] 160 10 zeroTables).dp 0) ∈
        admittedCosts 160 10 [50, 50, 50, 50].length
          (solve [50, 50, 50, 50] 160 10 zeroTables).dp ([50, 50, 50, 50].drop 0) 0 (-1) ∧
      ∀ p ∈ admittedCosts 160 10 [50, 50, 50, 50].length
          (solve [50, 50, 50, 50] 160 10 zeroTables).dp ([50, 50, 50, 50].drop 0) 0 (-1),
        p.1 < (solve [50, 50, 50, 50] 160 10 zeroTables).ans 0 →
          (solve [50, 50, 50, 50] 160 10 zeroTables).dp 0 < p.2) :=
  ties_choose_first_minimum [50, 50, 50, 50] 160 10 zeroTables 0 (by decide)

/-- C19 (counterexample): five words of widths 3661, 49575, 49990, 49999 and
49999 with page width 50000 and space width 1. The start word 0 has one
admissible candidate, `j = 0`, and its cost is `INT_MAX`, which is also the
minimum `dp[0]`; the smallest admissible candidate of that cost is 0, but
`ans[0]` is what the table held before (here 7), since the cost is not
strictly below the sentinel. -/
theorem tie_with_sentinel_not_chosen :
    (0 : Nat) < 5 - 1 ∧
    admittedCosts 50000 1 5
      (solve [3661, 49575, 49990, 49999, 49999] 50000 1 ⟨fun _ => 0, fun _ => 7⟩).dp
      ([3661, 49575, 49990, 49999, 49999].drop 0) 0 (-1) = [(0, 2147483647)] ∧
    (solve [3661, 49575, 49990, 49999, 49999] 50000 1 ⟨fun _ => 0, fun _ => 7⟩).dp 0
      = 2147483647 ∧
    (solve [3661, 49575, 49990, 49999, 49999] 50000 1 ⟨fun _ => 0, fun _ => 7⟩).ans 0 = 7 := by
  refine ⟨by decide, by decide, by decide, by decide⟩

end TextBlock
